import Mathlib

/-!
# Histogram equalization (`ImageProcessing.cpp`, `Image.cpp`)

A shallow embedding of the equalization core and the properties proved about it.

Modelling conventions.

* `double` is idealised as `ℚ`: arithmetic is exact, there is no rounding. A `double` that
  is not a finite number (the quotient `1.0 / 0`) has no counterpart: a computation that
  uses it ends with `Fault.notFinite`.
* `size_t` is a `Nat` reduced modulo `2 ^ 64`, `int` is an `Int` reduced to the
  two's-complement range of 32 bits (also where C++ leaves a signed overflow undefined);
  the conversions between the two are the modular ones.
* Undefined behaviour (a subscript outside an array, an integer division by zero, a
  conversion of a `double` that is not representable) is the result `Except.error`.
* `std::thread::hardware_concurrency()` is the parameter `threads`.
* The tasks started with `std::async` are run one after another, in the order in which they
  are created: the row bands of one pass in the order `t = 0, 1, ...`, the three channel
  workers in the order `0, 1, 2`. The section on the concurrent workers is the exception:
  there a schedule interleaves the steps of the three channel workers.
* The assertions are enabled (`NDEBUG` is not defined).
-/

namespace Equalization

/-! ## Machine integers -/

/-- The value of a `size_t` expression: reduction modulo `2 ^ 64`. -/
def wrapSize (n : Nat) : Nat := n % 2 ^ 64

/-- Conversion of an `int` to `size_t`. -/
def toSizeT (i : Int) : Nat := (i % 2 ^ 64).toNat

/-- The value of an `int` expression, and the conversion of a `size_t` to `int`:
reduction to the range `[-2 ^ 31, 2 ^ 31)`. -/
def toInt (i : Int) : Int := (i + 2 ^ 31) % 2 ^ 32 - 2 ^ 31

/-- The kinds of undefined behaviour the code can run into, and `notFinite` for the use of a
`double` that is not a finite number. -/
inductive Fault where
  | divByZero
  | outOfBounds
  | badConversion
  | notFinite
deriving DecidableEq, Repr

/-! ## Data model -/

/-- Modelled from the spec: the declaration of `Pixel` (in `Image.h`, which is not among the
sources): three channel intensities `r`, `g`, `b`, each a `double`. -/
structure Pixel where
  r : ℚ
  g : ℚ
  b : ℚ
deriving DecidableEq, Repr

instance : Inhabited Pixel := ⟨⟨0, 0, 0⟩⟩

/-- Modelled from the spec: the declaration of `Rect` (in a header that is not among the
sources): an axis-aligned rectangle `(x, y, width, height)`; the fields are `int`, as in
`const int xEnd = roi.x + roi.width` and `Rect roi{0, 0, static_cast<int>(...), ...}`. -/
structure Rect where
  x : Int
  y : Int
  width : Int
  height : Int
deriving DecidableEq, Repr

/-- Modelled from the spec: the data members of `Image` (declared in `Image.h`, which is not
among the sources): `_width`, `_height` and the row-major pixel array `_data`. -/
structure Image where
  _width : Nat
  _height : Nat
  _data : List Pixel
deriving DecidableEq, Repr

namespace Image

/-- `Image::width`. -/
def width (image : Image) : Nat := image._width

/-- `Image::height`. -/
def height (image : Image) : Nat := image._height

/-- `Image::area`: `width() * height()` in `size_t`. -/
def area (image : Image) : Nat := wrapSize (image.width * image.height)

/-- The subscript `_width * y + x` of `getPixel` and `setPixel`, in `size_t`. -/
def index (image : Image) (x y : Nat) : Nat := wrapSize (image._width * y + x)

/-- `Image::getPixel`: `_data[_width * y + x]`, with no check of the coordinates. -/
def getPixel (image : Image) (x y : Nat) : Except Fault Pixel :=
  match image._data[image.index x y]? with
  | some p => .ok p
  | none => .error .outOfBounds

/-- `Image::setPixel`: `_data[_width * y + x] = value`, with no check of the coordinates. -/
def setPixel (image : Image) (x y : Nat) (value : Pixel) : Except Fault Image :=
  if image.index x y < image._data.length then
    .ok { image with _data := image._data.set (image.index x y) value }
  else .error .outOfBounds

end Image

/-- The selection `channel == 0 ? p.r : (channel == 1 ? p.g : p.b)`. -/
def Pixel.channel (p : Pixel) (channel : Int) : ℚ :=
  if channel = 0 then p.r else if channel = 1 then p.g else p.b

/-- The assignment `if (channel == 0) pixel.r = eq; else if (channel == 1) pixel.g = eq;
else pixel.b = eq;`. -/
def Pixel.setChannel (p : Pixel) (channel : Int) (eq : ℚ) : Pixel :=
  if channel = 0 then { p with r := eq }
  else if channel = 1 then { p with g := eq }
  else { p with b := eq }

/-- `MAX_VALUE = std::numeric_limits<uint16_t>::max()`. -/
def MAX_VALUE : Nat := 65535

/-- `const double scale = MAX_VALUE - 1`. -/
def scale : ℚ := ((MAX_VALUE - 1 : Nat) : ℚ)

/-- `Histogram = std::array<size_t, MAX_VALUE>`: an array of exactly `MAX_VALUE` counters of
type `size_t`. -/
structure Histogram where
  counts : Array Nat
  size_eq : counts.size = MAX_VALUE
  lt_size : ∀ i, counts.getD i 0 < 2 ^ 64

/-- The counter `h[i]` of a subscript `i < MAX_VALUE` (and `0` for any other `i`). -/
def Histogram.get (h : Histogram) (i : Nat) : Nat := h.counts.getD i 0

/-- The assignment `h[i] = v` of a `size_t` expression `v`, for a subscript `i < MAX_VALUE`
(no effect for any other `i`). -/
def Histogram.set (h : Histogram) (i : Nat) (v : Nat) : Histogram :=
  ⟨h.counts.setD i (wrapSize v), by rw [Array.size_setD]; exact h.size_eq, by
    intro j
    have hv : wrapSize v < 2 ^ 64 := Nat.mod_lt _ (by norm_num)
    have hj := h.lt_size j
    simp only [Array.getD_eq_get?, Array.setD] at hj ⊢
    split
    · rw [Array.get?_set]
      split
      · exact hv
      · exact hj
    · exact hj⟩

/-- The value-initialised histogram `Histogram hist{}`. -/
def Histogram.zero : Histogram :=
  ⟨mkArray MAX_VALUE 0, Array.size_mkArray _ _, by
    intro i
    simp only [Array.getD_eq_get?, Array.getElem?_mkArray]
    split <;> norm_num⟩

/-- The increment `++local[idx]`; a subscript outside the array is undefined behaviour. -/
def Histogram.incr (h : Histogram) (idx : Nat) : Except Fault Histogram :=
  if idx < MAX_VALUE then .ok (h.set idx (h.get idx + 1)) else .error .outOfBounds

/-- The read `cfh[idx]`; a subscript outside the array is undefined behaviour. -/
def Histogram.read (h : Histogram) (idx : Nat) : Except Fault Nat :=
  if idx < MAX_VALUE then .ok (h.get idx) else .error .outOfBounds

/-- The conversion `static_cast<size_t>(d)`: truncation towards zero, undefined when the
truncated value is not a `size_t`. -/
def toIndex (d : ℚ) : Except Fault Nat :=
  if -1 < d ∧ d < 2 ^ 64 then .ok ⌊d⌋.toNat else .error .badConversion

/-! ## Loops -/

/-- The iterations `i, i + 1, ..., i + n - 1` of a loop body over a state; the loop ends at
the first iteration that is undefined. -/
def forLoop {σ : Type} (body : Nat → σ → Except Fault σ) : Nat → Nat → σ → Except Fault σ
  | 0, _, s => .ok s
  | n + 1, i, s =>
    match body i s with
    | .ok s1 => forLoop body n (i + 1) s1
    | .error f => .error f

/-- The loop `for (size_t i = lo; i < hi; ++i) body` over a state. -/
def forRange {σ : Type} (lo hi : Nat) (body : Nat → σ → Except Fault σ) (s : σ) :
    Except Fault σ :=
  forLoop body (hi - lo) lo s

/-- The loop `for (int i = lo; i < hi; ++i) body` over a state. -/
def forRangeInt {σ : Type} (lo hi : Int) (body : Int → σ → Except Fault σ) (s : σ) :
    Except Fault σ :=
  forLoop (fun k s => body (lo + (k : Int)) s) (hi - lo).toNat 0 s

/-! ## `calculateHistogram` -/

/-- The body of the inner loop of a histogram task: read the pixel, select the channel,
quantize, increment. -/
def countPixel (image : Image) (channel : Int) (x y : Nat) (h : Histogram) :
    Except Fault Histogram := do
  let p ← image.getPixel x y
  let v := p.channel channel
  let idx ← toIndex (v * scale)
  Histogram.incr h idx

/-- The task of one band: the rows `y0 ≤ y < y1`, each from `x = 0` to `width - 1`. -/
def scanBand (image : Image) (channel : Int) (y0 y1 : Nat) (h : Histogram) :
    Except Fault Histogram :=
  forRange y0 y1 (fun y h => forRange 0 image.width (fun x h => countPixel image channel x y h) h) h

/-- The size of a band of `calculateHistogram`: `(height + threads - 1) / threads`. -/
def histBlock (height threads : Nat) : Nat :=
  wrapSize (height + threads + (2 ^ 64 - 1)) / threads

/-- The first row `y0 = t * block` of band `t`. -/
def histY0 (block t : Nat) : Nat := wrapSize (t * block)

/-- The end `y1 = std::min(height, y0 + block)` of band `t`. -/
def histY1 (height block t : Nat) : Nat := min height (wrapSize (histY0 block t + block))

/-- The histograms of the bands `t = 0, ..., threads - 1`, each counted from zero. -/
def bandHistograms (image : Image) (channel : Int) (threads : Nat) :
    Except Fault (List Histogram) :=
  if threads = 0 then .error .divByZero
  else
    let block := histBlock image.height threads
    (List.range threads).mapM (fun t =>
      scanBand image channel (histY0 block t) (histY1 image.height block t) Histogram.zero)

/-- The inner merge loop `for (i = 0; i < histSize; ++i) histogram[i] += p[i]`. -/
def mergeInto (histogram p : Histogram) : Histogram :=
  (List.range MAX_VALUE).foldl (fun h i => h.set i (h.get i + p.get i)) histogram

/-- The merge of the band histograms into `histogram`, in the order of the list. -/
def mergeAll (histogram : Histogram) (ps : List Histogram) : Histogram :=
  ps.foldl mergeInto histogram

/-- `calculateHistogram(image, channel, histogram)`: the new value of `histogram`. -/
def calculateHistogram (image : Image) (channel : Int) (histogram : Histogram)
    (threads : Nat) : Except Fault Histogram := do
  let ps ← bandHistograms image channel threads
  pure (mergeAll histogram ps)

/-! ## `calculateCFH` -/

/-- `calculateCFH(histogram, cfh)`: the values of `histogram` and of `cfh` on return. The
state of the loop is the pair of `sum` and `cfh`. -/
def calculateCFH (histogram cfh : Histogram) : Histogram × Histogram :=
  let r := (List.range MAX_VALUE).foldl
    (fun (s : Nat × Histogram) i =>
      (wrapSize (s.1 + histogram.get i), s.2.set i (wrapSize (s.1 + histogram.get i))))
    (0, cfh)
  (histogram, r.2)

/-! ## `equalizeChannel` -/

/-- The body of the inner loop of a remap task; `invArea` is `none` when `1.0 / image.area()`
is not a finite number. -/
def equalizePixel (channel : Int) (cfh : Histogram) (invArea : Option ℚ) (x y : Int)
    (image : Image) : Except Fault Image := do
  let pixel ← image.getPixel (toSizeT x) (toSizeT y)
  let v := pixel.channel channel
  let idx ← toIndex (v * scale)
  let c ← Histogram.read cfh idx
  match invArea with
  | none => .error .notFinite
  | some inv =>
    let eq : ℚ := (c : ℚ) * inv
    image.setPixel (toSizeT x) (toSizeT y) (pixel.setChannel channel eq)

/-- The size of a band of `equalizeChannel`: `int block = (roi.height + threads - 1) / threads`,
computed in `size_t` and converted to `int`. -/
def eqBlock (roi : Rect) (threads : Nat) : Int :=
  toInt ((wrapSize (toSizeT roi.height + threads + (2 ^ 64 - 1)) / threads : Nat) : Int)

/-- The first row `int y0 = roi.y + t * block` of band `t`, computed in `size_t`. -/
def eqY0 (roi : Rect) (block : Int) (t : Nat) : Int :=
  toInt ((wrapSize (toSizeT roi.y + wrapSize (t * toSizeT block)) : Nat) : Int)

/-- The end `int y1 = std::min(roi.y + roi.height, y0 + block)` of band `t`. -/
def eqY1 (roi : Rect) (block : Int) (t : Nat) : Int :=
  min (toInt (roi.y + roi.height)) (toInt (eqY0 roi block t + block))

/-- `equalizeChannel(image, roi, channel, cfh)`: the new value of `image`. (The unused
`yEnd` is left out.) -/
def equalizeChannel (image : Image) (roi : Rect) (channel : Int) (cfh : Histogram)
    (threads : Nat) : Except Fault Image :=
  let xEnd : Int := toInt (roi.x + roi.width)
  let invArea : Option ℚ := if image.area = 0 then none else some (1 / (image.area : ℚ))
  if threads = 0 then .error .divByZero
  else
    let block := eqBlock roi threads
    forRange 0 threads (fun t image =>
      forRangeInt (eqY0 roi block t) (eqY1 roi block t) (fun y image =>
        forRangeInt roi.x xEnd (fun x image =>
          equalizePixel channel cfh invArea x y image) image) image) image

/-! ## `doHistogramEqualization` -/

/-- The lambda `worker` of `doHistogramEqualization`, for the channel `ch`. -/
def worker (roi : Rect) (threads : Nat) (ch : Int) (image : Image) : Except Fault Image := do
  let hist ← calculateHistogram image ch Histogram.zero threads
  let cfh := (calculateCFH hist Histogram.zero).2
  equalizeChannel image roi ch cfh threads

/-- How a call of `doHistogramEqualization` ends. -/
inductive Outcome where
  /-- The call returned; `image` is the buffer on return. -/
  | done (image : Image)
  /-- An `assert` failed; `image` is the buffer at that moment. -/
  | assertFailed (image : Image)
  /-- The call ran into undefined behaviour, or used a `double` that is not finite. -/
  | undefined (f : Fault)
deriving DecidableEq, Repr

/-- `doHistogramEqualization(image, roi)`, with the assertions enabled. -/
def doHistogramEqualization (image : Image) (roi : Rect) (threads : Nat) : Outcome :=
  if ¬ (roi.x ≥ 0) then .assertFailed image
  else if ¬ (toSizeT (toInt (roi.x + roi.width)) ≤ image.width) then .assertFailed image
  else if ¬ (roi.y ≥ 0) then .assertFailed image
  else if ¬ (toSizeT (toInt (roi.y + roi.height)) ≤ image.height) then .assertFailed image
  else
    match worker roi threads 0 image >>= worker roi threads 1 >>= worker roi threads 2 with
    | .ok image => .done image
    | .error f => .undefined f

/-! ## Vocabulary of the properties -/

/-- The bucket of a channel value: `floor(v * (MAX_VALUE - 1))`. -/
def bucketOf (v : ℚ) : Nat := ⌊v * scale⌋.toNat

/-- The pixel stored for the coordinates `(x, y)`. -/
def Image.pixelAt (image : Image) (x y : Nat) : Pixel :=
  image._data.getD (image._width * y + x) default

/-- The coordinates `(x, y)` with `x0 ≤ x < x1` and `y0 ≤ y < y1`, row by row. -/
def rectCoords (x0 x1 y0 y1 : Nat) : List (Nat × Nat) :=
  (List.range' y0 (y1 - y0)).flatMap (fun y => (List.range' x0 (x1 - x0)).map (fun x => (x, y)))

/-- The coordinates of all pixels of an image. -/
def Image.coords (image : Image) : List (Nat × Nat) :=
  rectCoords 0 image._width 0 image._height

/-- The bucket of the channel `channel` of the pixel at the coordinates `c`. -/
def Image.bucketAt (image : Image) (channel : Int) (c : Nat × Nat) : Nat :=
  bucketOf ((image.pixelAt c.1 c.2).channel channel)

/-- The number of pixels of the whole image whose channel value has the bucket `b`. -/
def bucketCount (image : Image) (channel : Int) (b : Nat) : Nat :=
  image.coords.countP (fun c => decide (image.bucketAt channel c = b))

/-- The number of pixels of the whole image whose channel value has a bucket `≤ i`. -/
def cumulativeCount (image : Image) (channel : Int) (i : Nat) : Nat :=
  image.coords.countP (fun c => decide (image.bucketAt channel c ≤ i))

/-- The size of the pixel array is `_width * _height`. -/
def Image.WellFormed (image : Image) : Prop :=
  image._data.length = image._width * image._height

/-- The three channel values of a pixel are in `[0, 1]`. -/
def Pixel.Normalized (p : Pixel) : Prop :=
  (0 ≤ p.r ∧ p.r ≤ 1) ∧ (0 ≤ p.g ∧ p.g ≤ 1) ∧ (0 ≤ p.b ∧ p.b ≤ 1)

/-- Every channel value of every pixel of the image is in `[0, 1]`. -/
def Image.Normalized (image : Image) : Prop :=
  ∀ p ∈ image._data, p.Normalized

/-- The Region invariant: `0 ≤ x`, `0 ≤ y`, `x + width ≤ image.width`,
`y + height ≤ image.height`. -/
def Rect.Valid (roi : Rect) (image : Image) : Prop :=
  0 ≤ roi.x ∧ 0 ≤ roi.y ∧ roi.x + roi.width ≤ image._width ∧ roi.y + roi.height ≤ image._height

/-- The pixel `(x, y)` lies inside the region. -/
def Rect.Contains (roi : Rect) (x y : Nat) : Prop :=
  (roi.x ≤ x ∧ (x : Int) < roi.x + roi.width) ∧ (roi.y ≤ y ∧ (y : Int) < roi.y + roi.height)

instance (roi : Rect) (x y : Nat) : Decidable (roi.Contains x y) := by
  unfold Rect.Contains; exact inferInstance

/-- The image in which the pixels inside the region are replaced by their image under `f`
and all other pixels are kept. -/
def Image.mapRegion (image : Image) (roi : Rect) (f : Pixel → Pixel) : Image :=
  { image with
    _data := (List.range image._data.length).map (fun j =>
      if roi.Contains (j % image._width) (j / image._width)
      then f (image._data.getD j default) else image._data.getD j default) }

/-- The dimensions of the image and the number of threads are small enough for the `int`
arithmetic of `equalizeChannel`: `width < 2 ^ 31` and `height + threads < 2 ^ 31`. -/
def Image.Fits (image : Image) (threads : Nat) : Prop :=
  image._width < 2 ^ 31 ∧ image._height + threads < 2 ^ 31

/-- The values of the channel `ch` of all pixels of the image are in `[0, 1]`. -/
def Image.ChannelNormalized (image : Image) (ch : Int) : Prop :=
  ∀ p ∈ image._data, 0 ≤ p.channel ch ∧ p.channel ch ≤ 1

/-- The new value of a pixel in `equalizeChannel`: the channel `ch` becomes
`cfh[bucket] * invArea`, the other channels are kept. -/
def remapPixel (ch : Int) (cfh : Histogram) (invArea : ℚ) (p : Pixel) : Pixel :=
  p.setChannel ch ((cfh.get (bucketOf (p.channel ch)) : ℚ) * invArea)

/-- The value that the pipeline of the channel `ch` gives to a channel value `v`: the number
of pixels of the whole image whose bucket is at most the bucket of `v`, divided by the area
of the whole image. -/
def equalizedValue (image : Image) (ch : Int) (v : ℚ) : ℚ :=
  (cumulativeCount image ch (bucketOf v) : ℚ) / ((image._width * image._height : Nat) : ℚ)

/-- The pixel after the pipeline of the channel `ch` alone. -/
def channelMap (image : Image) (ch : Int) (p : Pixel) : Pixel :=
  p.setChannel ch (equalizedValue image ch (p.channel ch))

/-- The pixel after the pipelines of the three channels. -/
def equalizedPixel (image : Image) (p : Pixel) : Pixel :=
  ⟨equalizedValue image 0 p.r, equalizedValue image 1 p.g, equalizedValue image 2 p.b⟩

/-- The three workers run one after another in the order of the list `order`. -/
def runWorkers (roi : Rect) (threads : Nat) (order : List Int) (image : Image) :
    Except Fault Image :=
  order.foldlM (fun im ch => worker roi threads ch im) image

/-- The pixel after the pipelines of the channels marked `true` (`dr` for channel 0, `dg` for
channel 1, `db` for channel 2). -/
def stagePixel (image : Image) (dr dg db : Bool) (p : Pixel) : Pixel :=
  ⟨if dr then equalizedValue image 0 p.r else p.r,
   if dg then equalizedValue image 1 p.g else p.g,
   if db then equalizedValue image 2 p.b else p.b⟩

/-- The fields of a `Rect` are values of the type `int`. -/
def Rect.IsInt (roi : Rect) : Prop :=
  (-2 ^ 31 ≤ roi.x ∧ roi.x < 2 ^ 31) ∧ (-2 ^ 31 ≤ roi.y ∧ roi.y < 2 ^ 31) ∧
  (-2 ^ 31 ≤ roi.width ∧ roi.width < 2 ^ 31) ∧ (-2 ^ 31 ≤ roi.height ∧ roi.height < 2 ^ 31)

/-- The sum of all counts of a histogram. -/
def Histogram.total (h : Histogram) : Nat := ∑ i ∈ Finset.range MAX_VALUE, h.get i

/-- Repeated application: `doHistogramEqualization` for the regions of a list, one call
after another on the same buffer, as long as the calls return. -/
def equalizeRepeatedly (threads : Nat) : List Rect → Image → Outcome
  | [], image => .done image
  | roi :: rois, image =>
    match doHistogramEqualization image roi threads with
    | .done image1 => equalizeRepeatedly threads rois image1
    | o => o

/-- A buffer of two pixels in one row, black and white. -/
def exImage : Image := ⟨2, 1, [⟨0, 0, 0⟩, ⟨1, 1, 1⟩]⟩

/-- The region of the left pixel of `exImage`. -/
def exRoi : Rect := ⟨0, 0, 1, 1⟩

/-- The region of the right pixel of `exImage`. -/
def exRoiRight : Rect := ⟨1, 0, 1, 1⟩

/-- A buffer of two dark pixels in one row, with the buckets `0` and `16383`. -/
def exDark : Image := ⟨2, 1, [⟨0, 0, 0⟩, ⟨1 / 4, 1 / 4, 1 / 4⟩]⟩

/-- The buffer `exDark` after the equalization of its left pixel. -/
def exDarkLeft : Image := ⟨2, 1, [⟨1 / 2, 1 / 2, 1 / 2⟩, ⟨1 / 4, 1 / 4, 1 / 4⟩]⟩

/-- A buffer of one column and four rows. -/
def exTall : Image := ⟨1, 4, [⟨0, 0, 0⟩, ⟨1, 1, 1⟩, ⟨0, 0, 0⟩, ⟨1, 1, 1⟩]⟩

/-- A rectangle of negative height that satisfies the four inequalities of the Region
invariant on `exTall`. -/
def exNegative : Rect := ⟨0, 3, 1, -3⟩

/-- A histogram with the counts `5` in bucket `3` and `2` in bucket `9`. -/
def exHistogram : Histogram := (Histogram.zero.set 3 5).set 9 2

/-! ## The bands as lists -/

/-- The row ranges `(y0, y1)` of the tasks that the loop
`for (size_t t = 0; t < threads; ++t)` of `calculateHistogram` creates, in the order of `t`. -/
def histBands (height threads : Nat) : List (Nat × Nat) :=
  (List.range threads).map (fun t =>
    (histY0 (histBlock height threads) t, histY1 height (histBlock height threads) t))

/-- The row ranges `(y0, y1)` of the tasks that the loop
`for (size_t t = 0; t < threads; ++t)` of `equalizeChannel` creates, in the order of `t`. -/
def eqBands (roi : Rect) (threads : Nat) : List (Int × Int) :=
  (List.range threads).map (fun t =>
    (eqY0 roi (eqBlock roi threads) t, eqY1 roi (eqBlock roi threads) t))

/-- The task of one band of `equalizeChannel`: the rows `y0 ≤ y < y1`, each from `x = roi.x`
to `xEnd - 1`. -/
def remapBand (roi : Rect) (channel : Int) (cfh : Histogram) (invArea : Option ℚ)
    (y0 y1 : Int) (image : Image) : Except Fault Image :=
  forRangeInt y0 y1 (fun y image =>
    forRangeInt roi.x (toInt (roi.x + roi.width)) (fun x image =>
      equalizePixel channel cfh invArea x y image) image) image

/-! ## The pipeline with the resolution as a parameter

The functions of this section are `calculateHistogram`, `calculateCFH` and `equalizeChannel`
with the constant `MAX_VALUE` replaced by the parameter `resolution`; a histogram
`std::array<size_t, resolution>` is a list of `resolution` counters. -/

/-- `const double scale = MAX_VALUE - 1`, for `MAX_VALUE = resolution`. -/
def scaleAt (resolution : Nat) : ℚ := ((resolution - 1 : Nat) : ℚ)

/-- The value-initialised histogram, for `MAX_VALUE = resolution`. -/
def zeroAt (resolution : Nat) : List Nat := List.replicate resolution 0

/-- The increment `++local[idx]`, for `MAX_VALUE = resolution`. -/
def incrAt (resolution : Nat) (h : List Nat) (idx : Nat) : Except Fault (List Nat) :=
  if idx < resolution then .ok (h.set idx (wrapSize (h.getD idx 0 + 1)))
  else .error .outOfBounds

/-- The read `cfh[idx]`, for `MAX_VALUE = resolution`. -/
def readAt (resolution : Nat) (h : List Nat) (idx : Nat) : Except Fault Nat :=
  if idx < resolution then .ok (h.getD idx 0) else .error .outOfBounds

/-- The body of the inner loop of a histogram task, for `MAX_VALUE = resolution`. -/
def countPixelAt (resolution : Nat) (image : Image) (channel : Int) (x y : Nat)
    (h : List Nat) : Except Fault (List Nat) := do
  let p ← image.getPixel x y
  let v := p.channel channel
  let idx ← toIndex (v * scaleAt resolution)
  incrAt resolution h idx

/-- The task of one band of `calculateHistogram`, for `MAX_VALUE = resolution`. -/
def scanBandAt (resolution : Nat) (image : Image) (channel : Int) (y0 y1 : Nat)
    (h : List Nat) : Except Fault (List Nat) :=
  forRange y0 y1 (fun y h =>
    forRange 0 image.width (fun x h => countPixelAt resolution image channel x y h) h) h

/-- The histograms of the bands, for `MAX_VALUE = resolution`. -/
def bandHistogramsAt (resolution : Nat) (image : Image) (channel : Int) (threads : Nat) :
    Except Fault (List (List Nat)) :=
  if threads = 0 then .error .divByZero
  else
    let block := histBlock image.height threads
    (List.range threads).mapM (fun t =>
      scanBandAt resolution image channel (histY0 block t) (histY1 image.height block t)
        (zeroAt resolution))

/-- The inner merge loop, for `MAX_VALUE = resolution`. -/
def mergeIntoAt (resolution : Nat) (histogram p : List Nat) : List Nat :=
  (List.range resolution).foldl
    (fun h i => h.set i (wrapSize (h.getD i 0 + p.getD i 0))) histogram

/-- `calculateHistogram`, for `MAX_VALUE = resolution`. -/
def calculateHistogramAt (resolution : Nat) (image : Image) (channel : Int)
    (histogram : List Nat) (threads : Nat) : Except Fault (List Nat) := do
  let ps ← bandHistogramsAt resolution image channel threads
  pure (ps.foldl (mergeIntoAt resolution) histogram)

/-- `calculateCFH`, for `MAX_VALUE = resolution`: the values of `histogram` and of `cfh` on
return. -/
def calculateCFHAt (resolution : Nat) (histogram cfh : List Nat) : List Nat × List Nat :=
  let r := (List.range resolution).foldl
    (fun (s : Nat × List Nat) i =>
      (wrapSize (s.1 + histogram.getD i 0), s.2.set i (wrapSize (s.1 + histogram.getD i 0))))
    (0, cfh)
  (histogram, r.2)

/-- The body of the inner loop of a remap task, for `MAX_VALUE = resolution`. -/
def equalizePixelAt (resolution : Nat) (channel : Int) (cfh : List Nat) (invArea : Option ℚ)
    (x y : Int) (image : Image) : Except Fault Image := do
  let pixel ← image.getPixel (toSizeT x) (toSizeT y)
  let v := pixel.channel channel
  let idx ← toIndex (v * scaleAt resolution)
  let c ← readAt resolution cfh idx
  match invArea with
  | none => .error .notFinite
  | some inv =>
    let eq : ℚ := (c : ℚ) * inv
    image.setPixel (toSizeT x) (toSizeT y) (pixel.setChannel channel eq)

/-- `equalizeChannel`, for `MAX_VALUE = resolution`. -/
def equalizeChannelAt (resolution : Nat) (image : Image) (roi : Rect) (channel : Int)
    (cfh : List Nat) (threads : Nat) : Except Fault Image :=
  let xEnd : Int := toInt (roi.x + roi.width)
  let invArea : Option ℚ := if image.area = 0 then none else some (1 / (image.area : ℚ))
  if threads = 0 then .error .divByZero
  else
    let block := eqBlock roi threads
    forRange 0 threads (fun t image =>
      forRangeInt (eqY0 roi block t) (eqY1 roi block t) (fun y image =>
        forRangeInt roi.x xEnd (fun x image =>
          equalizePixelAt resolution channel cfh invArea x y image) image) image) image

/-- The counters of a histogram, as a list. -/
def Histogram.toList (h : Histogram) : List Nat := h.counts.toList

/-! ## The three channel workers run concurrently

`doHistogramEqualization` starts its three workers with `std::launch::async`, so their
accesses to the shared buffer interleave. In the model below a worker advances in steps, and
a schedule says which worker takes the next step. The steps of a worker are: the histogram
pass together with the table (it only reads the buffer, and is taken as one step), then for
every pixel of the region the read `image.getPixel(x, y)` into the local copy `pixel`
(with the computation of the new channel value on the copy), and the write
`image.setPixel(x, y, pixel)` of that copy. The bands of one remap pass are visited one after
another, in the order of `t`. -/

/-- The values `lo, lo + 1, ..., hi - 1` of the loop `for (int i = lo; i < hi; ++i)`. -/
def intRange (lo hi : Int) : List Int :=
  (List.range (hi - lo).toNat).map (fun (k : Nat) => lo + (k : Int))

/-- The coordinates `(x, y)` that the remap pass of `equalizeChannel` visits, in the order of
its loops: band by band, row by row, from `x = roi.x` to `xEnd - 1`. -/
def remapOrder (roi : Rect) (threads : Nat) : List (Int × Int) :=
  (eqBands roi threads).flatMap (fun b =>
    (intRange b.1 b.2).flatMap (fun y =>
      (intRange roi.x (toInt (roi.x + roi.width))).map (fun x => (x, y))))

/-- The first part of the body of the inner loop of a remap task: the local copy `pixel` of
the pixel that `getPixel` returns, with the new value `eq` of the channel. -/
def fetchPixel (channel : Int) (cfh : Histogram) (invArea : Option ℚ) (x y : Int)
    (image : Image) : Except Fault Pixel := do
  let pixel ← image.getPixel (toSizeT x) (toSizeT y)
  let v := pixel.channel channel
  let idx ← toIndex (v * scale)
  let c ← Histogram.read cfh idx
  match invArea with
  | none => .error .notFinite
  | some inv =>
    let eq : ℚ := (c : ℚ) * inv
    pure (pixel.setChannel channel eq)

/-- Where a worker stands. -/
inductive Stage where
  /-- Before `calculateHistogram`. -/
  | start
  /-- In the remap pass, before `getPixel` for the pixel number `k` of the pass; `cfh` is the
  table of the worker and `invArea` its `1.0 / image.area()`. -/
  | reading (cfh : Histogram) (invArea : Option ℚ) (k : Nat)
  /-- In the remap pass, before `setPixel` for the pixel number `k`; `pixel` is the local
  copy, with the new value of the channel of the worker. -/
  | writing (cfh : Histogram) (invArea : Option ℚ) (k : Nat) (pixel : Pixel)
  /-- After the remap pass. -/
  | finished

/-- One step of the worker of the channel `ch` on the shared buffer `image`. -/
def Stage.step (roi : Rect) (threads : Nat) (ch : Int) (image : Image) :
    Stage → Except Fault (Image × Stage)
  | .start => do
    let hist ← calculateHistogram image ch Histogram.zero threads
    let cfh := (calculateCFH hist Histogram.zero).2
    if threads = 0 then .error .divByZero
    else
      pure (image,
        .reading cfh (if image.area = 0 then none else some (1 / (image.area : ℚ))) 0)
  | .reading cfh invArea k =>
    match (remapOrder roi threads)[k]? with
    | none => pure (image, .finished)
    | some c => do
      let pixel ← fetchPixel ch cfh invArea c.1 c.2 image
      pure (image, .writing cfh invArea k pixel)
  | .writing cfh invArea k pixel =>
    match (remapOrder roi threads)[k]? with
    | none => pure (image, .finished)
    | some c => do
      let image1 ← image.setPixel (toSizeT c.1) (toSizeT c.2) pixel
      pure (image1, .reading cfh invArea (k + 1))
  | .finished => pure (image, .finished)

/-- The shared buffer and the stages of the workers of the channels 0, 1 and 2. -/
structure Concurrent where
  image : Image
  stageR : Stage
  stageG : Stage
  stageB : Stage

/-- The state in which `doHistogramEqualization` starts its three workers. -/
def Concurrent.init (image : Image) : Concurrent := ⟨image, .start, .start, .start⟩

/-- One step of the worker `w` (0, 1 or 2; any other number stands for no step). -/
def Concurrent.step (roi : Rect) (threads : Nat) (s : Concurrent) (w : Nat) :
    Except Fault Concurrent :=
  match w with
  | 0 => do
    let r ← Stage.step roi threads 0 s.image s.stageR
    pure { s with image := r.1, stageR := r.2 }
  | 1 => do
    let r ← Stage.step roi threads 1 s.image s.stageG
    pure { s with image := r.1, stageG := r.2 }
  | 2 => do
    let r ← Stage.step roi threads 2 s.image s.stageB
    pure { s with image := r.1, stageB := r.2 }
  | _ => pure s

/-- The run of a schedule: the list of the workers that take the steps, in order. -/
def Concurrent.run (roi : Rect) (threads : Nat) (schedule : List Nat) (s : Concurrent) :
    Except Fault Concurrent :=
  schedule.foldlM (Concurrent.step roi threads) s

/-- The worker of the channel `ch` takes `n` steps in a row, with no step of another worker
in between. -/
def Stage.steps (roi : Rect) (threads : Nat) (ch : Int) :
    Nat → Image × Stage → Except Fault (Image × Stage)
  | 0, s => .ok s
  | n + 1, s =>
    match Stage.step roi threads ch s.1 s.2 with
    | .ok s1 => Stage.steps roi threads ch n s1
    | .error f => .error f

/-! ## More example buffers -/

/-- A buffer of two rows of two pixels, with the red values `0`, `1 / 4`, `1 / 2`, `1`. -/
def exGrid : Image := ⟨2, 2, [⟨0, 0, 0⟩, ⟨1 / 4, 0, 0⟩, ⟨1 / 2, 0, 0⟩, ⟨1, 0, 0⟩]⟩

/-- A buffer of one black pixel. -/
def exDot : Image := ⟨1, 1, [⟨0, 0, 0⟩]⟩

/-- The region of the pixel of `exDot`. -/
def exDotRoi : Rect := ⟨0, 0, 1, 1⟩

/-! ## Machine integers: the values that are represented exactly -/

theorem wrapSize_of_lt {n : Nat} (h : n < 2 ^ 64) : wrapSize n = n := by
  unfold wrapSize; omega

theorem wrapSize_pred {n : Nat} (h0 : 1 ≤ n) (h : n ≤ 2 ^ 64) :
    wrapSize (n + (2 ^ 64 - 1)) = n - 1 := by
  unfold wrapSize; omega

theorem toSizeT_natCast {n : Nat} (h : n < 2 ^ 64) : toSizeT (n : Int) = n := by
  unfold toSizeT; omega

theorem toInt_of_mem {i : Int} (h0 : -2 ^ 31 ≤ i) (h1 : i < 2 ^ 31) : toInt i = i := by
  unfold toInt; omega

/-! ## Histograms as functions of the bucket -/

theorem getD_setD (a : Array Nat) (i v j : Nat) :
    (a.setD i v).getD j 0 = if i = j ∧ i < a.size then v else a.getD j 0 := by
  simp only [Array.getD_eq_get?, Array.setD]
  by_cases hi : i < a.size
  · rw [dif_pos hi, Array.get?_set]
    by_cases hij : i = j
    · subst hij
      simp [hi]
    · simp [hij]
  · rw [dif_neg hi]
    simp [hi]

theorem getD_mkArray (n j : Nat) : (mkArray n 0).getD j 0 = 0 := by
  simp only [Array.getD_eq_get?, Array.getElem?_mkArray]
  split <;> rfl

theorem Histogram.get_set (h : Histogram) (i v j : Nat) :
    (h.set i v).get j = if i = j ∧ i < MAX_VALUE then wrapSize v else h.get j := by
  unfold Histogram.get Histogram.set
  rw [getD_setD, h.size_eq]

theorem Histogram.get_lt (h : Histogram) (j : Nat) : h.get j < 2 ^ 64 :=
  h.lt_size j

theorem wrapSize_get (h : Histogram) (j : Nat) : wrapSize (h.get j) = h.get j :=
  wrapSize_of_lt (h.get_lt j)

theorem wrapSize_wrapSize_add (a b : Nat) : wrapSize (wrapSize a + b) = wrapSize (a + b) := by
  unfold wrapSize
  omega

theorem wrapSize_wrapSize (a : Nat) : wrapSize (wrapSize a) = wrapSize a := by
  unfold wrapSize
  omega

theorem Histogram.get_mk (c : Array Nat) (hc : c.size = MAX_VALUE)
    (hl : ∀ i, c.getD i 0 < 2 ^ 64) (j : Nat) :
    (Histogram.mk c hc hl).get j = c.getD j 0 := rfl

theorem Histogram.get_zero (j : Nat) : Histogram.zero.get j = 0 := by
  rw [Histogram.zero, Histogram.get_mk, getD_mkArray]

theorem Histogram.get_of_le (h : Histogram) {j : Nat} (hj : MAX_VALUE ≤ j) : h.get j = 0 := by
  unfold Histogram.get
  have hle : h.counts.size ≤ j := by rw [h.size_eq]; exact hj
  rw [Array.getD_eq_get?, Array.getElem?_len_le _ hle]
  rfl

theorem Histogram.ext_get {h1 h2 : Histogram} (hget : ∀ j, j < MAX_VALUE → h1.get j = h2.get j) :
    h1 = h2 := by
  cases h1 with
  | mk c1 s1 l1 =>
    cases h2 with
    | mk c2 s2 l2 =>
      have hc : c1 = c2 := by
        apply Array.ext
        · rw [s1, s2]
        · intro i hi1 hi2
          have := hget i (by rw [← s1]; exact hi1)
          simpa [Histogram.get, Array.getElem?_eq_getElem, hi1, hi2] using this
      subst hc
      rfl

/-! ## Loops as folds -/

theorem forLoop_eq_foldlM {σ : Type} (body : Nat → σ → Except Fault σ) (n i : Nat) (s : σ) :
    forLoop body n i s = (List.range' i n).foldlM (fun s j => body j s) s := by
  induction n generalizing i s with
  | zero => rfl
  | succ n ih =>
    rw [List.range'_succ, List.foldlM_cons, forLoop]
    cases hb : body i s with
    | error f => rfl
    | ok s1 => simpa using ih (i + 1) s1

theorem foldlM_flatMap {σ α β : Type} (f : σ → β → Except Fault σ) (g : α → List β)
    (l : List α) (s : σ) :
    (l.flatMap g).foldlM f s = l.foldlM (fun s a => (g a).foldlM f s) s := by
  induction l generalizing s with
  | nil => rfl
  | cons a l ih =>
    rw [List.flatMap_cons, List.foldlM_append, List.foldlM_cons]
    cases hb : (g a).foldlM f s with
    | error e => rfl
    | ok s1 => simpa using ih s1

theorem foldlM_map_fun {σ α β : Type} (f : σ → β → Except Fault σ) (g : α → β)
    (l : List α) (s : σ) :
    (l.map g).foldlM f s = l.foldlM (fun s a => f s (g a)) s := by
  induction l generalizing s with
  | nil => rfl
  | cons a l ih =>
    rw [List.map_cons, List.foldlM_cons, List.foldlM_cons]
    cases hb : f s (g a) with
    | error e => rfl
    | ok s1 => simpa using ih s1

/-- A fold whose steps all succeed is the fold of the results. -/
theorem foldlM_ok_of_forall {σ α : Type} (f : σ → α → Except Fault σ) (g : σ → α → σ)
    (l : List α) (hstep : ∀ a ∈ l, ∀ s, f s a = .ok (g s a)) (s : σ) :
    l.foldlM f s = .ok (l.foldl g s) := by
  induction l generalizing s with
  | nil => rfl
  | cons a l ih =>
    rw [List.foldlM_cons, hstep a (List.mem_cons_self _ _) s, List.foldl_cons]
    simpa using ih (fun b hb => hstep b (List.mem_cons_of_mem _ hb)) (g s a)

/-! ## Coordinates -/

theorem mem_rectCoords {x0 x1 y0 y1 : Nat} {c : Nat × Nat} :
    c ∈ rectCoords x0 x1 y0 y1 ↔ (x0 ≤ c.1 ∧ c.1 < x1) ∧ (y0 ≤ c.2 ∧ c.2 < y1) := by
  obtain ⟨x, y⟩ := c
  simp only [rectCoords, List.mem_flatMap, List.mem_map, List.mem_range'_1, Prod.mk.injEq]
  constructor
  · rintro ⟨y', hy, x', hx, rfl, rfl⟩
    omega
  · rintro ⟨hx, hy⟩
    exact ⟨y, by omega, x, by omega, rfl, rfl⟩

theorem rectCoords_append (x0 x1 : Nat) {a b c : Nat} (hab : a ≤ b) (hbc : b ≤ c) :
    rectCoords x0 x1 a b ++ rectCoords x0 x1 b c = rectCoords x0 x1 a c := by
  unfold rectCoords
  rw [← List.flatMap_append]
  congr 1
  have h := List.range'_append a (b - a) (c - b) 1
  rw [show a + 1 * (b - a) = b by omega, show c - b + (b - a) = c - a by omega] at h
  exact h

theorem rectCoords_eq_nil (x0 x1 : Nat) {a b : Nat} (h : b ≤ a) : rectCoords x0 x1 a b = [] := by
  unfold rectCoords
  rw [show b - a = 0 by omega]
  rfl

theorem nodup_rectCoords (x0 x1 y0 y1 : Nat) : (rectCoords x0 x1 y0 y1).Nodup := by
  unfold rectCoords
  rw [List.nodup_flatMap]
  refine ⟨?_, ?_⟩
  · intro y _
    exact (List.nodup_range' _ _).map (fun a b hab => by simpa using hab)
  · refine (List.nodup_range' _ _).pairwise_of_forall_ne ?_
    intro a _ b _ hab
    intro c hca hcb
    simp only [List.mem_map] at hca hcb
    obtain ⟨_, _, rfl⟩ := hca
    obtain ⟨_, _, h⟩ := hcb
    exact hab (by simpa using (congrArg Prod.snd h).symm)

theorem length_rectCoords (x0 x1 y0 y1 : Nat) :
    (rectCoords x0 x1 y0 y1).length = (x1 - x0) * (y1 - y0) := by
  unfold rectCoords
  have key : ∀ l : List Nat,
      (l.flatMap (fun y => (List.range' x0 (x1 - x0)).map (fun x => (x, y)))).length
        = (x1 - x0) * l.length := by
    intro l
    induction l with
    | nil => rfl
    | cons a l ih =>
      rw [List.flatMap_cons, List.length_append, ih, List.length_map, List.length_range',
        List.length_cons, Nat.mul_succ, Nat.add_comm]
  rw [key, List.length_range']

/-! ## Quantization -/

theorem scale_eq : scale = 65534 := by
  unfold scale MAX_VALUE
  norm_num

theorem Pixel.Normalized.channel_mem {p : Pixel} (hp : p.Normalized) (ch : Int) :
    0 ≤ p.channel ch ∧ p.channel ch ≤ 1 := by
  unfold Pixel.channel
  split
  · exact hp.1
  · split
    · exact hp.2.1
    · exact hp.2.2

theorem bucketOf_lt {v : ℚ} (h1 : v ≤ 1) : bucketOf v < MAX_VALUE := by
  unfold bucketOf
  rw [scale_eq]
  have h : ⌊v * 65534⌋ < 65535 := by
    rw [Int.floor_lt]
    push_cast
    linarith
  unfold MAX_VALUE
  omega

theorem toIndex_ok {v : ℚ} (h0 : 0 ≤ v) (h1 : v ≤ 1) : toIndex (v * scale) = .ok (bucketOf v) := by
  unfold toIndex bucketOf
  rw [scale_eq]
  rw [if_pos]
  constructor
  · linarith
  · have : (2 : ℚ) ^ 64 = 18446744073709551616 := by norm_num
    rw [this]
    linarith

/-! ## Pixel access inside the image -/

theorem index_lt {w h x y : Nat} (hx : x < w) (hy : y < h) : w * y + x < w * h := by
  have h1 : w * (y + 1) ≤ w * h := Nat.mul_le_mul_left w hy
  rw [Nat.mul_succ] at h1
  omega

theorem Image.area_lt_of_fits {image : Image} {threads : Nat} (hfit : image.Fits threads) :
    image._width * image._height < 2 ^ 62 := by
  have h1 : image._width * image._height ≤ 2 ^ 31 * 2 ^ 31 :=
    Nat.mul_le_mul (Nat.le_of_lt hfit.1) (by have := hfit.2; omega)
  have h2 : (2 : Nat) ^ 31 * 2 ^ 31 = 2 ^ 62 := by norm_num
  have h3 : image._width * image._height ≠ 2 ^ 62 := by
    intro heq
    have h4 : image._width * image._height ≤ (2 ^ 31 - 1) * (2 ^ 31 - 1) :=
      Nat.mul_le_mul (by have := hfit.1; omega) (by have := hfit.2; omega)
    have h5 : ((2 : Nat) ^ 31 - 1) * (2 ^ 31 - 1) < 2 ^ 62 := by norm_num
    omega
  omega

theorem Image.index_eq {image : Image} {threads x y : Nat} (hfit : image.Fits threads)
    (hx : x < image._width) (hy : y < image._height) :
    image.index x y = image._width * y + x := by
  unfold Image.index
  apply wrapSize_of_lt
  have h1 := index_lt hx hy
  have h2 := Image.area_lt_of_fits hfit
  omega

theorem Image.getPixel_ok {image : Image} {threads x y : Nat} (hwf : image.WellFormed)
    (hfit : image.Fits threads) (hx : x < image._width) (hy : y < image._height) :
    image.getPixel x y = .ok (image.pixelAt x y) := by
  unfold Image.getPixel Image.pixelAt
  rw [Image.index_eq hfit hx hy]
  have hlt : image._width * y + x < image._data.length := by
    rw [hwf]; exact index_lt hx hy
  rw [List.getElem?_eq_getElem hlt, List.getD_eq_getElem _ _ hlt]

theorem Image.pixelAt_mem {image : Image} {x y : Nat} (hwf : image.WellFormed)
    (hx : x < image._width) (hy : y < image._height) : image.pixelAt x y ∈ image._data := by
  unfold Image.pixelAt
  have hlt : image._width * y + x < image._data.length := by
    rw [hwf]; exact index_lt hx hy
  rw [List.getD_eq_getElem _ _ hlt]
  exact List.getElem_mem _

theorem Image.bucketAt_lt {image : Image} {x y : Nat} (hwf : image.WellFormed)
    (ch : Int) (hn : image.ChannelNormalized ch) (hx : x < image._width) (hy : y < image._height) :
    image.bucketAt ch (x, y) < MAX_VALUE := by
  have hp := hn _ (Image.pixelAt_mem hwf hx hy)
  exact bucketOf_lt hp.2

/-! ## The histogram pass -/

theorem countPixel_ok {image : Image} {threads x y : Nat} (hwf : image.WellFormed)
    (ch : Int) (hn : image.ChannelNormalized ch) (hfit : image.Fits threads)
    (hx : x < image._width) (hy : y < image._height) (h : Histogram) :
    countPixel image ch x y h
      = .ok (h.set (image.bucketAt ch (x, y)) (h.get (image.bucketAt ch (x, y)) + 1)) := by
  have hp := hn _ (Image.pixelAt_mem hwf hx hy)
  unfold countPixel
  rw [Image.getPixel_ok hwf hfit hx hy]
  simp only [bind, Except.bind]
  rw [toIndex_ok hp.1 hp.2]
  simp only [Histogram.incr]
  rw [if_pos (bucketOf_lt hp.2)]
  rfl

theorem scanBand_eq_foldlM (image : Image) (ch : Int) (y0 y1 : Nat) (h : Histogram) :
    scanBand image ch y0 y1 h
      = (rectCoords 0 image._width y0 y1).foldlM (fun h c => countPixel image ch c.1 c.2 h) h := by
  unfold scanBand forRange rectCoords Image.width
  rw [forLoop_eq_foldlM, foldlM_flatMap]
  congr 1
  funext h y
  rw [forLoop_eq_foldlM, foldlM_map_fun]

/-- The histogram after the increments for the buckets `k c` of the coordinates of a list. -/
theorem get_foldl_incr {α : Type} (k : α → Nat) (l : List α) (hk : ∀ c ∈ l, k c < MAX_VALUE)
    (h : Histogram) (b : Nat) :
    (l.foldl (fun h c => h.set (k c) (h.get (k c) + 1)) h).get b
      = wrapSize (h.get b + l.countP (fun c => decide (k c = b))) := by
  induction l generalizing h with
  | nil =>
    rw [List.foldl_nil, List.countP_nil, Nat.add_zero, wrapSize_get]
  | cons a l ih =>
    rw [List.foldl_cons, ih (fun c hc => hk c (List.mem_cons_of_mem _ hc)), Histogram.get_set,
      List.countP_cons]
    have ha := hk a (List.mem_cons_self _ _)
    by_cases hab : k a = b
    · subst hab
      rw [if_pos ⟨rfl, ha⟩, wrapSize_wrapSize_add]
      simp only [decide_True, if_true]
      congr 1
      omega
    · have hne : ¬ (k a = b ∧ k a < MAX_VALUE) := fun hc => hab hc.1
      rw [if_neg hne]
      simp [hab]

theorem scanBand_ok {image : Image} {threads : Nat} (hwf : image.WellFormed)
    (ch : Int) (hn : image.ChannelNormalized ch) (hfit : image.Fits threads) (y0 y1 : Nat)
    (hy1 : y1 ≤ image._height) (h : Histogram) :
    ∃ h1, scanBand image ch y0 y1 h = .ok h1 ∧ ∀ b, h1.get b
      = wrapSize (h.get b + (rectCoords 0 image._width y0 y1).countP
          (fun c => decide (image.bucketAt ch c = b))) := by
  have hin : ∀ c ∈ rectCoords 0 image._width y0 y1, c.1 < image._width ∧ c.2 < image._height := by
    intro c hc
    rw [mem_rectCoords] at hc
    omega
  refine ⟨(rectCoords 0 image._width y0 y1).foldl
    (fun h c => h.set (image.bucketAt ch c) (h.get (image.bucketAt ch c) + 1)) h, ?_, ?_⟩
  · rw [scanBand_eq_foldlM]
    exact foldlM_ok_of_forall _
      (fun h c => h.set (image.bucketAt ch c) (h.get (image.bucketAt ch c) + 1)) _
      (fun c hc h => countPixel_ok hwf ch hn hfit (hin c hc).1 (hin c hc).2 h) h
  · intro b
    exact get_foldl_incr (image.bucketAt ch) _
      (fun c hc => Image.bucketAt_lt hwf ch hn (hin c hc).1 (hin c hc).2) h b

/-! ### The bands of `calculateHistogram` -/

theorem histBlock_eq {height threads : Nat} (hT : 1 ≤ threads) (hlt : height + threads < 2 ^ 31) :
    histBlock height threads = (height + threads - 1) / threads := by
  unfold histBlock
  rw [wrapSize_pred (by omega) (by omega)]

theorem le_mul_block (height : Nat) {threads : Nat} (hT : 1 ≤ threads) :
    height ≤ threads * ((height + threads - 1) / threads) := by
  have h1 := Nat.div_add_mod (height + threads - 1) threads
  have h2 := Nat.mod_lt (height + threads - 1) (show threads > 0 by omega)
  omega

theorem block_le (height : Nat) {threads : Nat} (hT : 1 ≤ threads) :
    (height + threads - 1) / threads ≤ height := by
  rcases Nat.eq_zero_or_pos height with h0 | h0
  · subst h0
    rw [Nat.zero_add, Nat.div_eq_of_lt (by omega)]
  · apply Nat.div_le_of_le_mul
    obtain ⟨k, rfl⟩ : ∃ k, height = k + 1 := ⟨height - 1, by omega⟩
    obtain ⟨m, rfl⟩ : ∃ m, threads = m + 1 := ⟨threads - 1, by omega⟩
    have : (m + 1) * (k + 1) = m * k + m + k + 1 := by ring
    omega

theorem mul_block_lt {height threads t : Nat} (hT : 1 ≤ threads) (ht : t < threads)
    (hlt : height + threads < 2 ^ 31) :
    t * ((height + threads - 1) / threads) + (height + threads - 1) / threads < 2 ^ 62 := by
  have h1 := block_le height hT
  have h2 : (t + 1) * ((height + threads - 1) / threads) ≤ 2 ^ 31 * 2 ^ 31 :=
    Nat.mul_le_mul (by omega) (by omega)
  have h3 : (2 : Nat) ^ 31 * 2 ^ 31 = 2 ^ 62 := by norm_num
  have h4 : (t + 1) * ((height + threads - 1) / threads) ≠ 2 ^ 62 := by
    intro heq
    have h5 : (t + 1) * ((height + threads - 1) / threads) ≤ (2 ^ 31 - 1) * (2 ^ 31 - 1) :=
      Nat.mul_le_mul (by omega) (by omega)
    have h6 : ((2 : Nat) ^ 31 - 1) * (2 ^ 31 - 1) < 2 ^ 62 := by norm_num
    omega
  rw [Nat.succ_mul] at h2 h4
  omega

theorem histY0_eq {height threads t : Nat} (hT : 1 ≤ threads) (ht : t < threads)
    (hlt : height + threads < 2 ^ 31) :
    histY0 ((height + threads - 1) / threads) t = t * ((height + threads - 1) / threads) := by
  unfold histY0
  apply wrapSize_of_lt
  exact Nat.lt_of_le_of_lt (Nat.le_add_right _ _)
    (Nat.lt_trans (mul_block_lt hT ht hlt) (by norm_num))

theorem histY1_eq {height threads t : Nat} (hT : 1 ≤ threads) (ht : t < threads)
    (hlt : height + threads < 2 ^ 31) :
    histY1 height ((height + threads - 1) / threads) t
      = min height (t * ((height + threads - 1) / threads) + (height + threads - 1) / threads) := by
  unfold histY1
  rw [histY0_eq hT ht hlt, wrapSize_of_lt]
  exact Nat.lt_trans (mul_block_lt hT ht hlt) (by norm_num)

/-- The bands `[y0 + t * block, min (y0 + h, y0 + t * block + block))` for `t < k` are, one
after another, the rows `[y0, min (y0 + h, y0 + k * block))`. -/
theorem bands_flatMap (x0 x1 y0 h block : Nat) (k : Nat) :
    (List.range k).flatMap (fun t =>
        rectCoords x0 x1 (y0 + t * block) (min (y0 + h) (y0 + t * block + block)))
      = rectCoords x0 x1 y0 (min (y0 + h) (y0 + k * block)) := by
  induction k with
  | zero =>
    rw [List.range_zero, List.flatMap_nil,
      rectCoords_eq_nil x0 x1 (a := y0) (b := min (y0 + h) (y0 + 0 * block)) (by omega)]
  | succ k ih =>
    rw [List.range_succ, List.flatMap_append, ih, List.flatMap_singleton, Nat.succ_mul]
    rcases Nat.le_total (k * block) h with hk | hk
    · rw [Nat.min_eq_right (show y0 + k * block ≤ y0 + h by omega)]
      refine (rectCoords_append x0 x1 (a := y0) (b := y0 + k * block)
        (c := min (y0 + h) (y0 + k * block + block)) (Nat.le_add_right _ _) (by omega)).trans ?_
      congr 1
      omega
    · rw [rectCoords_eq_nil x0 x1 (a := y0 + k * block) (by omega), List.append_nil]
      congr 1
      omega

theorem mapM_ok_forall₂ {α β : Type} {f : α → Except Fault β} {P : α → β → Prop} (l : List α)
    (h : ∀ a ∈ l, ∃ b, f a = .ok b ∧ P a b) :
    ∃ bs, l.mapM f = .ok bs ∧ List.Forall₂ P l bs := by
  induction l with
  | nil => exact ⟨[], rfl, List.Forall₂.nil⟩
  | cons a l ih =>
    obtain ⟨b, hb, hP⟩ := h a (List.mem_cons_self _ _)
    obtain ⟨bs, hbs, hF⟩ := ih (fun c hc => h c (List.mem_cons_of_mem _ hc))
    refine ⟨b :: bs, ?_, List.Forall₂.cons hP hF⟩
    rw [List.mapM_cons, hb, hbs]
    rfl

theorem sum_get_of_forall₂ {α : Type} {l : List α} {ps : List Histogram} {c : α → Nat} {b : Nat}
    (h : List.Forall₂ (fun a (p : Histogram) => p.get b = c a) l ps) :
    (ps.map (fun p => p.get b)).sum = (l.map c).sum := by
  induction h with
  | nil => rfl
  | cons h1 _ ih => simp [h1, ih]

/-! ### The merge -/

theorem mergeInto_get (h p : Histogram) (b : Nat) :
    (mergeInto h p).get b = wrapSize (h.get b + p.get b) := by
  have key : ∀ n, n ≤ MAX_VALUE →
      ((List.range n).foldl (fun h i => h.set i (h.get i + p.get i)) h).get b
        = if b < n then wrapSize (h.get b + p.get b) else h.get b := by
    intro n
    induction n with
    | zero => intro _; simp
    | succ n ih =>
      intro hn
      rw [List.range_succ, List.foldl_append, List.foldl_cons, List.foldl_nil, Histogram.get_set]
      by_cases hb : n = b
      · subst hb
        rw [if_pos ⟨rfl, by omega⟩, ih (by omega), if_neg (Nat.lt_irrefl _),
          if_pos (Nat.lt_succ_self _)]
      · have hne : ¬ (n = b ∧ n < MAX_VALUE) := fun hc => hb hc.1
        rw [if_neg hne, ih (by omega)]
        by_cases hlt : b < n
        · rw [if_pos hlt, if_pos (by omega)]
        · rw [if_neg hlt, if_neg (by omega)]
  unfold mergeInto
  rw [key MAX_VALUE (Nat.le_refl _)]
  by_cases hb : b < MAX_VALUE
  · rw [if_pos hb]
  · rw [if_neg hb, Histogram.get_of_le p (by omega), Nat.add_zero, wrapSize_get]

theorem mergeAll_get (h : Histogram) (ps : List Histogram) (b : Nat) :
    (mergeAll h ps).get b = wrapSize (h.get b + (ps.map (fun p => p.get b)).sum) := by
  unfold mergeAll
  induction ps generalizing h with
  | nil =>
    rw [List.foldl_nil, List.map_nil, List.sum_nil, Nat.add_zero, wrapSize_get]
  | cons p ps ih =>
    rw [List.foldl_cons, ih, mergeInto_get, List.map_cons, List.sum_cons, wrapSize_wrapSize_add,
      Nat.add_assoc]

theorem countP_flatMap_eq {α β : Type} (p : β → Bool) (f : α → List β) (l : List α) :
    (l.flatMap f).countP p = (l.map (fun a => (f a).countP p)).sum := by
  rw [List.flatMap_def, List.countP_flatten, List.map_map]
  rfl

theorem bandHistograms_ok {image : Image} {threads : Nat} (hwf : image.WellFormed)
    (ch : Int) (hn : image.ChannelNormalized ch) (hfit : image.Fits threads) (hT : 1 ≤ threads) :
    ∃ ps, bandHistograms image ch threads = .ok ps ∧
      List.Forall₂ (fun t (p : Histogram) => ∀ b, p.get b
        = (rectCoords 0 image._width (t * ((image._height + threads - 1) / threads))
            (min image._height (t * ((image._height + threads - 1) / threads)
              + (image._height + threads - 1) / threads))).countP
            (fun c => decide (image.bucketAt ch c = b))) (List.range threads) ps := by
  unfold bandHistograms
  rw [if_neg (by omega)]
  simp only [Image.height]
  rw [histBlock_eq hT hfit.2]
  apply mapM_ok_forall₂
  intro t ht
  rw [List.mem_range] at ht
  rw [histY0_eq hT ht hfit.2, histY1_eq hT ht hfit.2]
  obtain ⟨h1, hok, hget⟩ := scanBand_ok hwf ch hn hfit
    (t * ((image._height + threads - 1) / threads))
    (min image._height (t * ((image._height + threads - 1) / threads)
      + (image._height + threads - 1) / threads)) (Nat.min_le_left _ _) Histogram.zero
  refine ⟨h1, hok, ?_⟩
  intro b
  rw [hget b, Histogram.get_zero, Nat.zero_add]
  apply wrapSize_of_lt
  have h1 : List.countP (fun c => decide (image.bucketAt ch c = b))
      (rectCoords 0 image._width (t * ((image._height + threads - 1) / threads))
        (min image._height (t * ((image._height + threads - 1) / threads)
          + (image._height + threads - 1) / threads)))
      ≤ image._width * image._height := by
    refine Nat.le_trans (List.countP_le_length _) ?_
    rw [length_rectCoords, Nat.sub_zero]
    exact Nat.mul_le_mul_left _ (Nat.le_trans (Nat.sub_le _ _) (Nat.min_le_left _ _))
  have h2 := Image.area_lt_of_fits hfit
  omega

/-- `calculateHistogram` adds to every bucket the number of pixels of the whole image that
fall into it. -/
theorem calculateHistogram_ok {image : Image} {threads : Nat} (hwf : image.WellFormed)
    (ch : Int) (hn : image.ChannelNormalized ch) (hfit : image.Fits threads) (hT : 1 ≤ threads)
    (h : Histogram) :
    ∃ h1, calculateHistogram image ch h threads = .ok h1 ∧
      ∀ b, h1.get b = wrapSize (h.get b + bucketCount image ch b) := by
  obtain ⟨ps, hps, hF⟩ := bandHistograms_ok hwf ch hn hfit hT
  refine ⟨mergeAll h ps, ?_, ?_⟩
  · unfold calculateHistogram
    rw [hps]
    rfl
  · intro b
    rw [mergeAll_get]
    congr 2
    rw [sum_get_of_forall₂ (hF.imp (fun _ _ hp => hp b)),
      ← countP_flatMap_eq (fun c => decide (image.bucketAt ch c = b))
        (fun t => rectCoords 0 image._width (t * ((image._height + threads - 1) / threads))
          (min image._height (t * ((image._height + threads - 1) / threads)
            + (image._height + threads - 1) / threads)))]
    have hb := bands_flatMap 0 image._width 0 image._height
      ((image._height + threads - 1) / threads) threads
    simp only [Nat.zero_add] at hb
    rw [hb, Nat.min_eq_left (le_mul_block image._height hT)]
    rfl

/-! ## The cumulative table -/

theorem calculateCFH_fold (h cfh : Histogram) (n : Nat) (hn : n ≤ MAX_VALUE) :
    ((List.range n).foldl
        (fun (s : Nat × Histogram) i =>
          (wrapSize (s.1 + h.get i), s.2.set i (wrapSize (s.1 + h.get i)))) (0, cfh)).1
        = wrapSize (∑ j ∈ Finset.range n, h.get j) ∧
    ∀ i, ((List.range n).foldl
        (fun (s : Nat × Histogram) i =>
          (wrapSize (s.1 + h.get i), s.2.set i (wrapSize (s.1 + h.get i)))) (0, cfh)).2.get i
        = if i < n then wrapSize (∑ j ∈ Finset.range (i + 1), h.get j) else cfh.get i := by
  induction n with
  | zero =>
    refine ⟨?_, ?_⟩
    · rw [List.range_zero, List.foldl_nil, Finset.range_zero, Finset.sum_empty]
      rfl
    · intro i
      rw [List.range_zero, List.foldl_nil, if_neg (Nat.not_lt_zero _)]
  | succ n ih =>
    obtain ⟨ih1, ih2⟩ := ih (by omega)
    rw [List.range_succ, List.foldl_append, List.foldl_cons, List.foldl_nil]
    refine ⟨?_, ?_⟩
    · rw [ih1, Finset.sum_range_succ, wrapSize_wrapSize_add]
    · intro i
      rw [Histogram.get_set, ih1, ih2]
      by_cases hi : n = i
      · subst hi
        rw [if_pos ⟨rfl, by omega⟩, if_pos (Nat.lt_succ_self _), wrapSize_wrapSize,
          wrapSize_wrapSize_add, Finset.sum_range_succ _ n]
      · have hne : ¬ (n = i ∧ n < MAX_VALUE) := fun hc => hi hc.1
        rw [if_neg hne]
        by_cases hlt : i < n
        · rw [if_pos hlt, if_pos (by omega)]
        · rw [if_neg hlt, if_neg (by omega)]

theorem calculateCFH_get (h cfh : Histogram) (i : Nat) (hi : i < MAX_VALUE) :
    (calculateCFH h cfh).2.get i = wrapSize (∑ j ∈ Finset.range (i + 1), h.get j) := by
  unfold calculateCFH
  simp only []
  rw [(calculateCFH_fold h cfh MAX_VALUE (Nat.le_refl _)).2 i, if_pos hi]

theorem sum_countP_eq {α : Type} (k : α → Nat) (l : List α) (i : Nat) :
    ∑ j ∈ Finset.range (i + 1), l.countP (fun c => decide (k c = j))
      = l.countP (fun c => decide (k c ≤ i)) := by
  induction l with
  | nil => simp
  | cons a l ih =>
    simp only [List.countP_cons, Finset.sum_add_distrib, ih]
    congr 1
    by_cases ha : k a ≤ i
    · simp [ha, Finset.sum_ite_eq, Nat.lt_succ_of_le ha]
    · simp only [decide_eq_true_eq, ha, if_false]
      apply Finset.sum_eq_zero
      intro j hj
      rw [Finset.mem_range] at hj
      rw [if_neg (by omega)]

theorem sum_bucketCount (image : Image) (ch : Int) (i : Nat) :
    ∑ j ∈ Finset.range (i + 1), bucketCount image ch j = cumulativeCount image ch i :=
  sum_countP_eq (image.bucketAt ch) image.coords i

theorem Image.length_coords (image : Image) :
    image.coords.length = image._width * image._height := by
  unfold Image.coords
  rw [length_rectCoords, Nat.sub_zero, Nat.sub_zero]

theorem cumulativeCount_le (image : Image) (ch : Int) (i : Nat) :
    cumulativeCount image ch i ≤ image._width * image._height := by
  unfold cumulativeCount
  rw [← Image.length_coords]
  exact List.countP_le_length _

theorem bucketCount_le (image : Image) (ch : Int) (b : Nat) :
    bucketCount image ch b ≤ image._width * image._height := by
  unfold bucketCount
  rw [← Image.length_coords]
  exact List.countP_le_length _

theorem wrapSize_bucketCount {image : Image} {threads : Nat} (hfit : image.Fits threads)
    (ch : Int) (b : Nat) : wrapSize (bucketCount image ch b) = bucketCount image ch b := by
  apply wrapSize_of_lt
  have h1 := bucketCount_le image ch b
  have h2 := Image.area_lt_of_fits hfit
  omega

theorem wrapSize_cumulativeCount {image : Image} {threads : Nat} (hfit : image.Fits threads)
    (ch : Int) (i : Nat) : wrapSize (cumulativeCount image ch i) = cumulativeCount image ch i := by
  apply wrapSize_of_lt
  have h1 := cumulativeCount_le image ch i
  have h2 := Image.area_lt_of_fits hfit
  omega

/-! ## The remap pass -/

theorem forRangeInt_natCast {σ : Type} (a b : Nat) (body : Int → σ → Except Fault σ) (s : σ) :
    forRangeInt (a : Int) (b : Int) body s
      = (List.range' a (b - a)).foldlM (fun s (j : Nat) => body (j : Int) s) s := by
  unfold forRangeInt
  rw [forLoop_eq_foldlM]
  have hn : ((b : Int) - (a : Int)).toNat = b - a := by omega
  rw [hn, List.range'_eq_map_range a, foldlM_map_fun, ← List.range_eq_range']
  congr 1

theorem getD_set (l : List Pixel) (i j : Nat) (v d : Pixel) :
    (l.set i v).getD j d = if i = j ∧ i < l.length then v else l.getD j d := by
  simp only [List.getD_eq_getElem?_getD, List.getElem?_set]
  by_cases hij : i = j
  · subst hij
    by_cases hi : i < l.length
    · simp [hi]
    · simp [hi, List.getElem?_eq_none (Nat.le_of_not_lt hi)]
  · simp [hij]

theorem index_inj {w x y x1 y1 : Nat} (hx : x < w) (hx1 : x1 < w)
    (h : w * y + x = w * y1 + x1) : x = x1 ∧ y = y1 := by
  have h1 : (w * y + x) % w = x := by rw [Nat.mul_add_mod, Nat.mod_eq_of_lt hx]
  have h2 : (w * y1 + x1) % w = x1 := by rw [Nat.mul_add_mod, Nat.mod_eq_of_lt hx1]
  have h3 : (w * y + x) / w = y := by
    rw [Nat.mul_add_div (by omega), Nat.div_eq_of_lt hx, Nat.add_zero]
  have h4 : (w * y1 + x1) / w = y1 := by
    rw [Nat.mul_add_div (by omega), Nat.div_eq_of_lt hx1, Nat.add_zero]
  rw [h] at h1 h3
  exact ⟨h1.symm.trans h2, h3.symm.trans h4⟩

theorem equalizePixel_ok {image : Image} {threads x y : Nat} (hwf : image.WellFormed)
    (hfit : image.Fits threads) (ch : Int) (cfh : Histogram) (invArea : ℚ)
    (hx : x < image._width) (hy : y < image._height)
    (hv : 0 ≤ (image.pixelAt x y).channel ch ∧ (image.pixelAt x y).channel ch ≤ 1) :
    equalizePixel ch cfh (some invArea) (x : Int) (y : Int) image
      = .ok { image with
          _data := image._data.set (image._width * y + x)
            (remapPixel ch cfh invArea (image.pixelAt x y)) } := by
  have hx64 : x < 2 ^ 64 := by have := hfit.1; omega
  have hy64 : y < 2 ^ 64 := by have := hfit.2; omega
  unfold equalizePixel
  rw [toSizeT_natCast hx64, toSizeT_natCast hy64, Image.getPixel_ok hwf hfit hx hy]
  simp only [bind, Except.bind]
  rw [toIndex_ok hv.1 hv.2]
  simp only [Histogram.read]
  rw [if_pos (bucketOf_lt hv.2)]
  simp only [Image.setPixel]
  rw [Image.index_eq hfit hx hy, if_pos (by rw [hwf]; exact index_lt hx hy)]
  rfl

/-- The remap loop over a list of distinct coordinates inside the image: every listed pixel
is remapped once, from its value before the loop; all other pixels are kept. -/
theorem foldlM_equalizePixel {threads : Nat} (ch : Int) (cfh : Histogram) (invArea : ℚ)
    (l : List (Nat × Nat)) (hnd : l.Nodup) (image : Image) (hwf : image.WellFormed)
    (hfit : image.Fits threads)
    (hin : ∀ c ∈ l, c.1 < image._width ∧ c.2 < image._height)
    (hv : ∀ c ∈ l, 0 ≤ (image.pixelAt c.1 c.2).channel ch ∧ (image.pixelAt c.1 c.2).channel ch ≤ 1) :
    ∃ image1, l.foldlM
        (fun im c => equalizePixel ch cfh (some invArea) (c.1 : Int) (c.2 : Int) im) image
        = .ok image1 ∧
      image1._width = image._width ∧ image1._height = image._height ∧
      image1._data.length = image._data.length ∧
      ∀ j, image1._data.getD j default
        = if (∃ c ∈ l, image._width * c.2 + c.1 = j)
          then remapPixel ch cfh invArea (image._data.getD j default)
          else image._data.getD j default := by
  induction l generalizing image with
  | nil =>
    refine ⟨image, rfl, rfl, rfl, rfl, ?_⟩
    intro j
    simp
  | cons c l ih =>
    have hc := hin c (List.mem_cons_self _ _)
    have hcl : image._width * c.2 + c.1 < image._data.length := by
      rw [hwf]; exact index_lt hc.1 hc.2
    have hnd1 := List.nodup_cons.mp hnd
    have hne : ∀ c1 ∈ l, image._width * c.2 + c.1 ≠ image._width * c1.2 + c1.1 := by
      intro c1 hc1 heq
      have hc1in := hin c1 (List.mem_cons_of_mem _ hc1)
      have := index_inj hc.1 hc1in.1 heq
      exact hnd1.1 (by rw [Prod.ext this.1 this.2]; exact hc1)
    obtain ⟨image1, hok, hw1, hh1, hlen1, hget1⟩ := ih hnd1.2
      { image with
        _data := image._data.set (image._width * c.2 + c.1)
          (remapPixel ch cfh invArea (image.pixelAt c.1 c.2)) }
      (by unfold Image.WellFormed; rw [List.length_set]; exact hwf)
      hfit
      (fun c1 hc1 => hin c1 (List.mem_cons_of_mem _ hc1))
      (fun c1 hc1 => by
        have h1 := hv c1 (List.mem_cons_of_mem _ hc1)
        unfold Image.pixelAt at h1 ⊢
        simp only []
        rw [getD_set, if_neg (fun hcon => hne c1 hc1 hcon.1)]
        exact h1)
    refine ⟨image1, ?_, hw1, hh1, ?_, ?_⟩
    · rw [List.foldlM_cons, equalizePixel_ok hwf hfit ch cfh invArea hc.1 hc.2
        (hv c (List.mem_cons_self _ _))]
      exact hok
    · rw [hlen1, List.length_set]
    · intro j
      rw [hget1 j]
      simp only []
      rw [getD_set]
      by_cases hex : ∃ c1 ∈ l, image._width * c1.2 + c1.1 = j
      · obtain ⟨c1, hc1, hj⟩ := hex
        have hcj : ¬ (image._width * c.2 + c.1 = j ∧ image._width * c.2 + c.1 < image._data.length) :=
          fun hcon => hne c1 hc1 (hcon.1.trans hj.symm)
        rw [if_pos ⟨c1, hc1, hj⟩, if_neg hcj, if_pos ⟨c1, List.mem_cons_of_mem _ hc1, hj⟩]
      · rw [if_neg hex]
        by_cases hcj : image._width * c.2 + c.1 = j
        · rw [if_pos ⟨hcj, hcl⟩, if_pos ⟨c, List.mem_cons_self _ _, hcj⟩]
          unfold Image.pixelAt
          rw [hcj]
        · rw [if_neg (fun hcon => hcj hcon.1), if_neg]
          rintro ⟨c1, hc1, hj⟩
          rcases List.mem_cons.mp hc1 with rfl | hc1
          · exact hcj hj
          · exact hex ⟨c1, hc1, hj⟩

/-! ### The bands of `equalizeChannel` -/

theorem succ_mul_block_le {h threads t : Nat} (ht : t < threads) :
    t * ((h + threads - 1) / threads) + (h + threads - 1) / threads ≤ h + threads - 1 := by
  have h1 : (t + 1) * ((h + threads - 1) / threads) ≤ threads * ((h + threads - 1) / threads) :=
    Nat.mul_le_mul_right _ ht
  have h2 := Nat.mul_div_le (h + threads - 1) threads
  rw [Nat.succ_mul] at h1
  omega

theorem eqBlock_eq {roi : Rect} {rh threads : Nat} (hrh : roi.height = (rh : Int))
    (hT : 1 ≤ threads) (hlt : rh + threads < 2 ^ 31) :
    eqBlock roi threads = (((rh + threads - 1) / threads : Nat) : Int) := by
  have hb := block_le rh hT
  unfold eqBlock
  rw [hrh, toSizeT_natCast (by omega), wrapSize_pred (by omega) (by omega)]
  generalize (rh + threads - 1) / threads = q at hb ⊢
  rw [toInt_of_mem (by omega) (by omega)]

theorem eqY0_eq {roi : Rect} {ry blk t : Nat} (hry : roi.y = (ry : Int))
    (hlt : ry + t * blk + blk < 2 ^ 31) :
    eqY0 roi (blk : Int) t = ((ry + t * blk : Nat) : Int) := by
  unfold eqY0
  rw [hry, toSizeT_natCast (by omega), toSizeT_natCast (by omega),
    wrapSize_of_lt (n := t * blk) (by omega), wrapSize_of_lt (by omega),
    toInt_of_mem (by omega) (by omega)]

theorem eqY1_eq {roi : Rect} {ry rh blk t : Nat} (hry : roi.y = (ry : Int))
    (hrh : roi.height = (rh : Int)) (hlt : ry + t * blk + blk < 2 ^ 31)
    (hlt1 : ry + rh < 2 ^ 31) :
    eqY1 roi (blk : Int) t = ((min (ry + rh) (ry + t * blk + blk) : Nat) : Int) := by
  unfold eqY1
  rw [eqY0_eq hry hlt, hry, hrh, toInt_of_mem (by omega) (by omega),
    toInt_of_mem (by omega) (by omega)]
  omega

theorem foldlM_congr {σ α : Type} {f g : σ → α → Except Fault σ} (l : List α)
    (h : ∀ a ∈ l, ∀ s, f s a = g s a) (s : σ) : l.foldlM f s = l.foldlM g s := by
  induction l generalizing s with
  | nil => rfl
  | cons a l ih =>
    rw [List.foldlM_cons, List.foldlM_cons, h a (List.mem_cons_self _ _) s]
    cases hb : g s a with
    | error e => rfl
    | ok s1 => simpa using ih (fun b hb => h b (List.mem_cons_of_mem _ hb)) s1

/-- The loops of `equalizeChannel` visit the pixels of the region, row by row. -/
theorem equalizeChannel_eq_foldlM {image : Image} {roi : Rect} {threads : Nat}
    {rx ry rw rh : Nat} (hrx : roi.x = (rx : Int)) (hry : roi.y = (ry : Int))
    (hrw : roi.width = (rw : Int)) (hrh : roi.height = (rh : Int))
    (hT : 1 ≤ threads) (hx : rx + rw < 2 ^ 31) (hy : ry + rh + threads < 2 ^ 31)
    (ch : Int) (cfh : Histogram) :
    equalizeChannel image roi ch cfh threads
      = (rectCoords rx (rx + rw) ry (ry + rh)).foldlM
          (fun im c => equalizePixel ch cfh
            (if image.area = 0 then none else some (1 / (image.area : ℚ))) (c.1 : Int) (c.2 : Int) im)
          image := by
  unfold equalizeChannel
  simp only []
  rw [if_neg (by omega), eqBlock_eq hrh hT (by omega)]
  unfold forRange
  rw [forLoop_eq_foldlM, Nat.sub_zero, ← List.range_eq_range']
  have hband : ∀ t ∈ List.range threads, ∀ im : Image,
      forRangeInt (eqY0 roi (((rh + threads - 1) / threads : Nat) : Int) t)
          (eqY1 roi (((rh + threads - 1) / threads : Nat) : Int) t)
          (fun y im1 => forRangeInt roi.x (toInt (roi.x + roi.width))
            (fun x im2 => equalizePixel ch cfh
            (if image.area = 0 then none else some (1 / (image.area : ℚ))) x y im2) im1) im
        = (rectCoords rx (rx + rw) (ry + t * ((rh + threads - 1) / threads))
            (min (ry + rh) (ry + t * ((rh + threads - 1) / threads)
              + (rh + threads - 1) / threads))).foldlM
            (fun im c => equalizePixel ch cfh
            (if image.area = 0 then none else some (1 / (image.area : ℚ))) (c.1 : Int) (c.2 : Int) im)
            im := by
    intro t ht im
    rw [List.mem_range] at ht
    have hb := succ_mul_block_le (h := rh) ht
    rw [eqY0_eq hry (by omega), eqY1_eq hry hrh (by omega) (by omega), forRangeInt_natCast]
    unfold rectCoords
    rw [foldlM_flatMap]
    congr 1
    funext im y
    rw [hrx, hrw, toInt_of_mem (by omega) (by omega)]
    have hcast : ((rx : Int) + (rw : Int)) = ((rx + rw : Nat) : Int) := by push_cast; rfl
    rw [hcast, forRangeInt_natCast, foldlM_map_fun]
  rw [foldlM_congr _ hband, ← foldlM_flatMap, bands_flatMap,
    Nat.min_eq_left (by have := le_mul_block rh hT; omega)]

theorem Image.ext_getD {a b : Image} (hw : a._width = b._width) (hh : a._height = b._height)
    (hl : a._data.length = b._data.length)
    (hd : ∀ j, j < b._data.length → a._data.getD j default = b._data.getD j default) : a = b := by
  obtain ⟨aw, ah, ad⟩ := a
  obtain ⟨bw, bh, bd⟩ := b
  simp only [] at hw hh hl hd
  subst hw hh
  have : ad = bd := by
    apply List.ext_getElem hl
    intro j h1 h2
    have := hd j h2
    rwa [List.getD_eq_getElem _ _ h1, List.getD_eq_getElem _ _ h2] at this
  rw [this]

theorem Image.mapRegion_getD (image : Image) (roi : Rect) (f : Pixel → Pixel) {j : Nat}
    (hj : j < image._data.length) :
    (image.mapRegion roi f)._data.getD j default
      = if roi.Contains (j % image._width) (j / image._width)
        then f (image._data.getD j default) else image._data.getD j default := by
  unfold Image.mapRegion
  simp only []
  rw [List.getD_eq_getElem _ _ (by simpa using hj), List.getElem_map, List.getElem_range]

theorem Image.mapRegion_length (image : Image) (roi : Rect) (f : Pixel → Pixel) :
    (image.mapRegion roi f)._data.length = image._data.length := by
  unfold Image.mapRegion
  simp

theorem Rect.contains_iff {roi : Rect} {rx ry rw rh : Nat} (hrx : roi.x = (rx : Int))
    (hry : roi.y = (ry : Int)) (hrw : roi.width = (rw : Int)) (hrh : roi.height = (rh : Int))
    (x y : Nat) :
    roi.Contains x y ↔ (rx ≤ x ∧ x < rx + rw) ∧ (ry ≤ y ∧ y < ry + rh) := by
  unfold Rect.Contains
  rw [hrx, hry, hrw, hrh]
  omega

theorem Image.area_eq {image : Image} {threads : Nat} (hfit : image.Fits threads) :
    image.area = image._width * image._height := by
  unfold Image.area Image.width Image.height
  apply wrapSize_of_lt
  have := Image.area_lt_of_fits hfit
  omega

/-- `equalizeChannel` remaps the pixels inside the region with the table `cfh` and the area
of the whole image, and keeps all other pixels. -/
theorem equalizeChannel_ok_of_region {image : Image} {roi : Rect} {threads : Nat}
    (hwf : image.WellFormed) (hfit : image.Fits threads) (hT : 1 ≤ threads)
    (hroi : roi.Valid image) (hw : 0 ≤ roi.width) (hh : 0 ≤ roi.height)
    (ch : Int)
    (hv : ∀ x y, x < image._width → y < image._height → roi.Contains x y →
      0 ≤ (image.pixelAt x y).channel ch ∧ (image.pixelAt x y).channel ch ≤ 1)
    (cfh : Histogram) :
    equalizeChannel image roi ch cfh threads
      = .ok (image.mapRegion roi
          (remapPixel ch cfh (1 / ((image._width * image._height : Nat) : ℚ)))) := by
  obtain ⟨hx0, hy0, hxw, hyh⟩ := hroi
  have hrx := (Int.toNat_of_nonneg hx0).symm
  have hry := (Int.toNat_of_nonneg hy0).symm
  have hrw := (Int.toNat_of_nonneg hw).symm
  have hrh := (Int.toNat_of_nonneg hh).symm
  generalize roi.x.toNat = rx at hrx
  generalize roi.y.toNat = ry at hry
  generalize roi.width.toNat = rw at hrw
  generalize roi.height.toNat = rh at hrh
  rw [hrx, hrw] at hxw
  rw [hry, hrh] at hyh
  have hfw := hfit.1
  have hfh := hfit.2
  have hxw1 : rx + rw ≤ image._width := by omega
  have hyh1 : ry + rh ≤ image._height := by omega
  rw [equalizeChannel_eq_foldlM hrx hry hrw hrh hT (by omega) (by omega), Image.area_eq hfit]
  by_cases harea : image._width * image._height = 0
  · have hnil : rectCoords rx (rx + rw) ry (ry + rh) = [] := by
      apply List.eq_nil_of_length_eq_zero
      rw [length_rectCoords]
      rcases Nat.mul_eq_zero.mp harea with h0 | h0
      · rw [show rx + rw - rx = 0 by omega, Nat.zero_mul]
      · rw [show ry + rh - ry = 0 by omega, Nat.mul_zero]
    rw [hnil, List.foldlM_nil]
    have hlen : image._data.length = 0 := by rw [hwf, harea]
    have himg : image.mapRegion roi
        (remapPixel ch cfh (1 / ((image._width * image._height : Nat) : ℚ))) = image := by
      refine Image.ext_getD (a := image.mapRegion roi
        (remapPixel ch cfh (1 / ((image._width * image._height : Nat) : ℚ))))
        (b := image) rfl rfl (Image.mapRegion_length _ _ _) ?_
      intro j hj
      omega
    rw [himg]
    rfl
  rw [if_neg harea]
  have hin : ∀ c ∈ rectCoords rx (rx + rw) ry (ry + rh),
      c.1 < image._width ∧ c.2 < image._height := by
    intro c hc
    rw [mem_rectCoords] at hc
    omega
  obtain ⟨image1, hok, hw1, hh1, hlen1, hget1⟩ := foldlM_equalizePixel ch cfh
    (1 / ((image._width * image._height : Nat) : ℚ)) _ (nodup_rectCoords rx (rx + rw) ry (ry + rh))
    image hwf hfit hin
    (fun c hc => hv c.1 c.2 (hin c hc).1 (hin c hc).2
      ((Rect.contains_iff hrx hry hrw hrh c.1 c.2).mpr (mem_rectCoords.mp hc)))
  rw [hok]
  congr 1
  apply Image.ext_getD (b := image.mapRegion roi
    (remapPixel ch cfh (1 / ((image._width * image._height : Nat) : ℚ)))) hw1 hh1
  · rw [hlen1, Image.mapRegion_length]
  · intro j hj
    rw [Image.mapRegion_length] at hj
    rw [hget1 j, Image.mapRegion_getD image roi _ hj]
    have hiff : (∃ c ∈ rectCoords rx (rx + rw) ry (ry + rh), image._width * c.2 + c.1 = j)
        ↔ roi.Contains (j % image._width) (j / image._width) := by
      rw [Rect.contains_iff hrx hry hrw hrh]
      constructor
      · rintro ⟨c, hc, hcj⟩
        have hcin := hin c hc
        rw [mem_rectCoords] at hc
        have h1 : (image._width * c.2 + c.1) % image._width = c.1 := by
          rw [Nat.mul_add_mod, Nat.mod_eq_of_lt hcin.1]
        have h3 : (image._width * c.2 + c.1) / image._width = c.2 := by
          rw [Nat.mul_add_div (by omega), Nat.div_eq_of_lt hcin.1, Nat.add_zero]
        rw [← hcj, h1, h3]
        exact hc
      · intro hc
        refine ⟨(j % image._width, j / image._width), mem_rectCoords.mpr hc, ?_⟩
        exact Nat.div_add_mod j image._width
    by_cases hc : roi.Contains (j % image._width) (j / image._width)
    · rw [if_pos hc, if_pos (hiff.mpr hc)]
    · rw [if_neg hc, if_neg (fun h => hc (hiff.mp h))]

theorem equalizeChannel_ok {image : Image} {roi : Rect} {threads : Nat}
    (hwf : image.WellFormed) (hfit : image.Fits threads) (hT : 1 ≤ threads)
    (hroi : roi.Valid image) (hw : 0 ≤ roi.width) (hh : 0 ≤ roi.height)
    (ch : Int) (hn : image.ChannelNormalized ch) (cfh : Histogram) :
    equalizeChannel image roi ch cfh threads
      = .ok (image.mapRegion roi
          (remapPixel ch cfh (1 / ((image._width * image._height : Nat) : ℚ)))) :=
  equalizeChannel_ok_of_region hwf hfit hT hroi hw hh ch
    (fun _ _ hx hy _ => hn _ (Image.pixelAt_mem hwf hx hy)) cfh

/-! ## The pipeline of one channel -/

theorem Image.mapRegion_congr (image : Image) (roi : Rect) {f g : Pixel → Pixel}
    (h : ∀ p ∈ image._data, f p = g p) : image.mapRegion roi f = image.mapRegion roi g := by
  unfold Image.mapRegion
  congr 1
  apply List.map_congr_left
  intro j hj
  rw [List.mem_range] at hj
  have hmem : image._data.getD j default ∈ image._data := by
    rw [List.getD_eq_getElem _ _ hj]
    exact List.getElem_mem _
  rw [h _ hmem]

theorem Image.mapRegion_mapRegion (image : Image) (roi : Rect) (f g : Pixel → Pixel) :
    (image.mapRegion roi f).mapRegion roi g = image.mapRegion roi (fun p => g (f p)) := by
  refine Image.ext_getD (a := (image.mapRegion roi f).mapRegion roi g)
    (b := image.mapRegion roi (fun p => g (f p))) rfl rfl ?_ ?_
  · rw [Image.mapRegion_length, Image.mapRegion_length, Image.mapRegion_length]
  · intro j hj
    rw [Image.mapRegion_length] at hj
    rw [Image.mapRegion_getD _ _ _ (by rw [Image.mapRegion_length]; exact hj),
      Image.mapRegion_getD _ _ _ hj, Image.mapRegion_getD _ _ _ hj]
    have hw : (image.mapRegion roi f)._width = image._width := rfl
    rw [hw]
    split <;> rfl

theorem Image.mapRegion_mem {image : Image} {roi : Rect} {f : Pixel → Pixel} {q : Pixel}
    (hq : q ∈ (image.mapRegion roi f)._data) : ∃ p ∈ image._data, q = p ∨ q = f p := by
  unfold Image.mapRegion at hq
  simp only [List.mem_map, List.mem_range] at hq
  obtain ⟨j, hj, rfl⟩ := hq
  have hmem : image._data.getD j default ∈ image._data := by
    rw [List.getD_eq_getElem _ _ hj]
    exact List.getElem_mem _
  refine ⟨_, hmem, ?_⟩
  split
  · exact Or.inr rfl
  · exact Or.inl rfl

theorem Image.mapRegion_wellFormed {image : Image} (hwf : image.WellFormed) (roi : Rect)
    (f : Pixel → Pixel) : (image.mapRegion roi f).WellFormed := by
  unfold Image.WellFormed
  rw [Image.mapRegion_length]
  exact hwf

theorem Image.mapRegion_channelNormalized {image : Image} {ch : Int}
    (hn : image.ChannelNormalized ch) (roi : Rect) {f : Pixel → Pixel}
    (hf : ∀ p, (f p).channel ch = p.channel ch) :
    (image.mapRegion roi f).ChannelNormalized ch := by
  intro q hq
  obtain ⟨p, hp, hqp | hqp⟩ := Image.mapRegion_mem hq
  · rw [hqp]
    exact hn p hp
  · rw [hqp, hf]
    exact hn p hp

/-- The pixel stored for coordinates inside the image, after `mapRegion`. -/
theorem Image.mapRegion_pixelAt {image : Image} (hwf : image.WellFormed) (roi : Rect)
    (f : Pixel → Pixel) {x y : Nat} (hx : x < image._width) (hy : y < image._height) :
    (image.mapRegion roi f).pixelAt x y
      = if roi.Contains x y then f (image.pixelAt x y) else image.pixelAt x y := by
  have hlt : image._width * y + x < image._data.length := by
    rw [hwf]; exact index_lt hx hy
  have h1 : (image._width * y + x) % image._width = x := by
    rw [Nat.mul_add_mod, Nat.mod_eq_of_lt hx]
  have h3 : (image._width * y + x) / image._width = y := by
    rw [Nat.mul_add_div (by omega), Nat.div_eq_of_lt hx, Nat.add_zero]
  unfold Image.pixelAt
  have hw : (image.mapRegion roi f)._width = image._width := rfl
  rw [hw, Image.mapRegion_getD _ _ _ hlt, h1, h3]

theorem mem_coords {image : Image} {c : Nat × Nat} :
    c ∈ image.coords ↔ c.1 < image._width ∧ c.2 < image._height := by
  unfold Image.coords
  rw [mem_rectCoords]
  omega

theorem cumulativeCount_mapRegion {image : Image} (hwf : image.WellFormed) (roi : Rect)
    {ch : Int} {f : Pixel → Pixel} (hf : ∀ p, (f p).channel ch = p.channel ch) (i : Nat) :
    cumulativeCount (image.mapRegion roi f) ch i = cumulativeCount image ch i := by
  unfold cumulativeCount
  have hc : (image.mapRegion roi f).coords = image.coords := rfl
  rw [hc]
  apply List.countP_congr
  intro c hc
  rw [mem_coords] at hc
  unfold Image.bucketAt
  rw [Image.mapRegion_pixelAt hwf roi f hc.1 hc.2]
  split
  · rw [hf]
  · rfl

theorem worker_ok {image : Image} {roi : Rect} {threads : Nat}
    (hwf : image.WellFormed) (hfit : image.Fits threads) (hT : 1 ≤ threads)
    (hroi : roi.Valid image) (hw : 0 ≤ roi.width) (hh : 0 ≤ roi.height)
    (ch : Int) (hn : image.ChannelNormalized ch) :
    worker roi threads ch image = .ok (image.mapRegion roi (channelMap image ch)) := by
  obtain ⟨hist, hhist, hget⟩ := calculateHistogram_ok hwf ch hn hfit hT Histogram.zero
  unfold worker
  rw [hhist]
  simp only [bind, Except.bind]
  rw [equalizeChannel_ok hwf hfit hT hroi hw hh ch hn]
  have hmap : image.mapRegion roi (remapPixel ch (calculateCFH hist Histogram.zero).2
        (1 / ((image._width * image._height : Nat) : ℚ)))
      = image.mapRegion roi (channelMap image ch) := by
    apply Image.mapRegion_congr
    intro p hp
    have hb := bucketOf_lt (hn p hp).2
    have hsum : ∑ j ∈ Finset.range (bucketOf (p.channel ch) + 1), hist.get j
        = cumulativeCount image ch (bucketOf (p.channel ch)) := by
      rw [← sum_bucketCount]
      apply Finset.sum_congr rfl
      intro j _
      rw [hget j, Histogram.get_zero, Nat.zero_add, wrapSize_bucketCount hfit]
    unfold remapPixel channelMap equalizedValue
    rw [calculateCFH_get _ _ _ hb, hsum, wrapSize_cumulativeCount hfit, mul_one_div]
  rw [hmap]

/-! ## The pipelines of the three channels, one after another -/

theorem channelMap_mapRegion {image : Image} (hwf : image.WellFormed) (roi : Rect) {ch : Int}
    {g : Pixel → Pixel} (hg : ∀ p, (g p).channel ch = p.channel ch) :
    channelMap (image.mapRegion roi g) ch = channelMap image ch := by
  funext p
  unfold channelMap equalizedValue
  rw [cumulativeCount_mapRegion hwf roi hg]
  rfl

/-- The pipeline of the channel `ch` after pipelines that kept the channel `ch`. -/
theorem worker_mapRegion {image : Image} {roi : Rect} {threads : Nat}
    (hwf : image.WellFormed) (hfit : image.Fits threads) (hT : 1 ≤ threads)
    (hroi : roi.Valid image) (hw : 0 ≤ roi.width) (hh : 0 ≤ roi.height)
    (ch : Int) (hn : image.ChannelNormalized ch)
    {g : Pixel → Pixel} (hg : ∀ p, (g p).channel ch = p.channel ch) :
    worker roi threads ch (image.mapRegion roi g)
      = .ok (image.mapRegion roi (fun p => channelMap image ch (g p))) := by
  rw [worker_ok (Image.mapRegion_wellFormed hwf roi g)
      (show (image.mapRegion roi g).Fits threads from hfit) hT hroi hw hh ch
      (Image.mapRegion_channelNormalized hn roi hg),
    channelMap_mapRegion hwf roi hg, Image.mapRegion_mapRegion]

theorem Image.mapRegion_stagePixel_none (image : Image) (roi : Rect) :
    image.mapRegion roi (stagePixel image false false false) = image := by
  refine Image.ext_getD (a := image.mapRegion roi (stagePixel image false false false))
    (b := image) rfl rfl (Image.mapRegion_length _ _ _) ?_
  intro j hj
  rw [Image.mapRegion_getD _ _ _ hj]
  split <;> rfl

theorem Image.Normalized.channelNormalized {image : Image} (hn : image.Normalized) (ch : Int) :
    image.ChannelNormalized ch :=
  fun p hp => (hn p hp).channel_mem ch

theorem worker_stage_r {image : Image} {roi : Rect} {threads : Nat}
    (hwf : image.WellFormed) (hn : image.Normalized) (hfit : image.Fits threads)
    (hT : 1 ≤ threads) (hroi : roi.Valid image) (hw : 0 ≤ roi.width) (hh : 0 ≤ roi.height)
    (dg db : Bool) :
    worker roi threads 0 (image.mapRegion roi (stagePixel image false dg db))
      = .ok (image.mapRegion roi (stagePixel image true dg db)) :=
  worker_mapRegion hwf hfit hT hroi hw hh 0 (hn.channelNormalized 0) (fun _ => rfl)

theorem worker_stage_g {image : Image} {roi : Rect} {threads : Nat}
    (hwf : image.WellFormed) (hn : image.Normalized) (hfit : image.Fits threads)
    (hT : 1 ≤ threads) (hroi : roi.Valid image) (hw : 0 ≤ roi.width) (hh : 0 ≤ roi.height)
    (dr db : Bool) :
    worker roi threads 1 (image.mapRegion roi (stagePixel image dr false db))
      = .ok (image.mapRegion roi (stagePixel image dr true db)) :=
  worker_mapRegion hwf hfit hT hroi hw hh 1 (hn.channelNormalized 1) (fun _ => rfl)

theorem worker_stage_b {image : Image} {roi : Rect} {threads : Nat}
    (hwf : image.WellFormed) (hn : image.Normalized) (hfit : image.Fits threads)
    (hT : 1 ≤ threads) (hroi : roi.Valid image) (hw : 0 ≤ roi.width) (hh : 0 ≤ roi.height)
    (dr dg : Bool) :
    worker roi threads 2 (image.mapRegion roi (stagePixel image dr dg false))
      = .ok (image.mapRegion roi (stagePixel image dr dg true)) :=
  worker_mapRegion hwf hfit hT hroi hw hh 2 (hn.channelNormalized 2) (fun _ => rfl)

theorem worker_first_r {image : Image} {roi : Rect} {threads : Nat}
    (hwf : image.WellFormed) (hn : image.Normalized) (hfit : image.Fits threads)
    (hT : 1 ≤ threads) (hroi : roi.Valid image) (hw : 0 ≤ roi.width) (hh : 0 ≤ roi.height) :
    worker roi threads 0 image = .ok (image.mapRegion roi (stagePixel image true false false)) := by
  have h := worker_stage_r hwf hn hfit hT hroi hw hh false false
  rwa [Image.mapRegion_stagePixel_none] at h

theorem worker_first_g {image : Image} {roi : Rect} {threads : Nat}
    (hwf : image.WellFormed) (hn : image.Normalized) (hfit : image.Fits threads)
    (hT : 1 ≤ threads) (hroi : roi.Valid image) (hw : 0 ≤ roi.width) (hh : 0 ≤ roi.height) :
    worker roi threads 1 image = .ok (image.mapRegion roi (stagePixel image false true false)) := by
  have h := worker_stage_g hwf hn hfit hT hroi hw hh false false
  rwa [Image.mapRegion_stagePixel_none] at h

theorem worker_first_b {image : Image} {roi : Rect} {threads : Nat}
    (hwf : image.WellFormed) (hn : image.Normalized) (hfit : image.Fits threads)
    (hT : 1 ≤ threads) (hroi : roi.Valid image) (hw : 0 ≤ roi.width) (hh : 0 ≤ roi.height) :
    worker roi threads 2 image = .ok (image.mapRegion roi (stagePixel image false false true)) := by
  have h := worker_stage_b hwf hn hfit hT hroi hw hh false false
  rwa [Image.mapRegion_stagePixel_none] at h

/-- The three pipelines, run one after another in any order, end with every pixel of the
region equalized in its three channels. -/
theorem runWorkers_of_perm {image : Image} {roi : Rect} {threads : Nat}
    (hwf : image.WellFormed) (hn : image.Normalized) (hfit : image.Fits threads)
    (hT : 1 ≤ threads) (hroi : roi.Valid image) (hw : 0 ≤ roi.width) (hh : 0 ≤ roi.height)
    (order : List Int) (hp : order.Perm [0, 1, 2]) :
    runWorkers roi threads order image = .ok (image.mapRegion roi (equalizedPixel image)) := by
  have hlen := hp.length_eq
  have hnd : order.Nodup := hp.nodup_iff.mpr (by decide)
  have hsub := hp.subset
  obtain ⟨a, b, c, rfl⟩ : ∃ a b c, order = [a, b, c] := by
    match order, hlen with
    | [a, b, c], _ => exact ⟨a, b, c, rfl⟩
  have ha : a = 0 ∨ a = 1 ∨ a = 2 := by simpa using hsub (List.mem_cons_self _ _)
  have hb : b = 0 ∨ b = 1 ∨ b = 2 := by
    simpa using hsub (List.mem_cons_of_mem _ (List.mem_cons_self _ _))
  have hc : c = 0 ∨ c = 1 ∨ c = 2 := by
    simpa using hsub (List.mem_cons_of_mem _ (List.mem_cons_of_mem _ (List.mem_cons_self _ _)))
  have hfinal : equalizedPixel image = stagePixel image true true true := rfl
  rw [hfinal]
  unfold runWorkers
  rcases ha with rfl | rfl | rfl <;> rcases hb with rfl | rfl | rfl <;>
    rcases hc with rfl | rfl | rfl <;>
    first
    | (exfalso; revert hnd; decide)
    | simp only [List.foldlM_cons, List.foldlM_nil, bind, Except.bind, pure, Except.pure,
        worker_first_r hwf hn hfit hT hroi hw hh, worker_first_g hwf hn hfit hT hroi hw hh,
        worker_first_b hwf hn hfit hT hroi hw hh, worker_stage_r hwf hn hfit hT hroi hw hh,
        worker_stage_g hwf hn hfit hT hroi hw hh, worker_stage_b hwf hn hfit hT hroi hw hh]

/-! ## `doHistogramEqualization` -/

theorem assert_sum {a b n : Nat} {x w : Int} (hx : x = (a : Int)) (hw : w = (b : Int))
    (hle : a + b ≤ n) (hn : n < 2 ^ 31) : toSizeT (toInt (x + w)) ≤ n := by
  rw [hx, hw, toInt_of_mem (by omega) (by omega)]
  unfold toSizeT
  omega

/-- For a region inside the image, `doHistogramEqualization` returns with every pixel of the
region equalized in its three channels and all other pixels kept. -/
theorem doHistogramEqualization_eq {image : Image} {roi : Rect} {threads : Nat}
    (hwf : image.WellFormed) (hn : image.Normalized) (hfit : image.Fits threads)
    (hT : 1 ≤ threads) (hroi : roi.Valid image) (hw : 0 ≤ roi.width) (hh : 0 ≤ roi.height) :
    doHistogramEqualization image roi threads
      = .done (image.mapRegion roi (equalizedPixel image)) := by
  have hrun := runWorkers_of_perm hwf hn hfit hT hroi hw hh [0, 1, 2] (List.Perm.refl _)
  unfold runWorkers at hrun
  simp only [List.foldlM_cons, List.foldlM_nil, bind_pure] at hrun
  obtain ⟨hx0, hy0, hxw, hyh⟩ := hroi
  have h1 : toSizeT (toInt (roi.x + roi.width)) ≤ image.width :=
    assert_sum (Int.toNat_of_nonneg hx0).symm (Int.toNat_of_nonneg hw).symm
      (by unfold Image.width; omega) hfit.1
  have h2 : toSizeT (toInt (roi.y + roi.height)) ≤ image.height :=
    assert_sum (Int.toNat_of_nonneg hy0).symm (Int.toNat_of_nonneg hh).symm
      (by unfold Image.height; omega) (by have := hfit.2; unfold Image.height; omega)
  unfold doHistogramEqualization
  rw [if_neg (not_not.mpr hx0), if_neg (not_not.mpr h1), if_neg (not_not.mpr hy0),
    if_neg (not_not.mpr h2)]
  have hrun1 : worker roi threads 0 image >>= worker roi threads 1 >>= worker roi threads 2
      = .ok (image.mapRegion roi (equalizedPixel image)) := by
    rw [← hrun]
    simp only [bind_assoc]
  rw [hrun1]

/-! ## The example buffer -/

theorem bucketOf_zero : bucketOf 0 = 0 := by
  unfold bucketOf
  simp

theorem bucketOf_one : bucketOf 1 = 65534 := by
  unfold bucketOf
  rw [scale_eq, one_mul]
  have h : ⌊(65534 : ℚ)⌋ = 65534 := Int.floor_natCast 65534
  rw [h]
  rfl

theorem exImage_wellFormed : exImage.WellFormed := by
  unfold Image.WellFormed
  decide

theorem exImage_normalized : exImage.Normalized := by
  unfold Image.Normalized Pixel.Normalized exImage
  simp

theorem exImage_fits_one : exImage.Fits 1 := by
  unfold Image.Fits exImage
  decide

theorem exImage_fits_two : exImage.Fits 2 := by
  unfold Image.Fits exImage
  decide

theorem exRoi_valid : exRoi.Valid exImage := by
  unfold Rect.Valid
  decide

theorem exRoiRight_valid : exRoiRight.Valid exImage := by
  unfold Rect.Valid
  decide

theorem exRoi_contains : exRoi.Contains 0 0 := by
  unfold Rect.Contains
  decide

theorem exRoi_not_contains : ¬ exRoi.Contains 1 0 := by
  unfold Rect.Contains
  decide

theorem exImage_coords : exImage.coords = [(0, 0), (1, 0)] := by decide

theorem exImage_cumulativeCount_zero (ch : Int) : cumulativeCount exImage ch 0 = 1 := by
  unfold cumulativeCount
  rw [exImage_coords]
  simp [Image.bucketAt, Image.pixelAt, exImage, Pixel.channel, bucketOf_zero, bucketOf_one]

theorem exImage_equalized :
    exImage.mapRegion exRoi (equalizedPixel exImage)
      = ⟨2, 1, [⟨1 / 2, 1 / 2, 1 / 2⟩, ⟨1, 1, 1⟩]⟩ := by
  unfold Image.mapRegion
  have hr : List.range 2 = [0, 1] := by decide
  simp [exImage, hr, exRoi_contains, exRoi_not_contains, equalizedPixel, equalizedValue,
    bucketOf_zero]
  rw [show ({ _width := 2, _height := 1, _data := [⟨0, 0, 0⟩, ⟨1, 1, 1⟩] } : Image) = exImage
    from rfl]
  simp [exImage_cumulativeCount_zero]

/-- C2: for a valid region (of non-negative width and height), `doHistogramEqualization`
returns a buffer of the same width and height in which every pixel outside the region is
equal, in all three channels, to the pixel before the call. -/
theorem doHistogramEqualization_frame {image : Image} {roi : Rect} {threads : Nat}
    (hwf : image.WellFormed) (hn : image.Normalized) (hfit : image.Fits threads)
    (hT : 1 ≤ threads) (hroi : roi.Valid image) (hw : 0 ≤ roi.width) (hh : 0 ≤ roi.height) :
    ∃ result, doHistogramEqualization image roi threads = .done result ∧
      result._width = image._width ∧ result._height = image._height ∧
      ∀ x y, x < image._width → y < image._height → ¬ roi.Contains x y →
        result.pixelAt x y = image.pixelAt x y := by
  refine ⟨_, doHistogramEqualization_eq hwf hn hfit hT hroi hw hh, rfl, rfl, ?_⟩
  intro x y hx hy hc
  rw [Image.mapRegion_pixelAt hwf roi _ hx hy, if_neg hc]

theorem doHistogramEqualization_frame_witness :
    ∃ result, doHistogramEqualization exImage exRoi 2 = .done result ∧
      result._width = exImage._width ∧ result._height = exImage._height ∧
      ∀ x y, x < exImage._width → y < exImage._height → ¬ exRoi.Contains x y →
        result.pixelAt x y = exImage.pixelAt x y :=
  doHistogramEqualization_frame exImage_wellFormed exImage_normalized exImage_fits_two
    (by decide) exRoi_valid (by decide) (by decide)

/-- C3: for a region (with `int` fields) that violates the Region invariant, `x < 0`, or
`y < 0`, or `x + width > image.width`, or `y + height > image.height`, an assertion of
`doHistogramEqualization` fails while the buffer is still the buffer before the call: the
checks come before any histogram pass, remap pass or pixel write. -/
theorem doHistogramEqualization_rejects (image : Image) (roi : Rect) (threads : Nat)
    (hint : roi.IsInt)
    (hbad : roi.x < 0 ∨ roi.y < 0 ∨ roi.x + roi.width > image._width
      ∨ roi.y + roi.height > image._height) :
    doHistogramEqualization image roi threads = .assertFailed image := by
  obtain ⟨⟨hx0, hx1⟩, ⟨hy0, hy1⟩, ⟨hw0, hw1⟩, ⟨hh0, hh1⟩⟩ := hint
  unfold doHistogramEqualization
  by_cases h1 : roi.x ≥ 0
  · rw [if_neg (not_not.mpr h1)]
    by_cases h2 : toSizeT (toInt (roi.x + roi.width)) ≤ image.width
    · rw [if_neg (not_not.mpr h2)]
      by_cases h3 : roi.y ≥ 0
      · rw [if_neg (not_not.mpr h3)]
        by_cases h4 : toSizeT (toInt (roi.y + roi.height)) ≤ image.height
        · exfalso
          unfold toSizeT toInt Image.width at h2
          unfold toSizeT toInt Image.height at h4
          omega
        · rw [if_pos h4]
      · rw [if_pos h3]
    · rw [if_pos h2]
  · rw [if_pos h1]

theorem doHistogramEqualization_rejects_witness :
    doHistogramEqualization exImage ⟨0, 0, 3, 1⟩ 1 = .assertFailed exImage :=
  doHistogramEqualization_rejects exImage ⟨0, 0, 3, 1⟩ 1 (by unfold Rect.IsInt; decide)
    (by unfold exImage; decide)

/-- The counts of the histogram of a whole image sum to the number of its pixels. -/
theorem sum_bucketCount_all {image : Image} (hwf : image.WellFormed) (ch : Int)
    (hn : image.ChannelNormalized ch) :
    ∑ b ∈ Finset.range MAX_VALUE, bucketCount image ch b = image._width * image._height := by
  have h1 : MAX_VALUE = (MAX_VALUE - 1) + 1 := by decide
  rw [h1, sum_bucketCount, ← Image.length_coords]
  unfold cumulativeCount
  rw [List.countP_eq_length]
  intro c hc
  rw [mem_coords] at hc
  have hlt := Image.bucketAt_lt hwf ch hn hc.1 hc.2
  have hle : image.bucketAt ch c ≤ MAX_VALUE - 1 := by
    have h2 : image.bucketAt ch c = image.bucketAt ch (c.1, c.2) := rfl
    omega
  simpa using hle

theorem calculateHistogram_total {image : Image} {threads : Nat} (hwf : image.WellFormed)
    (ch : Int) (hn : image.ChannelNormalized ch) (hfit : image.Fits threads) (hT : 1 ≤ threads) :
    ∃ h, calculateHistogram image ch Histogram.zero threads = .ok h ∧
      h.total = image._width * image._height := by
  obtain ⟨h, hok, hget⟩ := calculateHistogram_ok hwf ch hn hfit hT Histogram.zero
  refine ⟨h, hok, ?_⟩
  unfold Histogram.total
  rw [← sum_bucketCount_all hwf ch hn]
  apply Finset.sum_congr rfl
  intro b _
  rw [hget b, Histogram.get_zero, Nat.zero_add, wrapSize_bucketCount hfit]

/-- C4 (as stated) fails: on the buffer of two pixels with the region of the left pixel, the
counts of the histogram of the red channel sum to `2`, the number of pixels of the buffer,
while `region.width * region.height` is `1`. -/
theorem calculateHistogram_region_total_counterexample :
    exRoi.Valid exImage ∧ exRoi.width * exRoi.height = 1 ∧
    ∃ h, calculateHistogram exImage 0 Histogram.zero 1 = .ok h ∧ h.total = 2 := by
  refine ⟨exRoi_valid, by decide, ?_⟩
  exact calculateHistogram_total exImage_wellFormed 0 (exImage_normalized.channelNormalized 0)
    exImage_fits_one (Nat.le_refl 1)

/-- C4 (amended): for every buffer with channel values in `[0, 1]`, every region, every
channel and at least one thread, `calculateHistogram` on a zeroed histogram returns a
histogram whose counts sum to `image.width * image.height`, the number of pixels of the whole
buffer: the region does not enter `calculateHistogram`. -/
theorem calculateHistogram_sums_to_image_area {image : Image} {threads : Nat}
    (hwf : image.WellFormed) (hn : image.Normalized) (hfit : image.Fits threads)
    (hT : 1 ≤ threads) (c : Int) :
    ∃ h, calculateHistogram image c Histogram.zero threads = .ok h ∧
      h.total = image._width * image._height :=
  calculateHistogram_total hwf c (hn.channelNormalized c) hfit hT

theorem calculateHistogram_sums_to_image_area_witness :
    ∃ h, calculateHistogram exImage 1 Histogram.zero 2 = .ok h ∧
      h.total = exImage._width * exImage._height :=
  calculateHistogram_sums_to_image_area exImage_wellFormed exImage_normalized exImage_fits_two
    (by decide) 1

theorem sum_range_le_total (h : Histogram) {i : Nat} (hi : i < MAX_VALUE) :
    ∑ j ∈ Finset.range (i + 1), h.get j ≤ h.total := by
  unfold Histogram.total
  apply Finset.sum_le_sum_of_subset
  intro j hj
  rw [Finset.mem_range] at hj ⊢
  omega

/-- Without wraparound the table holds the inclusive sums. -/
theorem calculateCFH_get_of_total (h cfh : Histogram) (ht : h.total < 2 ^ 64) (i : Nat)
    (hi : i < MAX_VALUE) :
    (calculateCFH h cfh).2.get i = ∑ j ∈ Finset.range (i + 1), h.get j := by
  rw [calculateCFH_get h cfh i hi]
  apply wrapSize_of_lt
  have := sum_range_le_total h hi
  omega

/-- C5: for every histogram `h` (its counts sum to less than `2 ^ 64`, as the counts of the
pixels of an image do) and every bucket `i < 65535`, `calculateCFH` writes
`cfh[i] = h[0] + h[1] + ... + h[i]`, and `h` is the same after the call. -/
theorem calculateCFH_inclusive_sum (h cfh : Histogram) (ht : h.total < 2 ^ 64) (i : Nat)
    (hi : i < MAX_VALUE) :
    (calculateCFH h cfh).2.get i = ∑ j ∈ Finset.range (i + 1), h.get j ∧
    (calculateCFH h cfh).1 = h :=
  ⟨calculateCFH_get_of_total h cfh ht i hi, rfl⟩

theorem total_zero : Histogram.zero.total = 0 := by
  unfold Histogram.total
  apply Finset.sum_eq_zero
  intro j _
  exact Histogram.get_zero j

theorem Histogram.total_set (h : Histogram) {i : Nat} (hi : i < MAX_VALUE) (v : Nat) :
    (h.set i v).total + h.get i = h.total + wrapSize v := by
  unfold Histogram.total
  have hm : i ∈ Finset.range MAX_VALUE := Finset.mem_range.mpr hi
  have hrest : ∑ x ∈ (Finset.range MAX_VALUE).erase i, (h.set i v).get x
      = ∑ x ∈ (Finset.range MAX_VALUE).erase i, h.get x := by
    apply Finset.sum_congr rfl
    intro x hx
    rw [Histogram.get_set, if_neg]
    intro hc
    exact (Finset.ne_of_mem_erase hx) hc.1.symm
  rw [← Finset.add_sum_erase _ (fun x => (h.set i v).get x) hm,
    ← Finset.add_sum_erase _ (fun x => h.get x) hm, hrest, Histogram.get_set,
    if_pos ⟨rfl, hi⟩]
  omega

theorem exHistogram_total : exHistogram.total = 7 := by
  have h1 := Histogram.total_set Histogram.zero (show 3 < MAX_VALUE by decide) 5
  have h2 := Histogram.total_set (Histogram.zero.set 3 5) (show 9 < MAX_VALUE by decide) 2
  rw [total_zero, Histogram.get_zero] at h1
  rw [Histogram.get_set, if_neg (by omega), Histogram.get_zero] at h2
  have hw5 : wrapSize 5 = 5 := by decide
  have hw2 : wrapSize 2 = 2 := by decide
  rw [hw5] at h1
  rw [hw2] at h2
  unfold exHistogram
  omega

theorem calculateCFH_inclusive_sum_witness :
    (calculateCFH exHistogram Histogram.zero).2.get 7
        = ∑ j ∈ Finset.range (7 + 1), exHistogram.get j ∧
    (calculateCFH exHistogram Histogram.zero).1 = exHistogram :=
  calculateCFH_inclusive_sum exHistogram Histogram.zero
    (by rw [exHistogram_total]; norm_num) 7 (by decide)

/-- C6: for every histogram `h` (its counts sum to less than `2 ^ 64`), the table of
`calculateCFH` is non-decreasing, `cfh[i] ≤ cfh[i + 1]` for every `i` with `i + 1 < 65535`,
and its last entry `cfh[65534]` is the sum of all counts of `h`. -/
theorem calculateCFH_monotone_total (h cfh : Histogram) (ht : h.total < 2 ^ 64) :
    (∀ i, i + 1 < MAX_VALUE →
      (calculateCFH h cfh).2.get i ≤ (calculateCFH h cfh).2.get (i + 1)) ∧
    (calculateCFH h cfh).2.get 65534 = h.total := by
  refine ⟨?_, ?_⟩
  · intro i hi
    rw [calculateCFH_get_of_total h cfh ht i (by omega),
      calculateCFH_get_of_total h cfh ht (i + 1) hi, Finset.sum_range_succ _ (i + 1)]
    exact Nat.le_add_right _ _
  · have h1 : (65534 : Nat) + 1 = MAX_VALUE := by decide
    rw [calculateCFH_get_of_total h cfh ht 65534 (by decide), h1]
    unfold Histogram.total
    rfl

theorem calculateCFH_monotone_total_witness :
    (∀ i, i + 1 < MAX_VALUE →
      (calculateCFH exHistogram Histogram.zero).2.get i
        ≤ (calculateCFH exHistogram Histogram.zero).2.get (i + 1)) ∧
    (calculateCFH exHistogram Histogram.zero).2.get 65534 = exHistogram.total :=
  calculateCFH_monotone_total exHistogram Histogram.zero
    (by rw [exHistogram_total]; norm_num)

theorem mergeAll_perm (histogram : Histogram) {ps1 ps : List Histogram} (hp : ps1.Perm ps) :
    mergeAll histogram ps1 = mergeAll histogram ps := by
  apply Histogram.ext_get
  intro j _
  rw [mergeAll_get, mergeAll_get, (hp.map (fun p => p.get j)).sum_eq]

theorem Image.Fits.one {image : Image} {threads : Nat} (hfit : image.Fits threads)
    (hT : 1 ≤ threads) : image.Fits 1 :=
  ⟨hfit.1, by have := hfit.2; omega⟩

/-- C7: for every band count `T ≥ 1`, `calculateHistogram` with `T` row bands returns the
same histogram as with a single band, and the merge of the band histograms in any other
order gives the same histogram. -/
theorem calculateHistogram_bands_agree {image : Image} {threads : Nat}
    (hwf : image.WellFormed) (hn : image.Normalized) (hfit : image.Fits threads)
    (hT : 1 ≤ threads) (c : Int) (histogram : Histogram) :
    (∃ h, calculateHistogram image c histogram threads = .ok h ∧
      calculateHistogram image c histogram 1 = .ok h) ∧
    (∃ ps, bandHistograms image c threads = .ok ps ∧
      ∀ ps1, ps1.Perm ps → mergeAll histogram ps1 = mergeAll histogram ps) := by
  obtain ⟨h, hok, hget⟩ :=
    calculateHistogram_ok hwf c (hn.channelNormalized c) hfit hT histogram
  obtain ⟨h1, hok1, hget1⟩ :=
    calculateHistogram_ok hwf c (hn.channelNormalized c) (hfit.one hT) (Nat.le_refl 1) histogram
  obtain ⟨ps, hps, _⟩ := bandHistograms_ok hwf c (hn.channelNormalized c) hfit hT
  refine ⟨⟨h, hok, ?_⟩, ps, hps, fun ps1 hp => mergeAll_perm histogram hp⟩
  rw [hok1]
  congr 1
  apply Histogram.ext_get
  intro j _
  rw [hget j, hget1 j]

theorem calculateHistogram_bands_agree_witness :
    (∃ h, calculateHistogram exImage 0 Histogram.zero 2 = .ok h ∧
      calculateHistogram exImage 0 Histogram.zero 1 = .ok h) ∧
    (∃ ps, bandHistograms exImage 0 2 = .ok ps ∧
      ∀ ps1, ps1.Perm ps → mergeAll Histogram.zero ps1 = mergeAll Histogram.zero ps) :=
  calculateHistogram_bands_agree exImage_wellFormed exImage_normalized exImage_fits_two
    (by decide) 0 Histogram.zero

/-! ### Values in `[0, 1]` -/

theorem equalizedValue_mem (image : Image) (ch : Int) (v : ℚ) :
    0 ≤ equalizedValue image ch v ∧ equalizedValue image ch v ≤ 1 := by
  unfold equalizedValue
  have hle := cumulativeCount_le image ch (bucketOf v)
  have hle1 : (cumulativeCount image ch (bucketOf v) : ℚ)
      ≤ ((image._width * image._height : Nat) : ℚ) := by exact_mod_cast hle
  constructor
  · exact div_nonneg (Nat.cast_nonneg _) (Nat.cast_nonneg _)
  · by_cases h0 : ((image._width * image._height : Nat) : ℚ) = 0
    · rw [h0, div_zero]
      exact zero_le_one
    · have hpos : (0 : ℚ) < ((image._width * image._height : Nat) : ℚ) :=
        lt_of_le_of_ne (Nat.cast_nonneg _) (Ne.symm h0)
      rw [div_le_one hpos]
      exact hle1

theorem equalizedPixel_normalized (image : Image) (p : Pixel) :
    (equalizedPixel image p).Normalized :=
  ⟨equalizedValue_mem image 0 p.r, equalizedValue_mem image 1 p.g, equalizedValue_mem image 2 p.b⟩

theorem Image.mapRegion_equalized_normalized {image : Image} (hn : image.Normalized)
    (roi : Rect) : (image.mapRegion roi (equalizedPixel image)).Normalized := by
  intro q hq
  obtain ⟨p, hp, hqp | hqp⟩ := Image.mapRegion_mem hq
  · rw [hqp]
    exact hn p hp
  · rw [hqp]
    exact equalizedPixel_normalized image p

theorem equalizeRepeatedly_normalized {threads : Nat} (hT : 1 ≤ threads) (rois : List Rect)
    (image : Image) (hwf : image.WellFormed) (hn : image.Normalized) (hfit : image.Fits threads)
    (hrois : ∀ roi ∈ rois, roi.Valid image ∧ 0 ≤ roi.width ∧ 0 ≤ roi.height) :
    ∃ result, equalizeRepeatedly threads rois image = .done result ∧ result.Normalized ∧
      result._width = image._width ∧ result._height = image._height := by
  induction rois generalizing image with
  | nil => exact ⟨image, rfl, hn, rfl, rfl⟩
  | cons roi rois ih =>
    obtain ⟨hv, hw, hh⟩ := hrois roi (List.mem_cons_self _ _)
    obtain ⟨result, hres, hnr, hwr, hhr⟩ := ih (image.mapRegion roi (equalizedPixel image))
      (Image.mapRegion_wellFormed hwf roi _) (Image.mapRegion_equalized_normalized hn roi) hfit
      (fun r hr => hrois r (List.mem_cons_of_mem _ hr))
    refine ⟨result, ?_, hnr, hwr, hhr⟩
    unfold equalizeRepeatedly
    rw [doHistogramEqualization_eq hwf hn hfit hT hv hw hh]
    exact hres

/-- C8: if every channel value of every pixel is in `[0, 1]` and the region is valid (of
non-negative width and height), then after `doHistogramEqualization` every channel value of
every pixel is again in `[0, 1]`; and so it is after any number of repeated applications
with valid regions. -/
theorem doHistogramEqualization_normalized {image : Image} {threads : Nat}
    (hwf : image.WellFormed) (hn : image.Normalized) (hfit : image.Fits threads)
    (hT : 1 ≤ threads) :
    (∀ roi : Rect, roi.Valid image → 0 ≤ roi.width → 0 ≤ roi.height →
      ∃ result, doHistogramEqualization image roi threads = .done result ∧ result.Normalized) ∧
    (∀ rois : List Rect, (∀ roi ∈ rois, roi.Valid image ∧ 0 ≤ roi.width ∧ 0 ≤ roi.height) →
      ∃ result, equalizeRepeatedly threads rois image = .done result ∧ result.Normalized) := by
  refine ⟨?_, ?_⟩
  · intro roi hv hw hh
    exact ⟨_, doHistogramEqualization_eq hwf hn hfit hT hv hw hh,
      Image.mapRegion_equalized_normalized hn roi⟩
  · intro rois hrois
    obtain ⟨result, hres, hnr, _, _⟩ :=
      equalizeRepeatedly_normalized hT rois image hwf hn hfit hrois
    exact ⟨result, hres, hnr⟩

theorem doHistogramEqualization_normalized_witness :
    (∃ result, doHistogramEqualization exImage exRoi 1 = .done result ∧ result.Normalized) ∧
    (∃ result, equalizeRepeatedly 1 [exRoi, exRoiRight, exRoi] exImage = .done result ∧
      result.Normalized) :=
  have h := doHistogramEqualization_normalized exImage_wellFormed exImage_normalized
    exImage_fits_one (Nat.le_refl 1)
  ⟨h.1 exRoi exRoi_valid (by decide) (by decide),
    h.2 [exRoi, exRoiRight, exRoi] (by
      intro roi hroi
      simp only [List.mem_cons, List.mem_singleton, List.not_mem_nil, or_false] at hroi
      rcases hroi with rfl | rfl | rfl
      · exact ⟨exRoi_valid, by decide, by decide⟩
      · exact ⟨exRoiRight_valid, by decide, by decide⟩
      · exact ⟨exRoi_valid, by decide, by decide⟩)⟩

/-! ### Buffers of two pixels -/

theorem bucketOf_half : bucketOf (1 / 2) = 32767 := by
  unfold bucketOf
  rw [scale_eq]
  have h1 : (1 / 2 : ℚ) * 65534 = ((32767 : Nat) : ℚ) := by norm_num
  rw [h1, Int.floor_natCast]
  rfl

theorem bucketOf_dark : bucketOf (1 / 4) = 16383 := by
  unfold bucketOf
  rw [scale_eq]
  have h1 : ⌊(1 / 4 : ℚ) * 65534⌋ = 16383 := by
    rw [Int.floor_eq_iff]
    constructor <;> norm_num
  rw [h1]
  rfl

theorem channel_gray (v : ℚ) (ch : Int) : (⟨v, v, v⟩ : Pixel).channel ch = v := by
  unfold Pixel.channel
  split
  · rfl
  · split <;> rfl

theorem coords_two (d : List Pixel) : (⟨2, 1, d⟩ : Image).coords = [(0, 0), (1, 0)] := by
  show rectCoords 0 2 0 1 = [(0, 0), (1, 0)]
  decide

/-- The value of `equalizedValue` on a buffer of two gray pixels in one row. -/
theorem equalizedValue_two (a b : ℚ) (ch : Int) (v : ℚ) :
    equalizedValue ⟨2, 1, [⟨a, a, a⟩, ⟨b, b, b⟩]⟩ ch v
      = (((if bucketOf a ≤ bucketOf v then 1 else 0)
          + (if bucketOf b ≤ bucketOf v then 1 else 0) : Nat) : ℚ) / 2 := by
  unfold equalizedValue cumulativeCount
  rw [coords_two]
  simp only [List.countP_cons, List.countP_nil, Image.bucketAt, Image.pixelAt]
  have h0 : ([⟨a, a, a⟩, ⟨b, b, b⟩] : List Pixel).getD (2 * 0 + 0) default = ⟨a, a, a⟩ := rfl
  have h1 : ([⟨a, a, a⟩, ⟨b, b, b⟩] : List Pixel).getD (2 * 0 + 1) default = ⟨b, b, b⟩ := rfl
  simp only [h0, h1, channel_gray, decide_eq_true_eq, Nat.zero_add]
  rw [Nat.add_comm]
  norm_num

/-- The buffer of two pixels in one row after `mapRegion`. -/
theorem mapRegion_two (p0 p1 : Pixel) (roi : Rect) (f : Pixel → Pixel) :
    (⟨2, 1, [p0, p1]⟩ : Image).mapRegion roi f
      = ⟨2, 1, [if roi.Contains 0 0 then f p0 else p0, if roi.Contains 1 0 then f p1 else p1]⟩ := by
  unfold Image.mapRegion
  have hr : List.range 2 = [0, 1] := by decide
  simp only [List.length_cons, List.length_nil, hr, List.map_cons, List.map_nil]
  rfl

theorem equalizedPixel_two (a b v : ℚ) :
    equalizedPixel ⟨2, 1, [⟨a, a, a⟩, ⟨b, b, b⟩]⟩ ⟨v, v, v⟩
      = ⟨equalizedValue ⟨2, 1, [⟨a, a, a⟩, ⟨b, b, b⟩]⟩ 0 v,
         equalizedValue ⟨2, 1, [⟨a, a, a⟩, ⟨b, b, b⟩]⟩ 1 v,
         equalizedValue ⟨2, 1, [⟨a, a, a⟩, ⟨b, b, b⟩]⟩ 2 v⟩ := rfl

theorem exDark_wellFormed : exDark.WellFormed := by
  unfold Image.WellFormed
  decide

theorem exDark_normalized : exDark.Normalized := by
  unfold Image.Normalized Pixel.Normalized exDark
  simp
  norm_num

theorem exDarkLeft_wellFormed : exDarkLeft.WellFormed := by
  unfold Image.WellFormed
  decide

theorem exDarkLeft_normalized : exDarkLeft.Normalized := by
  unfold Image.Normalized Pixel.Normalized exDarkLeft
  simp
  norm_num

theorem exRoiRight_contains : exRoiRight.Contains 1 0 := by
  unfold Rect.Contains
  decide

theorem exRoiRight_not_contains : ¬ exRoiRight.Contains 0 0 := by
  unfold Rect.Contains
  decide

theorem exDark_left : exDark.mapRegion exRoi (equalizedPixel exDark) = exDarkLeft := by
  unfold exDark exDarkLeft
  rw [mapRegion_two, if_pos exRoi_contains, if_neg exRoi_not_contains, equalizedPixel_two,
    equalizedValue_two, equalizedValue_two, equalizedValue_two, bucketOf_zero, bucketOf_dark]
  norm_num

theorem exDark_right : exDark.mapRegion exRoiRight (equalizedPixel exDark) = exImage := by
  unfold exDark exImage
  rw [mapRegion_two, if_neg exRoiRight_not_contains, if_pos exRoiRight_contains,
    equalizedPixel_two, equalizedValue_two, equalizedValue_two, equalizedValue_two,
    bucketOf_zero, bucketOf_dark]
  norm_num

theorem exDarkLeft_right :
    exDarkLeft.mapRegion exRoiRight (equalizedPixel exDarkLeft)
      = ⟨2, 1, [⟨1 / 2, 1 / 2, 1 / 2⟩, ⟨1 / 2, 1 / 2, 1 / 2⟩]⟩ := by
  unfold exDarkLeft
  rw [mapRegion_two, if_neg exRoiRight_not_contains, if_pos exRoiRight_contains,
    equalizedPixel_two, equalizedValue_two, equalizedValue_two, equalizedValue_two,
    bucketOf_half, bucketOf_dark]
  norm_num

theorem exDark_fits_one : exDark.Fits 1 := by
  unfold Image.Fits exDark
  decide

theorem exDarkLeft_fits_one : exDarkLeft.Fits 1 := by
  unfold Image.Fits exDarkLeft
  decide

theorem exRoi_valid_dark : exRoi.Valid exDark := by
  unfold Rect.Valid
  decide

theorem exRoiRight_valid_dark : exRoiRight.Valid exDark := by
  unfold Rect.Valid
  decide

theorem exRoiRight_valid_darkLeft : exRoiRight.Valid exDarkLeft := by
  unfold Rect.Valid
  decide

theorem exRoi_disjoint (x y : Nat) : ¬ (exRoi.Contains x y ∧ exRoiRight.Contains x y) := by
  unfold Rect.Contains exRoi exRoiRight
  simp only []
  omega

/-- C9 (as stated) fails: on the buffer of two dark pixels (buckets `0` and `16383`), the left
pixel and the right pixel are two valid regions that share no pixel; equalizing the left
region and then the right region leaves the right pixel at `1 / 2`, equalizing the right
region and then the left region leaves it at `1`. -/
theorem doHistogramEqualization_commute_counterexample :
    (exRoi.Valid exDark ∧ exRoiRight.Valid exDark ∧
      ∀ x y, ¬ (exRoi.Contains x y ∧ exRoiRight.Contains x y)) ∧
    equalizeRepeatedly 1 [exRoi, exRoiRight] exDark
      = .done ⟨2, 1, [⟨1 / 2, 1 / 2, 1 / 2⟩, ⟨1 / 2, 1 / 2, 1 / 2⟩]⟩ ∧
    equalizeRepeatedly 1 [exRoiRight, exRoi] exDark
      = .done ⟨2, 1, [⟨1 / 2, 1 / 2, 1 / 2⟩, ⟨1, 1, 1⟩]⟩ := by
  refine ⟨⟨exRoi_valid_dark, exRoiRight_valid_dark, exRoi_disjoint⟩, ?_, ?_⟩
  · unfold equalizeRepeatedly
    rw [doHistogramEqualization_eq exDark_wellFormed exDark_normalized exDark_fits_one
      (Nat.le_refl 1) exRoi_valid_dark (by decide) (by decide), exDark_left]
    simp only []
    unfold equalizeRepeatedly
    rw [doHistogramEqualization_eq exDarkLeft_wellFormed exDarkLeft_normalized
      exDarkLeft_fits_one (Nat.le_refl 1) exRoiRight_valid_darkLeft (by decide) (by decide),
      exDarkLeft_right]
    rfl
  · unfold equalizeRepeatedly
    rw [doHistogramEqualization_eq exDark_wellFormed exDark_normalized exDark_fits_one
      (Nat.le_refl 1) exRoiRight_valid_dark (by decide) (by decide), exDark_right]
    simp only []
    unfold equalizeRepeatedly
    rw [doHistogramEqualization_eq exImage_wellFormed exImage_normalized exImage_fits_one
      (Nat.le_refl 1) exRoi_valid (by decide) (by decide), exImage_equalized]
    rfl

theorem Image.mapRegion_comm (image : Image) {roiA roiB : Rect} (f g : Pixel → Pixel)
    (hdisj : ∀ x y, ¬ (roiA.Contains x y ∧ roiB.Contains x y)) :
    (image.mapRegion roiA f).mapRegion roiB g = (image.mapRegion roiB g).mapRegion roiA f := by
  refine Image.ext_getD (a := (image.mapRegion roiA f).mapRegion roiB g)
    (b := (image.mapRegion roiB g).mapRegion roiA f) rfl rfl ?_ ?_
  · simp only [Image.mapRegion_length]
  · intro j hj
    simp only [Image.mapRegion_length] at hj
    have hwA : (image.mapRegion roiA f)._width = image._width := rfl
    have hwB : (image.mapRegion roiB g)._width = image._width := rfl
    rw [Image.mapRegion_getD (image.mapRegion roiA f) roiB g
        (by rw [Image.mapRegion_length]; exact hj),
      Image.mapRegion_getD image roiA f hj,
      Image.mapRegion_getD (image.mapRegion roiB g) roiA f
        (by rw [Image.mapRegion_length]; exact hj),
      Image.mapRegion_getD image roiB g hj, hwA, hwB]
    by_cases hA : roiA.Contains (j % image._width) (j / image._width)
    · have hB : ¬ roiB.Contains (j % image._width) (j / image._width) :=
        fun hB => hdisj _ _ ⟨hA, hB⟩
      simp only [if_pos hA, if_neg hB]
    · simp only [if_neg hA]

/-- C9 (amended): for two valid regions (of non-negative width and height) that share no
pixel, the remap passes commute: `equalizeChannel` over `A` and then over `B` with one and
the same cumulative table returns the same buffer as over `B` and then over `A`. -/
theorem equalizeChannel_regions_commute {image : Image} {roiA roiB : Rect} {threads : Nat}
    (hwf : image.WellFormed) (hn : image.Normalized) (hfit : image.Fits threads)
    (hT : 1 ≤ threads)
    (hA : roiA.Valid image) (hAw : 0 ≤ roiA.width) (hAh : 0 ≤ roiA.height)
    (hB : roiB.Valid image) (hBw : 0 ≤ roiB.width) (hBh : 0 ≤ roiB.height)
    (hdisj : ∀ x y, ¬ (roiA.Contains x y ∧ roiB.Contains x y))
    (c : Int) (cfh : Histogram) :
    ∃ result,
      (equalizeChannel image roiA c cfh threads).bind
          (fun im => equalizeChannel im roiB c cfh threads) = .ok result ∧
      (equalizeChannel image roiB c cfh threads).bind
          (fun im => equalizeChannel im roiA c cfh threads) = .ok result := by
  have hnc := hn.channelNormalized c
  have hsecond : ∀ (r1 r2 : Rect), r1.Valid image → 0 ≤ r1.width → 0 ≤ r1.height →
      r2.Valid image → 0 ≤ r2.width → 0 ≤ r2.height →
      (∀ x y, ¬ (r1.Contains x y ∧ r2.Contains x y)) →
      (equalizeChannel image r1 c cfh threads).bind
          (fun im => equalizeChannel im r2 c cfh threads)
        = .ok ((image.mapRegion r1
            (remapPixel c cfh (1 / ((image._width * image._height : Nat) : ℚ)))).mapRegion r2
            (remapPixel c cfh (1 / ((image._width * image._height : Nat) : ℚ)))) := by
    intro r1 r2 h1 h1w h1h h2 h2w h2h hd
    rw [equalizeChannel_ok hwf hfit hT h1 h1w h1h c hnc cfh]
    simp only [Except.bind]
    exact equalizeChannel_ok_of_region (Image.mapRegion_wellFormed hwf r1 _)
      (show (image.mapRegion r1 _).Fits threads from hfit) hT h2 h2w h2h c
      (fun x y hx hy hc => by
        rw [Image.mapRegion_pixelAt hwf r1 _ hx hy, if_neg (fun h => hd x y ⟨h, hc⟩)]
        exact hnc _ (Image.pixelAt_mem hwf hx hy)) cfh
  refine ⟨_, hsecond roiA roiB hA hAw hAh hB hBw hBh hdisj, ?_⟩
  rw [hsecond roiB roiA hB hBw hBh hA hAw hAh (fun x y h => hdisj x y ⟨h.2, h.1⟩),
    Image.mapRegion_comm image _ _ hdisj]

theorem equalizeChannel_regions_commute_witness :
    ∃ result,
      (equalizeChannel exImage exRoi 0 Histogram.zero 1).bind
          (fun im => equalizeChannel im exRoiRight 0 Histogram.zero 1) = .ok result ∧
      (equalizeChannel exImage exRoiRight 0 Histogram.zero 1).bind
          (fun im => equalizeChannel im exRoi 0 Histogram.zero 1) = .ok result :=
  equalizeChannel_regions_commute exImage_wellFormed exImage_normalized exImage_fits_one
    (Nat.le_refl 1) exRoi_valid (by decide) (by decide) exRoiRight_valid (by decide) (by decide)
    exRoi_disjoint 0 Histogram.zero

/-! ### One channel at a time -/

theorem channel_setChannel_self (p : Pixel) (c : Int) (v : ℚ) :
    (p.setChannel c v).channel c = v := by
  unfold Pixel.setChannel Pixel.channel
  by_cases h0 : c = 0
  · simp [h0]
  · by_cases h1 : c = 1
    · simp [h1]
    · simp [h0, h1]

theorem channel_setChannel_ne (p : Pixel) {c d : Int} (v : ℚ) (hc : c = 0 ∨ c = 1 ∨ c = 2)
    (hd : d = 0 ∨ d = 1 ∨ d = 2) (hne : d ≠ c) :
    (p.setChannel c v).channel d = p.channel d := by
  rcases hc with rfl | rfl | rfl <;> rcases hd with rfl | rfl | rfl <;>
    first
    | exact absurd rfl hne
    | rfl

theorem getD_mapRegion_channel_ne (image : Image) (roi : Rect) {c d : Int}
    (hc : c = 0 ∨ c = 1 ∨ c = 2) (hd : d = 0 ∨ d = 1 ∨ d = 2) (hne : d ≠ c) (j : Nat) :
    ((image.mapRegion roi (channelMap image c))._data.getD j default).channel d
      = (image._data.getD j default).channel d := by
  by_cases hj : j < image._data.length
  · rw [Image.mapRegion_getD _ _ _ hj]
    split
    · exact channel_setChannel_ne _ _ hc hd hne
    · rfl
  · rw [List.getD_eq_default _ _ (by rw [Image.mapRegion_length]; omega),
      List.getD_eq_default _ _ (by omega)]

theorem channelNormalized_of_agree {image image2 : Image} {c : Int}
    (hn : image.ChannelNormalized c) (hlen : image2._data.length = image._data.length)
    (hagree : ∀ j, (image2._data.getD j default).channel c
      = (image._data.getD j default).channel c) :
    image2.ChannelNormalized c := by
  intro p hp
  obtain ⟨j, hj, rfl⟩ := List.getElem_of_mem hp
  have h1 := hagree j
  rw [List.getD_eq_getElem _ _ hj, List.getD_eq_getElem _ _ (by omega)] at h1
  rw [h1]
  exact hn _ (List.getElem_mem _)

theorem equalizedValue_of_agree {image image2 : Image} {c : Int}
    (hw : image2._width = image._width) (hh : image2._height = image._height)
    (hagree : ∀ j, (image2._data.getD j default).channel c
      = (image._data.getD j default).channel c) (v : ℚ) :
    equalizedValue image2 c v = equalizedValue image c v := by
  unfold equalizedValue cumulativeCount
  have hc : image2.coords = image.coords := by
    unfold Image.coords
    rw [hw, hh]
  rw [hc, hw, hh]
  congr 2
  apply List.countP_congr
  intro x _
  unfold Image.bucketAt Image.pixelAt
  rw [hw, hagree]

/-- C10: for a buffer with channel values in `[0, 1]` and a valid region (of non-negative
width and height), the three channel pipelines run one after another return the same buffer
in all six orders of the channels; the pipeline of a channel keeps the values of the two
other channels, and its result in its own channel depends on the buffer only through the
values of that channel. -/
theorem workers_any_order {image : Image} {roi : Rect} {threads : Nat}
    (hwf : image.WellFormed) (hn : image.Normalized) (hfit : image.Fits threads)
    (hT : 1 ≤ threads) (hroi : roi.Valid image) (hw : 0 ≤ roi.width) (hh : 0 ≤ roi.height) :
    (∀ order : List Int, order.Perm [0, 1, 2] →
      ∃ result, runWorkers roi threads order image = .ok result ∧
        runWorkers roi threads [0, 1, 2] image = .ok result) ∧
    (∀ c : Int, c = 0 ∨ c = 1 ∨ c = 2 →
      ∃ result, worker roi threads c image = .ok result ∧
        (∀ (j : Nat) (d : Int), d = 0 ∨ d = 1 ∨ d = 2 → d ≠ c →
          (result._data.getD j default).channel d = (image._data.getD j default).channel d) ∧
        (∀ image2 : Image, image2.WellFormed → image2._width = image._width →
          image2._height = image._height →
          (∀ j, (image2._data.getD j default).channel c
            = (image._data.getD j default).channel c) →
          ∃ result2, worker roi threads c image2 = .ok result2 ∧
            ∀ j, (result2._data.getD j default).channel c
              = (result._data.getD j default).channel c)) := by
  refine ⟨?_, ?_⟩
  · intro order hp
    exact ⟨_, runWorkers_of_perm hwf hn hfit hT hroi hw hh order hp,
      runWorkers_of_perm hwf hn hfit hT hroi hw hh [0, 1, 2] (List.Perm.refl _)⟩
  · intro c hc
    refine ⟨_, worker_ok hwf hfit hT hroi hw hh c (hn.channelNormalized c), ?_, ?_⟩
    · intro j d hd hne
      exact getD_mapRegion_channel_ne image roi hc hd hne j
    · intro image2 hwf2 hw2 hh2 hagree
      have hlen : image2._data.length = image._data.length := by
        rw [hwf2, hwf, hw2, hh2]
      have hfit2 : image2.Fits threads := by
        unfold Image.Fits
        rw [hw2, hh2]
        exact hfit
      have hroi2 : roi.Valid image2 := by
        unfold Rect.Valid
        rw [hw2, hh2]
        exact hroi
      refine ⟨_, worker_ok hwf2 hfit2 hT hroi2 hw hh c
        (channelNormalized_of_agree (hn.channelNormalized c) hlen hagree), ?_⟩
      intro j
      by_cases hj : j < image._data.length
      · rw [Image.mapRegion_getD _ _ _ (by omega), Image.mapRegion_getD _ _ _ hj, hw2]
        split
        · unfold channelMap
          rw [channel_setChannel_self, channel_setChannel_self,
            equalizedValue_of_agree hw2 hh2 hagree, hagree]
        · exact hagree j
      · rw [List.getD_eq_default _ _ (by rw [Image.mapRegion_length]; omega),
          List.getD_eq_default _ _ (by rw [Image.mapRegion_length]; omega)]

theorem workers_any_order_witness :
    (∀ order : List Int, order.Perm [0, 1, 2] →
      ∃ result, runWorkers exRoi 2 order exImage = .ok result ∧
        runWorkers exRoi 2 [0, 1, 2] exImage = .ok result) ∧
    (∀ c : Int, c = 0 ∨ c = 1 ∨ c = 2 →
      ∃ result, worker exRoi 2 c exImage = .ok result ∧
        (∀ (j : Nat) (d : Int), d = 0 ∨ d = 1 ∨ d = 2 → d ≠ c →
          (result._data.getD j default).channel d = (exImage._data.getD j default).channel d) ∧
        (∀ image2 : Image, image2.WellFormed → image2._width = exImage._width →
          image2._height = exImage._height →
          (∀ j, (image2._data.getD j default).channel c
            = (exImage._data.getD j default).channel c) →
          ∃ result2, worker exRoi 2 c image2 = .ok result2 ∧
            ∀ j, (result2._data.getD j default).channel c
              = (result._data.getD j default).channel c)) :=
  workers_any_order exImage_wellFormed exImage_normalized exImage_fits_two (by decide)
    exRoi_valid (by decide) (by decide)

/-! ## Outside the hypotheses: a region of negative height

The four inequalities of the Region invariant do not exclude a negative height. For such a
rectangle the band size of `equalizeChannel` is computed from a `size_t` that has wrapped
around; with three threads the third band starts at a negative row, and the first pixel
access of that band is outside the pixel array. -/

theorem exTall_wellFormed : exTall.WellFormed := by
  unfold Image.WellFormed
  decide

theorem exTall_normalized : exTall.Normalized := by
  unfold Image.Normalized Pixel.Normalized exTall
  simp

theorem exTall_fits : exTall.Fits 3 := by
  unfold Image.Fits exTall
  decide

theorem exNegative_valid : exNegative.Valid exTall := by
  unfold Rect.Valid
  decide

theorem exNegative_bands :
    eqBlock exNegative 3 = 1431655765 ∧ eqY0 exNegative 1431655765 2 = -1431655763 ∧
    eqY1 exNegative 1431655765 2 = 0 := by
  decide

theorem equalizeChannel_negative_height (cfh : Histogram) :
    equalizeChannel exTall exNegative 0 cfh 3 = .error .outOfBounds := rfl

/-- A rectangle of negative height passes the four assertions; with three threads the call
then reads outside the pixel array. -/
theorem doHistogramEqualization_negative_height :
    exNegative.Valid exTall ∧
    doHistogramEqualization exTall exNegative 3 = .undefined .outOfBounds := by
  refine ⟨exNegative_valid, ?_⟩
  have hworker : worker exNegative 3 0 exTall = .error .outOfBounds := by
    obtain ⟨hist, hhist, _⟩ := calculateHistogram_ok exTall_wellFormed 0
      (exTall_normalized.channelNormalized 0) exTall_fits (by decide) Histogram.zero
    unfold worker
    rw [hhist]
    exact equalizeChannel_negative_height (calculateCFH hist Histogram.zero).2
  have h1 : toSizeT (toInt (exNegative.x + exNegative.width)) ≤ exTall.width := by decide
  have h2 : toSizeT (toInt (exNegative.y + exNegative.height)) ≤ exTall.height := by decide
  unfold doHistogramEqualization
  rw [if_neg (by decide), if_neg (not_not.mpr h1), if_neg (by decide), if_neg (not_not.mpr h2),
    hworker]
  rfl

/-! ## The passes over the lists of bands -/

theorem mapM_map_fun {α β γ : Type} (f : β → Except Fault γ) (g : α → β) (l : List α) :
    (l.map g).mapM f = l.mapM (fun a => f (g a)) := by
  induction l with
  | nil => rfl
  | cons a l ih => rw [List.map_cons, List.mapM_cons, List.mapM_cons, ih]

theorem bandHistograms_eq_bands (image : Image) (ch : Int) {threads : Nat} (hT : threads ≠ 0) :
    bandHistograms image ch threads
      = (histBands image.height threads).mapM
          (fun b => scanBand image ch b.1 b.2 Histogram.zero) := by
  unfold bandHistograms histBands
  rw [if_neg hT, mapM_map_fun]

theorem equalizeChannel_eq_bands (image : Image) (roi : Rect) (ch : Int) (cfh : Histogram)
    {threads : Nat} (hT : threads ≠ 0) :
    equalizeChannel image roi ch cfh threads
      = (eqBands roi threads).foldlM
          (fun im b => remapBand roi ch cfh
            (if image.area = 0 then none else some (1 / (image.area : ℚ))) b.1 b.2 im)
          image := by
  unfold equalizeChannel eqBands
  simp only []
  rw [if_neg hT, foldlM_map_fun]
  unfold forRange
  rw [forLoop_eq_foldlM, Nat.sub_zero, ← List.range_eq_range']
  rfl

theorem forLoop_zero {σ : Type} (body : Nat → σ → Except Fault σ) (i : Nat) (s : σ) :
    forLoop body 0 i s = .ok s := rfl

theorem scanBand_empty (image : Image) (ch : Int) {y0 y1 : Nat} (h01 : y1 ≤ y0)
    (h : Histogram) : scanBand image ch y0 y1 h = .ok h := by
  unfold scanBand forRange
  rw [Nat.sub_eq_zero_of_le h01, forLoop_zero]

theorem remapBand_empty (roi : Rect) (ch : Int) (cfh : Histogram) (invArea : Option ℚ)
    {y0 y1 : Int} (h01 : y1 ≤ y0) (image : Image) :
    remapBand roi ch cfh invArea y0 y1 image = .ok image := by
  unfold remapBand forRangeInt
  have h0 : (y1 - y0).toNat = 0 := by omega
  rw [h0, forLoop_zero]

/-! ## The pipeline with the parameter `resolution`, at `MAX_VALUE` -/

theorem Histogram.getD_toList (h : Histogram) (i : Nat) : h.toList.getD i 0 = h.get i := by
  unfold Histogram.toList Histogram.get
  rw [Array.getD_eq_get?, List.getD_eq_getElem?_getD, Array.getElem?_eq_getElem?_toList]

theorem Histogram.toList_set (h : Histogram) (i v : Nat) :
    (h.set i v).toList = h.toList.set i (wrapSize v) := by
  unfold Histogram.toList Histogram.set
  simp only [Array.setD]
  split
  · rw [Array.toList_set]
  · rename_i hi
    rw [List.set_eq_of_length_le]
    rw [Array.length_toList]
    omega

theorem Histogram.toList_zero : Histogram.zero.toList = zeroAt MAX_VALUE := by
  unfold Histogram.toList Histogram.zero zeroAt
  simp only []
  rw [Array.toList_mkArray]

theorem scaleAt_MAX_VALUE : scaleAt MAX_VALUE = scale := rfl

theorem incrAt_toList (h : Histogram) (idx : Nat) :
    incrAt MAX_VALUE h.toList idx = (Histogram.incr h idx).map Histogram.toList := by
  unfold incrAt Histogram.incr
  split
  · rw [Histogram.getD_toList]
    exact congrArg Except.ok (Histogram.toList_set h idx (h.get idx + 1)).symm
  · rfl

theorem readAt_toList (h : Histogram) (idx : Nat) :
    readAt MAX_VALUE h.toList idx = Histogram.read h idx := by
  unfold readAt Histogram.read
  rw [Histogram.getD_toList]

theorem countPixelAt_toList (image : Image) (ch : Int) (x y : Nat) (h : Histogram) :
    countPixelAt MAX_VALUE image ch x y h.toList
      = (countPixel image ch x y h).map Histogram.toList := by
  unfold countPixelAt countPixel
  rw [scaleAt_MAX_VALUE]
  cases image.getPixel x y with
  | error f => rfl
  | ok p =>
    show (toIndex (p.channel ch * scale) >>= fun idx => incrAt MAX_VALUE h.toList idx)
      = (toIndex (p.channel ch * scale) >>= fun idx => Histogram.incr h idx).map _
    cases toIndex (p.channel ch * scale) with
    | error f => rfl
    | ok idx => exact incrAt_toList h idx

theorem forLoop_map {σ τ : Type} (f : σ → τ) (body : Nat → σ → Except Fault σ)
    (body1 : Nat → τ → Except Fault τ) (hb : ∀ i s, body1 i (f s) = (body i s).map f)
    (n i : Nat) (s : σ) : forLoop body1 n i (f s) = (forLoop body n i s).map f := by
  induction n generalizing i s with
  | zero => rfl
  | succ n ih =>
    unfold forLoop
    rw [hb i s]
    cases body i s with
    | error e => rfl
    | ok s1 => exact ih (i + 1) s1

theorem scanBandAt_toList (image : Image) (ch : Int) (y0 y1 : Nat) (h : Histogram) :
    scanBandAt MAX_VALUE image ch y0 y1 h.toList
      = (scanBand image ch y0 y1 h).map Histogram.toList := by
  unfold scanBandAt scanBand forRange
  apply forLoop_map
  intro y s
  apply forLoop_map
  intro x s1
  exact countPixelAt_toList image ch x y s1

theorem mapM_map_ok {α β γ : Type} (g : β → γ) (f : α → Except Fault β)
    (f1 : α → Except Fault γ) (hf : ∀ a, f1 a = (f a).map g) (l : List α) :
    l.mapM f1 = (l.mapM f).map (List.map g) := by
  induction l with
  | nil => rfl
  | cons a l ih =>
    rw [List.mapM_cons, List.mapM_cons, hf a, ih]
    cases f a with
    | error e => rfl
    | ok b =>
      cases l.mapM f with
      | error e => rfl
      | ok bs => rfl

theorem bandHistogramsAt_toList (image : Image) (ch : Int) (threads : Nat) :
    bandHistogramsAt MAX_VALUE image ch threads
      = (bandHistograms image ch threads).map (List.map Histogram.toList) := by
  unfold bandHistogramsAt bandHistograms
  split
  · rfl
  · apply mapM_map_ok
    intro t
    rw [← Histogram.toList_zero]
    exact scanBandAt_toList image ch _ _ Histogram.zero

theorem foldl_range_toList (g : Histogram → Nat → Histogram) (g1 : List Nat → Nat → List Nat)
    (hg : ∀ h i, g1 h.toList i = (g h i).toList) (l : List Nat) (h : Histogram) :
    l.foldl g1 h.toList = (l.foldl g h).toList := by
  induction l generalizing h with
  | nil => rfl
  | cons a l ih => rw [List.foldl_cons, List.foldl_cons, hg, ih]

theorem mergeIntoAt_toList (h p : Histogram) :
    mergeIntoAt MAX_VALUE h.toList p.toList = (mergeInto h p).toList := by
  unfold mergeIntoAt mergeInto
  apply foldl_range_toList
  intro s i
  rw [Histogram.getD_toList, Histogram.getD_toList, Histogram.toList_set]

theorem mergeAllAt_toList (h : Histogram) (ps : List Histogram) :
    (ps.map Histogram.toList).foldl (mergeIntoAt MAX_VALUE) h.toList
      = (mergeAll h ps).toList := by
  unfold mergeAll
  induction ps generalizing h with
  | nil => rfl
  | cons p ps ih => rw [List.map_cons, List.foldl_cons, List.foldl_cons, mergeIntoAt_toList, ih]

theorem calculateHistogramAt_toList (image : Image) (ch : Int) (h : Histogram) (threads : Nat) :
    calculateHistogramAt MAX_VALUE image ch h.toList threads
      = (calculateHistogram image ch h threads).map Histogram.toList := by
  unfold calculateHistogramAt calculateHistogram
  rw [bandHistogramsAt_toList]
  cases bandHistograms image ch threads with
  | error e => rfl
  | ok ps => exact congrArg Except.ok (mergeAllAt_toList h ps)

theorem calculateCFHAt_fold (h cfh : Histogram) (l : List Nat) (s : Nat) :
    (l.foldl
      (fun (s : Nat × List Nat) i =>
        (wrapSize (s.1 + h.toList.getD i 0), s.2.set i (wrapSize (s.1 + h.toList.getD i 0))))
      (s, cfh.toList))
    = ((l.foldl
      (fun (s : Nat × Histogram) i =>
        (wrapSize (s.1 + h.get i), s.2.set i (wrapSize (s.1 + h.get i)))) (s, cfh)).1,
      (l.foldl
      (fun (s : Nat × Histogram) i =>
        (wrapSize (s.1 + h.get i), s.2.set i (wrapSize (s.1 + h.get i)))) (s, cfh)).2.toList) := by
  induction l generalizing s cfh with
  | nil => rfl
  | cons a l ih =>
    rw [List.foldl_cons, List.foldl_cons]
    simp only []
    rw [Histogram.getD_toList, ← wrapSize_wrapSize (s + h.get a), ← Histogram.toList_set,
      wrapSize_wrapSize]
    exact ih _ _

theorem calculateCFHAt_toList (h cfh : Histogram) :
    calculateCFHAt MAX_VALUE h.toList cfh.toList
      = ((calculateCFH h cfh).1.toList, (calculateCFH h cfh).2.toList) := by
  unfold calculateCFHAt calculateCFH
  simp only []
  rw [calculateCFHAt_fold]

theorem equalizePixelAt_toList (ch : Int) (cfh : Histogram) (invArea : Option ℚ) (x y : Int)
    (image : Image) :
    equalizePixelAt MAX_VALUE ch cfh.toList invArea x y image
      = equalizePixel ch cfh invArea x y image := by
  unfold equalizePixelAt equalizePixel
  simp only [scaleAt_MAX_VALUE, readAt_toList]

theorem equalizeChannelAt_toList (image : Image) (roi : Rect) (ch : Int) (cfh : Histogram)
    (threads : Nat) :
    equalizeChannelAt MAX_VALUE image roi ch cfh.toList threads
      = equalizeChannel image roi ch cfh threads := by
  unfold equalizeChannelAt equalizeChannel
  simp only [equalizePixelAt_toList]

/-- At `resolution = MAX_VALUE` the pipeline with the parameter is the pipeline of the code:
the three functions agree on the counters of the histograms. -/
theorem pipelineAt_MAX_VALUE (image : Image) (roi : Rect) (ch : Int) (h cfh : Histogram)
    (threads : Nat) :
    calculateHistogramAt MAX_VALUE image ch h.toList threads
      = (calculateHistogram image ch h threads).map Histogram.toList ∧
    calculateCFHAt MAX_VALUE h.toList cfh.toList
      = ((calculateCFH h cfh).1.toList, (calculateCFH h cfh).2.toList) ∧
    equalizeChannelAt MAX_VALUE image roi ch cfh.toList threads
      = equalizeChannel image roi ch cfh threads :=
  ⟨calculateHistogramAt_toList image ch h threads, calculateCFHAt_toList h cfh,
    equalizeChannelAt_toList image roi ch cfh threads⟩

/-! ## Scenario A at resolution 4 -/

theorem scaleAt_four : scaleAt 4 = 3 := by
  unfold scaleAt
  norm_num

theorem toIndex_of_floor {d : ℚ} {n : Nat} (h0 : (n : ℚ) ≤ d) (h1 : d < (n : ℚ) + 1)
    (hn : n < 2 ^ 63) : toIndex d = .ok n := by
  unfold toIndex
  have hn0 : (0 : ℚ) ≤ (n : ℚ) := Nat.cast_nonneg n
  have hnq : (n : ℚ) + 1 ≤ 2 ^ 64 := by
    have : n + 1 ≤ 2 ^ 64 := by omega
    exact_mod_cast this
  rw [if_pos ⟨by linarith, by linarith⟩]
  have hf : ⌊d⌋ = (n : Int) := by
    rw [Int.floor_eq_iff]
    exact ⟨by exact_mod_cast h0, by exact_mod_cast h1⟩
  rw [hf, Int.toNat_ofNat]

theorem scanBandAt_eq_foldlM (resolution : Nat) (image : Image) (ch : Int) (y0 y1 : Nat)
    (h : List Nat) :
    scanBandAt resolution image ch y0 y1 h
      = (rectCoords 0 image._width y0 y1).foldlM
          (fun h c => countPixelAt resolution image ch c.1 c.2 h) h := by
  unfold scanBandAt forRange rectCoords Image.width
  rw [forLoop_eq_foldlM, foldlM_flatMap]
  apply foldlM_congr
  intro y _ s
  rw [forLoop_eq_foldlM, foldlM_map_fun]

theorem exGrid_countPixelAt (h : List Nat) :
    countPixelAt 4 exGrid 0 0 0 h = incrAt 4 h 0 ∧
    countPixelAt 4 exGrid 0 1 0 h = incrAt 4 h 0 ∧
    countPixelAt 4 exGrid 0 0 1 h = incrAt 4 h 1 ∧
    countPixelAt 4 exGrid 0 1 1 h = incrAt 4 h 3 := by
  have g00 : exGrid.getPixel 0 0 = .ok ⟨0, 0, 0⟩ := rfl
  have g10 : exGrid.getPixel 1 0 = .ok ⟨1 / 4, 0, 0⟩ := rfl
  have g01 : exGrid.getPixel 0 1 = .ok ⟨1 / 2, 0, 0⟩ := rfl
  have g11 : exGrid.getPixel 1 1 = .ok ⟨1, 0, 0⟩ := rfl
  have c (r : ℚ) : (Pixel.mk r 0 0).channel 0 = r := rfl
  have i0 : toIndex ((0 : ℚ) * scaleAt 4) = .ok 0 :=
    toIndex_of_floor (by rw [scaleAt_four]; norm_num) (by rw [scaleAt_four]; norm_num)
      (by norm_num)
  have i1 : toIndex ((1 / 4 : ℚ) * scaleAt 4) = .ok 0 :=
    toIndex_of_floor (by rw [scaleAt_four]; norm_num) (by rw [scaleAt_four]; norm_num)
      (by norm_num)
  have i2 : toIndex ((1 / 2 : ℚ) * scaleAt 4) = .ok 1 :=
    toIndex_of_floor (by rw [scaleAt_four]; norm_num) (by rw [scaleAt_four]; norm_num)
      (by norm_num)
  have i3 : toIndex ((1 : ℚ) * scaleAt 4) = .ok 3 :=
    toIndex_of_floor (by rw [scaleAt_four]; norm_num) (by rw [scaleAt_four]; norm_num)
      (by norm_num)
  unfold countPixelAt
  rw [g00, g10, g01, g11]
  simp only [c]
  refine ⟨?_, ?_, ?_, ?_⟩
  · show toIndex ((0 : ℚ) * scaleAt 4) >>= incrAt 4 h = _
    rw [i0]
    rfl
  · show toIndex ((1 / 4 : ℚ) * scaleAt 4) >>= incrAt 4 h = _
    rw [i1]
    rfl
  · show toIndex ((1 / 2 : ℚ) * scaleAt 4) >>= incrAt 4 h = _
    rw [i2]
    rfl
  · show toIndex ((1 : ℚ) * scaleAt 4) >>= incrAt 4 h = _
    rw [i3]
    rfl

theorem exGrid_scanBandAt (y0 y1 : Nat) (l : List (Nat × Nat))
    (hl : rectCoords 0 2 y0 y1 = l) (h : List Nat) :
    scanBandAt 4 exGrid 0 y0 y1 h
      = l.foldlM (fun h c => countPixelAt 4 exGrid 0 c.1 c.2 h) h := by
  rw [scanBandAt_eq_foldlM, ← hl]
  rfl

theorem exGrid_histogramAt_one :
    calculateHistogramAt 4 exGrid 0 (zeroAt 4) 1 = .ok [2, 1, 0, 1] := by
  unfold calculateHistogramAt bandHistogramsAt
  have hb : histBlock exGrid.height 1 = 2 := by decide
  have h0 : histY0 2 0 = 0 := by decide
  have h1 : histY1 exGrid.height 2 0 = 2 := by decide
  have hr : List.range 1 = [0] := rfl
  simp only [hb, hr, List.mapM_cons, List.mapM_nil, h0, h1]
  rw [exGrid_scanBandAt 0 2 [(0, 0), (1, 0), (0, 1), (1, 1)] (by decide)]
  simp only [List.foldlM_cons, List.foldlM_nil, (exGrid_countPixelAt _).1,
    (exGrid_countPixelAt _).2.1, (exGrid_countPixelAt _).2.2.1, (exGrid_countPixelAt _).2.2.2]
  rfl

theorem exGrid_histogramAt_two :
    calculateHistogramAt 4 exGrid 0 (zeroAt 4) 2 = .ok [2, 1, 0, 1] := by
  unfold calculateHistogramAt bandHistogramsAt
  have hb : histBlock exGrid.height 2 = 1 := by decide
  have h00 : histY0 1 0 = 0 := by decide
  have h01 : histY1 exGrid.height 1 0 = 1 := by decide
  have h10 : histY0 1 1 = 1 := by decide
  have h11 : histY1 exGrid.height 1 1 = 2 := by decide
  have hr : List.range 2 = [0, 1] := rfl
  simp only [hb, hr, List.mapM_cons, List.mapM_nil, h00, h01, h10, h11]
  rw [exGrid_scanBandAt 0 1 [(0, 0), (1, 0)] (by decide),
    exGrid_scanBandAt 1 2 [(0, 1), (1, 1)] (by decide)]
  simp only [List.foldlM_cons, List.foldlM_nil, (exGrid_countPixelAt _).1,
    (exGrid_countPixelAt _).2.1, (exGrid_countPixelAt _).2.2.1, (exGrid_countPixelAt _).2.2.2]
  rfl

theorem exGrid_tableAt : (calculateCFHAt 4 [2, 1, 0, 1] (zeroAt 4)).2 = [2, 3, 3, 4] := by
  decide

theorem bandLoops_eq_foldlM {roi : Rect} {threads : Nat} {rx ry rw rh : Nat}
    (hrx : roi.x = (rx : Int)) (hry : roi.y = (ry : Int))
    (hrw : roi.width = (rw : Int)) (hrh : roi.height = (rh : Int))
    (hT : 1 ≤ threads) (hx : rx + rw < 2 ^ 31) (hy : ry + rh + threads < 2 ^ 31)
    (body : Int → Int → Image → Except Fault Image) (image : Image) :
    forRange 0 threads (fun t image =>
        forRangeInt (eqY0 roi (eqBlock roi threads) t) (eqY1 roi (eqBlock roi threads) t)
          (fun y image => forRangeInt roi.x (toInt (roi.x + roi.width))
            (fun x image => body x y image) image) image) image
      = (rectCoords rx (rx + rw) ry (ry + rh)).foldlM
          (fun im c => body (c.1 : Int) (c.2 : Int) im) image := by
  rw [eqBlock_eq hrh hT (by omega)]
  unfold forRange
  rw [forLoop_eq_foldlM, Nat.sub_zero, ← List.range_eq_range']
  have hband : ∀ t ∈ List.range threads, ∀ im : Image,
      forRangeInt (eqY0 roi (((rh + threads - 1) / threads : Nat) : Int) t)
          (eqY1 roi (((rh + threads - 1) / threads : Nat) : Int) t)
          (fun y im1 => forRangeInt roi.x (toInt (roi.x + roi.width))
            (fun x im2 => body x y im2) im1) im
        = (rectCoords rx (rx + rw) (ry + t * ((rh + threads - 1) / threads))
            (min (ry + rh) (ry + t * ((rh + threads - 1) / threads)
              + (rh + threads - 1) / threads))).foldlM
            (fun im c => body (c.1 : Int) (c.2 : Int) im) im := by
    intro t ht im
    rw [List.mem_range] at ht
    have hb := succ_mul_block_le (h := rh) ht
    rw [eqY0_eq hry (by omega), eqY1_eq hry hrh (by omega) (by omega), forRangeInt_natCast]
    unfold rectCoords
    rw [foldlM_flatMap]
    congr 1
    funext im y
    rw [hrx, hrw, toInt_of_mem (by omega) (by omega)]
    have hcast : ((rx : Int) + (rw : Int)) = ((rx + rw : Nat) : Int) := by push_cast; rfl
    rw [hcast, forRangeInt_natCast, foldlM_map_fun]
  rw [foldlM_congr _ hband, ← foldlM_flatMap, bands_flatMap,
    Nat.min_eq_left (by have := le_mul_block rh hT; omega)]

theorem equalizeChannelAt_eq_foldlM (resolution : Nat) {image : Image} {roi : Rect}
    {threads : Nat} {rx ry rw rh : Nat} (hrx : roi.x = (rx : Int)) (hry : roi.y = (ry : Int))
    (hrw : roi.width = (rw : Int)) (hrh : roi.height = (rh : Int))
    (hT : 1 ≤ threads) (hx : rx + rw < 2 ^ 31) (hy : ry + rh + threads < 2 ^ 31)
    (ch : Int) (cfh : List Nat) :
    equalizeChannelAt resolution image roi ch cfh threads
      = (rectCoords rx (rx + rw) ry (ry + rh)).foldlM
          (fun im c => equalizePixelAt resolution ch cfh
            (if image.area = 0 then none else some (1 / (image.area : ℚ)))
            (c.1 : Int) (c.2 : Int) im)
          image := by
  unfold equalizeChannelAt
  simp only []
  rw [if_neg (by omega)]
  exact bandLoops_eq_foldlM hrx hry hrw hrh hT hx hy _ image

theorem equalizePixelAt_step (resolution : Nat) (ch : Int) (cfh : List Nat) (inv : ℚ)
    (x y : Int) (image image1 : Image) (p : Pixel) (idx : Nat) (q : ℚ)
    (hg : image.getPixel (toSizeT x) (toSizeT y) = .ok p)
    (hi : toIndex (p.channel ch * scaleAt resolution) = .ok idx) (hlt : idx < resolution)
    (hq : ((cfh.getD idx 0 : Nat) : ℚ) * inv = q)
    (hs : image.setPixel (toSizeT x) (toSizeT y) (p.setChannel ch q) = .ok image1) :
    equalizePixelAt resolution ch cfh (some inv) x y image = .ok image1 := by
  unfold equalizePixelAt
  rw [hg]
  simp only []
  show (toIndex (p.channel ch * scaleAt resolution) >>= fun idx =>
    readAt resolution cfh idx >>= fun c =>
      image.setPixel (toSizeT x) (toSizeT y) (p.setChannel ch ((c : ℚ) * inv))) = _
  rw [hi]
  show (readAt resolution cfh idx >>= fun c =>
      image.setPixel (toSizeT x) (toSizeT y) (p.setChannel ch ((c : ℚ) * inv))) = _
  unfold readAt
  rw [if_pos hlt]
  show image.setPixel (toSizeT x) (toSizeT y)
    (p.setChannel ch (((cfh.getD idx 0 : Nat) : ℚ) * inv)) = _
  rw [hq, hs]

theorem toIndex_red_four (r : ℚ) (n : Nat) (h0 : (n : ℚ) ≤ r * 3) (h1 : r * 3 < (n : ℚ) + 1)
    (hn : n < 4) : toIndex ((Pixel.mk r 0 0).channel 0 * scaleAt 4) = .ok n := by
  rw [scaleAt_four]
  exact toIndex_of_floor h0 h1 (by omega)

theorem exGrid_equalizeAt (threads : Nat) (hT : 1 ≤ threads) (hlt : 2 + threads < 2 ^ 31) :
    equalizeChannelAt 4 exGrid ⟨0, 0, 2, 2⟩ 0 [2, 3, 3, 4] threads
      = .ok ⟨2, 2, [⟨1 / 2, 0, 0⟩, ⟨1 / 2, 0, 0⟩, ⟨3 / 4, 0, 0⟩, ⟨1, 0, 0⟩]⟩ := by
  rw [equalizeChannelAt_eq_foldlM 4 (show (Rect.mk 0 0 2 2).x = ((0 : Nat) : Int) from rfl)
    (show (Rect.mk 0 0 2 2).y = ((0 : Nat) : Int) from rfl)
    (show (Rect.mk 0 0 2 2).width = ((2 : Nat) : Int) from rfl)
    (show (Rect.mk 0 0 2 2).height = ((2 : Nat) : Int) from rfl) hT (by norm_num) (by omega)]
  have hc : rectCoords 0 (0 + 2) 0 (0 + 2) = [(0, 0), (1, 0), (0, 1), (1, 1)] := by decide
  have ha : exGrid.area = 4 := by decide
  rw [hc, ha, if_neg (by decide)]
  have s1 := equalizePixelAt_step 4 0 [2, 3, 3, 4] (1 / ((4 : Nat) : ℚ)) ((0 : Nat) : Int)
    ((0 : Nat) : Int) exGrid
    ⟨2, 2, [⟨1 / 2, 0, 0⟩, ⟨1 / 4, 0, 0⟩, ⟨1 / 2, 0, 0⟩, ⟨1, 0, 0⟩]⟩ ⟨0, 0, 0⟩ 0 (1 / 2) rfl
    (toIndex_red_four 0 0 (by norm_num) (by norm_num) (by decide)) (by decide)
    (by norm_num) rfl
  have s2 := equalizePixelAt_step 4 0 [2, 3, 3, 4] (1 / ((4 : Nat) : ℚ)) ((1 : Nat) : Int)
    ((0 : Nat) : Int) ⟨2, 2, [⟨1 / 2, 0, 0⟩, ⟨1 / 4, 0, 0⟩, ⟨1 / 2, 0, 0⟩, ⟨1, 0, 0⟩]⟩
    ⟨2, 2, [⟨1 / 2, 0, 0⟩, ⟨1 / 2, 0, 0⟩, ⟨1 / 2, 0, 0⟩, ⟨1, 0, 0⟩]⟩ ⟨1 / 4, 0, 0⟩ 0 (1 / 2) rfl
    (toIndex_red_four (1 / 4) 0 (by norm_num) (by norm_num) (by decide)) (by decide)
    (by norm_num) rfl
  have s3 := equalizePixelAt_step 4 0 [2, 3, 3, 4] (1 / ((4 : Nat) : ℚ)) ((0 : Nat) : Int)
    ((1 : Nat) : Int) ⟨2, 2, [⟨1 / 2, 0, 0⟩, ⟨1 / 2, 0, 0⟩, ⟨1 / 2, 0, 0⟩, ⟨1, 0, 0⟩]⟩
    ⟨2, 2, [⟨1 / 2, 0, 0⟩, ⟨1 / 2, 0, 0⟩, ⟨3 / 4, 0, 0⟩, ⟨1, 0, 0⟩]⟩ ⟨1 / 2, 0, 0⟩ 1 (3 / 4) rfl
    (toIndex_red_four (1 / 2) 1 (by norm_num) (by norm_num) (by decide)) (by decide)
    (by norm_num) rfl
  have s4 := equalizePixelAt_step 4 0 [2, 3, 3, 4] (1 / ((4 : Nat) : ℚ)) ((1 : Nat) : Int)
    ((1 : Nat) : Int) ⟨2, 2, [⟨1 / 2, 0, 0⟩, ⟨1 / 2, 0, 0⟩, ⟨3 / 4, 0, 0⟩, ⟨1, 0, 0⟩]⟩
    ⟨2, 2, [⟨1 / 2, 0, 0⟩, ⟨1 / 2, 0, 0⟩, ⟨3 / 4, 0, 0⟩, ⟨1, 0, 0⟩]⟩ ⟨1, 0, 0⟩ 3 1 rfl
    (toIndex_red_four 1 3 (by norm_num) (by norm_num) (by decide)) (by decide)
    (by norm_num) rfl
  rw [List.foldlM_cons, s1]
  show List.foldlM _ _ _ = _
  rw [List.foldlM_cons, s2]
  show List.foldlM _ _ _ = _
  rw [List.foldlM_cons, s3]
  show List.foldlM _ _ _ = _
  rw [List.foldlM_cons, s4]
  rfl

theorem exGrid_wellFormed : exGrid.WellFormed := by
  unfold Image.WellFormed
  decide

theorem exGrid_normalized : exGrid.Normalized := by
  unfold Image.Normalized Pixel.Normalized exGrid
  simp
  norm_num

theorem exGrid_coords : exGrid.coords = [(0, 0), (1, 0), (0, 1), (1, 1)] := by decide

theorem exGrid_cumulativeCount_red :
    cumulativeCount exGrid 0 (bucketOf 0) = 1 ∧ cumulativeCount exGrid 0 (bucketOf (1 / 4)) = 2 ∧
    cumulativeCount exGrid 0 (bucketOf (1 / 2)) = 3 ∧ cumulativeCount exGrid 0 (bucketOf 1) = 4 := by
  have h4 : bucketOf (4⁻¹ : ℚ) = 16383 := by
    rw [← one_div]
    exact bucketOf_dark
  have h2 : bucketOf (2⁻¹ : ℚ) = 32767 := by
    rw [← one_div]
    exact bucketOf_half
  unfold cumulativeCount
  rw [exGrid_coords]
  simp [Image.bucketAt, Image.pixelAt, exGrid, Pixel.channel, bucketOf_zero, bucketOf_one,
    h2, h4, List.countP_cons]

theorem exGrid_cumulativeCount_other (ch : Int) (hch : ch ≠ 0) :
    cumulativeCount exGrid ch (bucketOf 0) = 4 := by
  unfold cumulativeCount
  rw [exGrid_coords]
  simp [Image.bucketAt, Image.pixelAt, exGrid, Pixel.channel, bucketOf_zero, hch,
    List.countP_cons]

/-- Scenario A on the code itself (resolution `65535`): the four red values fall into four
different buckets, and the remapped red values are `1 / 4`, `1 / 2`, `3 / 4`, `1`. -/
theorem exGrid_doHistogramEqualization :
    doHistogramEqualization exGrid ⟨0, 0, 2, 2⟩ 1
      = .done ⟨2, 2, [⟨1 / 4, 1, 1⟩, ⟨1 / 2, 1, 1⟩, ⟨3 / 4, 1, 1⟩, ⟨1, 1, 1⟩]⟩ := by
  rw [doHistogramEqualization_eq exGrid_wellFormed exGrid_normalized
    (by unfold Image.Fits exGrid; decide) (Nat.le_refl 1) (by unfold Rect.Valid; decide)
    (by decide) (by decide)]
  congr 1
  unfold Image.mapRegion
  have hr : List.range 4 = [0, 1, 2, 3] := by decide
  have hc : ∀ x y, x < 2 → y < 2 → (Rect.mk 0 0 2 2).Contains x y := by
    intro x y hx hy
    unfold Rect.Contains
    simp only []
    omega
  have hl : exGrid._data.length = 4 := rfl
  have hw : exGrid._width = 2 := rfl
  rw [hl, hr, hw]
  simp only [List.map_cons, List.map_nil]
  rw [if_pos (hc _ _ (by decide) (by decide)), if_pos (hc _ _ (by decide) (by decide)),
    if_pos (hc _ _ (by decide) (by decide)), if_pos (hc _ _ (by decide) (by decide))]
  have h0 : exGrid._data.getD 0 default = ⟨0, 0, 0⟩ := rfl
  have h1 : exGrid._data.getD 1 default = ⟨1 / 4, 0, 0⟩ := rfl
  have h2 : exGrid._data.getD 2 default = ⟨1 / 2, 0, 0⟩ := rfl
  have h3 : exGrid._data.getD 3 default = ⟨1, 0, 0⟩ := rfl
  rw [h0, h1, h2, h3]
  unfold equalizedPixel equalizedValue
  simp only []
  rw [exGrid_cumulativeCount_red.1, exGrid_cumulativeCount_red.2.1,
    exGrid_cumulativeCount_red.2.2.1, exGrid_cumulativeCount_red.2.2.2,
    exGrid_cumulativeCount_other 1 (by decide), exGrid_cumulativeCount_other 2 (by decide)]
  have hh : exGrid._height = 2 := rfl
  simp only [hh, hw]
  norm_num

/-- C11 (as stated) fails: at resolution 4 the value `0.25` has the bucket
`floor(0.25 * 3) = 0`, the bucket of the value `0`, and no value has the bucket `2`. The red
histogram of the scenario is not `[1, 1, 1, 1]`, its cumulative table is not `[1, 2, 3, 4]`,
and the remapped red values are not `0.25, 0.5, 0.75, 1`. -/
theorem scenarioA_resolution_four_counterexample :
    toIndex ((1 / 4 : ℚ) * scaleAt 4) = .ok 0 ∧
    calculateHistogramAt 4 exGrid 0 (zeroAt 4) 1 = .ok [2, 1, 0, 1] ∧
    calculateHistogramAt 4 exGrid 0 (zeroAt 4) 1 ≠ .ok [1, 1, 1, 1] ∧
    (calculateCFHAt 4 [2, 1, 0, 1] (zeroAt 4)).2 ≠ [1, 2, 3, 4] ∧
    equalizeChannelAt 4 exGrid ⟨0, 0, 2, 2⟩ 0 (calculateCFHAt 4 [2, 1, 0, 1] (zeroAt 4)).2 1
      ≠ .ok ⟨2, 2, [⟨1 / 4, 0, 0⟩, ⟨1 / 2, 0, 0⟩, ⟨3 / 4, 0, 0⟩, ⟨1, 0, 0⟩]⟩ := by
  refine ⟨?_, exGrid_histogramAt_one, ?_, ?_, ?_⟩
  · exact toIndex_of_floor (by rw [scaleAt_four]; norm_num) (by rw [scaleAt_four]; norm_num)
      (by norm_num)
  · rw [exGrid_histogramAt_one]
    intro h
    cases h
  · rw [exGrid_tableAt]
    decide
  · rw [exGrid_tableAt, exGrid_equalizeAt 1 (Nat.le_refl 1) (by norm_num)]
    intro h
    injection h with h
    injection h with _ _ h
    injection h with h _
    injection h with h _ _
    norm_num at h

/-- C11 (amended): Scenario A, for the buffer of two rows of two pixels with the red values
`0`, `0.25`, `0.5`, `1`, with the pipeline at resolution 4 and the region of the whole image,
for one band and for two bands: the red histogram is `[2, 1, 0, 1]`, the cumulative table is
`[2, 3, 3, 4]`, and the remapped red values are `0.5`, `0.5`, `0.75`, `1`. -/
theorem scenarioA_resolution_four :
    (calculateHistogramAt 4 exGrid 0 (zeroAt 4) 1 = .ok [2, 1, 0, 1] ∧
      calculateHistogramAt 4 exGrid 0 (zeroAt 4) 2 = .ok [2, 1, 0, 1]) ∧
    calculateCFHAt 4 [2, 1, 0, 1] (zeroAt 4) = ([2, 1, 0, 1], [2, 3, 3, 4]) ∧
    (equalizeChannelAt 4 exGrid ⟨0, 0, 2, 2⟩ 0 [2, 3, 3, 4] 1
        = .ok ⟨2, 2, [⟨1 / 2, 0, 0⟩, ⟨1 / 2, 0, 0⟩, ⟨3 / 4, 0, 0⟩, ⟨1, 0, 0⟩]⟩ ∧
      equalizeChannelAt 4 exGrid ⟨0, 0, 2, 2⟩ 0 [2, 3, 3, 4] 2
        = .ok ⟨2, 2, [⟨1 / 2, 0, 0⟩, ⟨1 / 2, 0, 0⟩, ⟨3 / 4, 0, 0⟩, ⟨1, 0, 0⟩]⟩) :=
  ⟨⟨exGrid_histogramAt_one, exGrid_histogramAt_two⟩, by decide,
    ⟨exGrid_equalizeAt 1 (Nat.le_refl 1) (by norm_num),
      exGrid_equalizeAt 2 (by norm_num) (by norm_num)⟩⟩

/-! ## A thread count of zero -/

/-- C12 fails on the code: when `std::thread::hardware_concurrency()` returns `0`, the block
size `(height + threads - 1) / threads` of `calculateHistogram` and of `equalizeChannel` is
a division by zero, for every buffer, region and channel, and so a call of
`doHistogramEqualization` is undefined; with one thread the same call returns the remapped
buffer. -/
theorem zero_threads_division_by_zero :
    (∀ (image : Image) (ch : Int) (h : Histogram),
      calculateHistogram image ch h 0 = .error .divByZero) ∧
    (∀ (image : Image) (roi : Rect) (ch : Int) (cfh : Histogram),
      equalizeChannel image roi ch cfh 0 = .error .divByZero) ∧
    doHistogramEqualization exImage exRoi 0 = .undefined .divByZero ∧
    doHistogramEqualization exImage exRoi 1
      = .done ⟨2, 1, [⟨1 / 2, 1 / 2, 1 / 2⟩, ⟨1, 1, 1⟩]⟩ := by
  refine ⟨fun image ch h => rfl, fun image roi ch cfh => rfl, rfl, ?_⟩
  rw [doHistogramEqualization_eq exImage_wellFormed exImage_normalized exImage_fits_one
    (Nat.le_refl 1) exRoi_valid (by decide) (by decide), exImage_equalized]

/-! ## Access to the pixel array -/

theorem Image.index_of_lt {image : Image} {x y : Nat}
    (hlt : image._width * image._height < 2 ^ 64)
    (hx : x < image._width) (hy : y < image._height) :
    image.index x y = image._width * y + x := by
  unfold Image.index
  exact wrapSize_of_lt (lt_trans (index_lt hx hy) hlt)

theorem Image.getPixel_of_lt (image : Image) {x y : Nat}
    (h : image.index x y < image._data.length) :
    image.getPixel x y = .ok (image._data.getD (image.index x y) default) := by
  unfold Image.getPixel
  rw [List.getD_eq_getElem?_getD, List.getElem?_eq_getElem h]
  rfl

theorem Image.getPixel_of_le (image : Image) {x y : Nat}
    (h : image._data.length ≤ image.index x y) :
    image.getPixel x y = .error .outOfBounds := by
  unfold Image.getPixel
  rw [List.getElem?_eq_none h]

/-- C13 (as stated) fails: `getPixel` and `setPixel` do not check the coordinates. On the
buffer of two rows of two pixels, `getPixel(2, 0)` (where `x = 2` is not below the width)
returns the data of the pixel `(0, 1)`, and `setPixel(2, 0, v)` replaces the pixel `(0, 1)`. -/
theorem getPixel_setPixel_unchecked_counterexample :
    exGrid.width ≤ 2 ∧
    exGrid.getPixel 2 0 = .ok (exGrid.pixelAt 0 1) ∧
    exGrid.setPixel 2 0 ⟨1, 1, 1⟩
      = .ok ⟨2, 2, [⟨0, 0, 0⟩, ⟨1 / 4, 0, 0⟩, ⟨1, 1, 1⟩, ⟨1, 0, 0⟩]⟩ ∧
    (⟨2, 2, [⟨0, 0, 0⟩, ⟨1 / 4, 0, 0⟩, ⟨1, 1, 1⟩, ⟨1, 0, 0⟩]⟩ : Image).pixelAt 0 1
      ≠ exGrid.pixelAt 0 1 := by
  refine ⟨by decide, rfl, rfl, ?_⟩
  unfold Image.pixelAt exGrid
  simp

/-- C13 (amended): `getPixel(x, y)` and `setPixel(x, y, v)` access the element
`_width * y + x` of the pixel array without a check of `x` and `y`: when this subscript is
inside the array, `getPixel` returns that element and `setPixel` replaces that element; when
it is not, the access is outside the array. For `x < width` and `y < height`, on a buffer of
`width * height` pixels, `getPixel` returns the pixel `(x, y)`, and `setPixel` replaces the
pixel `(x, y)` and leaves the width, the height and every other pixel as they are. -/
theorem getPixel_setPixel_subscript (image : Image) (v : Pixel) :
    (∀ x y, image.index x y < image._data.length →
      image.getPixel x y = .ok (image._data.getD (image.index x y) default) ∧
      image.setPixel x y v
        = .ok { image with _data := image._data.set (image.index x y) v }) ∧
    (∀ x y, image._data.length ≤ image.index x y →
      image.getPixel x y = .error .outOfBounds ∧
      image.setPixel x y v = .error .outOfBounds) ∧
    (image.WellFormed → image._width * image._height < 2 ^ 64 →
      ∀ x y, x < image._width → y < image._height →
        image.getPixel x y = .ok (image.pixelAt x y) ∧
        ∃ image1, image.setPixel x y v = .ok image1 ∧
          image1._width = image._width ∧ image1._height = image._height ∧
          image1.pixelAt x y = v ∧
          ∀ x1 y1, x1 < image._width → y1 < image._height → (x1, y1) ≠ (x, y) →
            image1.pixelAt x1 y1 = image.pixelAt x1 y1) := by
  refine ⟨?_, ?_, ?_⟩
  · intro x y h
    refine ⟨Image.getPixel_of_lt image h, ?_⟩
    unfold Image.setPixel
    rw [if_pos h]
  · intro x y h
    refine ⟨Image.getPixel_of_le image h, ?_⟩
    unfold Image.setPixel
    rw [if_neg (Nat.not_lt.mpr h)]
  · intro hwf hlt x y hx hy
    have hidx := Image.index_of_lt hlt hx hy
    have hin : image.index x y < image._data.length := by
      rw [hidx, hwf]
      exact index_lt hx hy
    constructor
    · rw [Image.getPixel_of_lt image hin, hidx]
      rfl
    · refine ⟨{ image with _data := image._data.set (image.index x y) v }, ?_, rfl, rfl, ?_, ?_⟩
      · unfold Image.setPixel
        rw [if_pos hin]
      · unfold Image.pixelAt
        simp only []
        rw [getD_set, hidx, if_pos ⟨rfl, by rw [← hidx]; exact hin⟩]
      · intro x1 y1 hx1 hy1 hne
        unfold Image.pixelAt
        simp only []
        rw [getD_set, hidx, if_neg]
        rintro ⟨heq, _⟩
        obtain ⟨h1, h2⟩ := index_inj hx hx1 heq
        exact hne (by rw [h1, h2])

theorem getPixel_setPixel_subscript_witness :
    (exGrid.getPixel 1 1 = .ok (exGrid.pixelAt 1 1) ∧
      ∃ image1, exGrid.setPixel 1 1 ⟨1, 1, 1⟩ = .ok image1 ∧
        image1._width = exGrid._width ∧ image1._height = exGrid._height ∧
        image1.pixelAt 1 1 = ⟨1, 1, 1⟩ ∧
        ∀ x1 y1, x1 < exGrid._width → y1 < exGrid._height → (x1, y1) ≠ (1, 1) →
          image1.pixelAt x1 y1 = exGrid.pixelAt x1 y1) ∧
    (exGrid.getPixel 2 1 = .error .outOfBounds ∧
      exGrid.setPixel 2 1 ⟨1, 1, 1⟩ = .error .outOfBounds) :=
  ⟨(getPixel_setPixel_subscript exGrid ⟨1, 1, 1⟩).2.2 (by unfold Image.WellFormed; decide)
      (by decide) 1 1 (by decide) (by decide),
    (getPixel_setPixel_subscript exGrid ⟨1, 1, 1⟩).2.1 2 1 (by decide)⟩

/-! ## The concurrent workers -/

theorem forRangeInt_eq_foldlM {σ : Type} (lo hi : Int) (body : Int → σ → Except Fault σ)
    (s : σ) : forRangeInt lo hi body s = (intRange lo hi).foldlM (fun s i => body i s) s := by
  unfold forRangeInt intRange
  rw [forLoop_eq_foldlM, ← List.range_eq_range', foldlM_map_fun]

theorem equalizeChannel_eq_remapOrder (image : Image) (roi : Rect) (ch : Int) (cfh : Histogram)
    {threads : Nat} (hT : threads ≠ 0) :
    equalizeChannel image roi ch cfh threads
      = (remapOrder roi threads).foldlM
          (fun im c => equalizePixel ch cfh
            (if image.area = 0 then none else some (1 / (image.area : ℚ))) c.1 c.2 im)
          image := by
  rw [equalizeChannel_eq_bands image roi ch cfh hT]
  unfold remapOrder remapBand
  rw [foldlM_flatMap]
  apply foldlM_congr
  intro b _ im
  rw [forRangeInt_eq_foldlM, foldlM_flatMap]
  apply foldlM_congr
  intro y _ im1
  rw [forRangeInt_eq_foldlM, foldlM_map_fun]

theorem equalizePixel_eq_fetch (ch : Int) (cfh : Histogram) (invArea : Option ℚ) (x y : Int)
    (image : Image) :
    equalizePixel ch cfh invArea x y image
      = fetchPixel ch cfh invArea x y image >>= image.setPixel (toSizeT x) (toSizeT y) := by
  unfold equalizePixel fetchPixel
  cases image.getPixel (toSizeT x) (toSizeT y) with
  | error f => rfl
  | ok p =>
    show (toIndex (p.channel ch * scale) >>= _) = (toIndex (p.channel ch * scale) >>= _) >>= _
    cases toIndex (p.channel ch * scale) with
    | error f => rfl
    | ok idx =>
      show (Histogram.read cfh idx >>= _) = (Histogram.read cfh idx >>= _) >>= _
      cases Histogram.read cfh idx with
      | error f => rfl
      | ok n =>
        cases invArea with
        | none => rfl
        | some inv => rfl

theorem Stage.step_reading_some {roi : Rect} {threads k : Nat} {c : Int × Int}
    (hsome : (remapOrder roi threads)[k]? = some c) (ch : Int) (cfh : Histogram)
    (invArea : Option ℚ) (image : Image) :
    Stage.step roi threads ch image (.reading cfh invArea k)
      = (fetchPixel ch cfh invArea c.1 c.2 image).map
          (fun pixel => (image, Stage.writing cfh invArea k pixel)) := by
  unfold Stage.step
  simp only []
  rw [hsome]
  simp only []
  cases fetchPixel ch cfh invArea c.1 c.2 image <;> rfl

theorem Stage.step_reading_none {roi : Rect} {threads k : Nat}
    (hnone : (remapOrder roi threads)[k]? = none) (ch : Int) (cfh : Histogram)
    (invArea : Option ℚ) (image : Image) :
    Stage.step roi threads ch image (.reading cfh invArea k) = .ok (image, .finished) := by
  unfold Stage.step
  simp only []
  rw [hnone]
  rfl

theorem Stage.step_writing_some {roi : Rect} {threads k : Nat} {c : Int × Int}
    (hsome : (remapOrder roi threads)[k]? = some c) (ch : Int) (cfh : Histogram)
    (invArea : Option ℚ) (pixel : Pixel) (image : Image) :
    Stage.step roi threads ch image (.writing cfh invArea k pixel)
      = (image.setPixel (toSizeT c.1) (toSizeT c.2) pixel).map
          (fun image1 => (image1, Stage.reading cfh invArea (k + 1))) := by
  unfold Stage.step
  simp only []
  rw [hsome]
  simp only []
  cases image.setPixel (toSizeT c.1) (toSizeT c.2) pixel <;> rfl

theorem Stage.step_start {threads : Nat} (hT : threads ≠ 0) (roi : Rect) (ch : Int)
    (image : Image) :
    Stage.step roi threads ch image .start
      = (calculateHistogram image ch Histogram.zero threads).map
          (fun hist => (image, Stage.reading (calculateCFH hist Histogram.zero).2
            (if image.area = 0 then none else some (1 / (image.area : ℚ))) 0)) := by
  unfold Stage.step
  simp only []
  cases calculateHistogram image ch Histogram.zero threads with
  | error f => rfl
  | ok hist =>
    show (if threads = 0 then _ else _) = _
    rw [if_neg hT]
    rfl

theorem Stage.steps_error (roi : Rect) (threads : Nat) (ch : Int) (n : Nat)
    {s : Image × Stage} {f : Fault} (h : Stage.step roi threads ch s.1 s.2 = .error f) :
    Stage.steps roi threads ch (n + 1) s = .error f := by
  unfold Stage.steps
  rw [h]

theorem Stage.steps_ok (roi : Rect) (threads : Nat) (ch : Int) (n : Nat)
    {s s1 : Image × Stage} (h : Stage.step roi threads ch s.1 s.2 = .ok s1) :
    Stage.steps roi threads ch (n + 1) s = Stage.steps roi threads ch n s1 := by
  conv_lhs => unfold Stage.steps
  rw [h]

theorem getElem?_of_drop_cons {α : Type} {l l1 : List α} {k : Nat} {c : α}
    (h : l.drop k = c :: l1) : l[k]? = some c ∧ l.drop (k + 1) = l1 := by
  constructor
  · rw [← List.head?_drop, h]
    rfl
  · rw [← List.drop_drop, List.drop_one, h]
    rfl

theorem getElem?_of_drop_nil {α : Type} {l : List α} {k : Nat} (h : l.drop k = []) :
    l[k]? = none := by
  rw [← List.head?_drop, h]
  rfl

/-- The remap pass of a worker that is not interrupted is the remap pass of
`equalizeChannel` over the pixels that are left. -/
theorem Stage.steps_reading (roi : Rect) (threads : Nat) (ch : Int) (cfh : Histogram)
    (invArea : Option ℚ) (l : List (Int × Int)) :
    ∀ (k : Nat) (image : Image), (remapOrder roi threads).drop k = l →
      Stage.steps roi threads ch (2 * l.length + 1) (image, .reading cfh invArea k)
        = (l.foldlM (fun im c => equalizePixel ch cfh invArea c.1 c.2 im) image).map
            (fun im => (im, Stage.finished)) := by
  induction l with
  | nil =>
    intro k image hk
    rw [List.length_nil, Nat.mul_zero, Nat.zero_add,
      Stage.steps_ok roi threads ch 0 (s := (image, .reading cfh invArea k))
        (Stage.step_reading_none (getElem?_of_drop_nil hk) ch cfh invArea image)]
    rfl
  | cons c l ih =>
    intro k image hk
    obtain ⟨hsome, hdrop⟩ := getElem?_of_drop_cons hk
    have hlen : 2 * (c :: l).length + 1 = (2 * l.length + 1) + 1 + 1 := by
      rw [List.length_cons]
      ring
    rw [hlen, List.foldlM_cons, equalizePixel_eq_fetch]
    have hread := Stage.step_reading_some hsome ch cfh invArea image
    cases hf : fetchPixel ch cfh invArea c.1 c.2 image with
    | error f =>
      rw [hf] at hread
      rw [Stage.steps_error roi threads ch _ (s := (image, .reading cfh invArea k)) hread]
      rfl
    | ok pixel =>
      rw [hf] at hread
      rw [Stage.steps_ok roi threads ch _ (s := (image, .reading cfh invArea k)) hread]
      have hwrite := Stage.step_writing_some hsome ch cfh invArea pixel image
      show Stage.steps roi threads ch (2 * l.length + 1 + 1) _
        = (image.setPixel (toSizeT c.1) (toSizeT c.2) pixel >>= _).map _
      cases hs : image.setPixel (toSizeT c.1) (toSizeT c.2) pixel with
      | error f =>
        rw [hs] at hwrite
        rw [Stage.steps_error roi threads ch _
          (s := (image, .writing cfh invArea k pixel)) hwrite]
        rfl
      | ok image1 =>
        rw [hs] at hwrite
        rw [Stage.steps_ok roi threads ch _
          (s := (image, .writing cfh invArea k pixel)) hwrite]
        exact ih (k + 1) image1 hdrop

/-- A worker of the model that takes all its steps in a row does what `worker` does. -/
theorem Stage.steps_worker {threads : Nat} (hT : threads ≠ 0) (roi : Rect) (ch : Int)
    (image : Image) :
    Stage.steps roi threads ch (2 * (remapOrder roi threads).length + 1 + 1) (image, .start)
      = (worker roi threads ch image).map (fun im => (im, Stage.finished)) := by
  have hstart := Stage.step_start hT roi ch image
  unfold worker
  cases hh : calculateHistogram image ch Histogram.zero threads with
  | error f =>
    rw [hh] at hstart
    rw [Stage.steps_error roi threads ch _ (s := (image, .start)) hstart]
    rfl
  | ok hist =>
    rw [hh] at hstart
    rw [Stage.steps_ok roi threads ch _ (s := (image, .start)) hstart]
    show _ = (equalizeChannel image roi ch (calculateCFH hist Histogram.zero).2 threads).map _
    rw [equalizeChannel_eq_remapOrder image roi ch _ hT]
    exact Stage.steps_reading roi threads ch _ _ _ 0 image rfl

theorem Concurrent.run_replicate_zero (roi : Rect) (threads : Nat) (n : Nat) :
    ∀ s : Concurrent, Concurrent.run roi threads (List.replicate n 0) s
      = (Stage.steps roi threads 0 n (s.image, s.stageR)).map
          (fun r => { s with image := r.1, stageR := r.2 }) := by
  induction n with
  | zero => intro s; rfl
  | succ n ih =>
    intro s
    unfold Concurrent.run
    rw [List.replicate_succ, List.foldlM_cons]
    conv_rhs => unfold Stage.steps
    unfold Concurrent.step
    simp only []
    cases Stage.step roi threads 0 s.image s.stageR with
    | error f => rfl
    | ok r => exact ih { s with image := r.1, stageR := r.2 }

theorem Concurrent.run_replicate_one (roi : Rect) (threads : Nat) (n : Nat) :
    ∀ s : Concurrent, Concurrent.run roi threads (List.replicate n 1) s
      = (Stage.steps roi threads 1 n (s.image, s.stageG)).map
          (fun r => { s with image := r.1, stageG := r.2 }) := by
  induction n with
  | zero => intro s; rfl
  | succ n ih =>
    intro s
    unfold Concurrent.run
    rw [List.replicate_succ, List.foldlM_cons]
    conv_rhs => unfold Stage.steps
    unfold Concurrent.step
    simp only []
    cases Stage.step roi threads 1 s.image s.stageG with
    | error f => rfl
    | ok r => exact ih { s with image := r.1, stageG := r.2 }

theorem Concurrent.run_replicate_two (roi : Rect) (threads : Nat) (n : Nat) :
    ∀ s : Concurrent, Concurrent.run roi threads (List.replicate n 2) s
      = (Stage.steps roi threads 2 n (s.image, s.stageB)).map
          (fun r => { s with image := r.1, stageB := r.2 }) := by
  induction n with
  | zero => intro s; rfl
  | succ n ih =>
    intro s
    unfold Concurrent.run
    rw [List.replicate_succ, List.foldlM_cons]
    conv_rhs => unfold Stage.steps
    unfold Concurrent.step
    simp only []
    cases Stage.step roi threads 2 s.image s.stageB with
    | error f => rfl
    | ok r => exact ih { s with image := r.1, stageB := r.2 }

theorem Concurrent.run_append (roi : Rect) (threads : Nat) (l1 l2 : List Nat) (s : Concurrent) :
    Concurrent.run roi threads (l1 ++ l2) s
      = Concurrent.run roi threads l1 s >>= Concurrent.run roi threads l2 := by
  unfold Concurrent.run
  rw [List.foldlM_append]

/-- The schedule in which the worker of the channel 0 takes all its steps, then the worker
of the channel 1, then the worker of the channel 2, gives the buffer of the three workers
run one after another, which is the buffer of `doHistogramEqualization` in the sequential
embedding. -/
theorem Concurrent.run_sequential {threads : Nat} (hT : threads ≠ 0) (roi : Rect)
    (image : Image) :
    Concurrent.run roi threads
        (List.replicate (2 * (remapOrder roi threads).length + 1 + 1) 0
          ++ List.replicate (2 * (remapOrder roi threads).length + 1 + 1) 1
          ++ List.replicate (2 * (remapOrder roi threads).length + 1 + 1) 2)
        (Concurrent.init image)
      = (worker roi threads 0 image >>= worker roi threads 1 >>= worker roi threads 2).map
          (fun im => ⟨im, .finished, .finished, .finished⟩) := by
  rw [Concurrent.run_append, Concurrent.run_append, Concurrent.run_replicate_zero]
  unfold Concurrent.init
  simp only []
  rw [Stage.steps_worker hT]
  cases worker roi threads 0 image with
  | error f => rfl
  | ok im0 =>
    show (Concurrent.run roi threads _ ⟨im0, .finished, .start, .start⟩ >>= _) = _
    rw [Concurrent.run_replicate_one]
    simp only []
    rw [Stage.steps_worker hT]
    show _ = (worker roi threads 1 im0 >>= worker roi threads 2).map _
    cases worker roi threads 1 im0 with
    | error f => rfl
    | ok im1 =>
      show Concurrent.run roi threads _ ⟨im1, .finished, .finished, .start⟩ = _
      rw [Concurrent.run_replicate_two]
      simp only []
      rw [Stage.steps_worker hT]
      show _ = (worker roi threads 2 im1).map _
      cases worker roi threads 2 im1 with
      | error f => rfl
      | ok im2 => rfl

/-! ### A run in which an update is lost -/

theorem fetchPixel_ok {image : Image} {x y : Int} {p : Pixel} {ch : Int} {idx : Nat}
    (hg : image.getPixel (toSizeT x) (toSizeT y) = .ok p)
    (hi : toIndex (p.channel ch * scale) = .ok idx) (hlt : idx < MAX_VALUE)
    (cfh : Histogram) (inv : ℚ) :
    fetchPixel ch cfh (some inv) x y image
      = .ok (p.setChannel ch ((cfh.get idx : ℚ) * inv)) := by
  unfold fetchPixel
  rw [hg]
  show (toIndex (p.channel ch * scale) >>= _) = _
  rw [hi]
  show (Histogram.read cfh idx >>= _) = _
  unfold Histogram.read
  rw [if_pos hlt]
  rfl

theorem Concurrent.step_zero {roi : Rect} {threads : Nat} {s : Concurrent} {r : Image × Stage}
    (h : Stage.step roi threads 0 s.image s.stageR = .ok r) :
    Concurrent.step roi threads s 0 = .ok { s with image := r.1, stageR := r.2 } := by
  unfold Concurrent.step
  simp only []
  rw [h]
  rfl

theorem Concurrent.step_one {roi : Rect} {threads : Nat} {s : Concurrent} {r : Image × Stage}
    (h : Stage.step roi threads 1 s.image s.stageG = .ok r) :
    Concurrent.step roi threads s 1 = .ok { s with image := r.1, stageG := r.2 } := by
  unfold Concurrent.step
  simp only []
  rw [h]
  rfl

theorem Concurrent.step_two {roi : Rect} {threads : Nat} {s : Concurrent} {r : Image × Stage}
    (h : Stage.step roi threads 2 s.image s.stageB = .ok r) :
    Concurrent.step roi threads s 2 = .ok { s with image := r.1, stageB := r.2 } := by
  unfold Concurrent.step
  simp only []
  rw [h]
  rfl

theorem exDot_wellFormed : exDot.WellFormed := by
  unfold Image.WellFormed
  decide

theorem exDot_normalized : exDot.Normalized := by
  unfold Image.Normalized Pixel.Normalized exDot
  simp

theorem exDot_fits : exDot.Fits 1 := by
  unfold Image.Fits exDot
  decide

theorem exDot_table (ch : Int) :
    ∃ h, calculateHistogram exDot ch Histogram.zero 1 = .ok h ∧
      (calculateCFH h Histogram.zero).2.get 0 = 1 := by
  obtain ⟨h, hok, hget⟩ := calculateHistogram_ok exDot_wellFormed ch
    (exDot_normalized.channelNormalized ch) exDot_fits (Nat.le_refl 1) Histogram.zero
  refine ⟨h, hok, ?_⟩
  have hc : bucketCount exDot ch 0 = 1 := by
    unfold bucketCount
    have hco : exDot.coords = [(0, 0)] := by decide
    rw [hco]
    simp [Image.bucketAt, Image.pixelAt, exDot, Pixel.channel, bucketOf_zero]
  rw [calculateCFH_get h Histogram.zero 0 (by unfold MAX_VALUE; norm_num), Finset.sum_range_one,
    hget 0, Histogram.get_zero, Nat.zero_add, hc]
  rfl

theorem exDot_equalized :
    doHistogramEqualization exDot exDotRoi 1 = .done ⟨1, 1, [⟨1, 1, 1⟩]⟩ := by
  rw [doHistogramEqualization_eq exDot_wellFormed exDot_normalized exDot_fits (Nat.le_refl 1)
    (by unfold Rect.Valid; decide) (by decide) (by decide)]
  congr 1
  unfold Image.mapRegion
  have hr : List.range exDot._data.length = [0] := rfl
  have hc : exDotRoi.Contains (0 % exDot._width) (0 / exDot._width) := by
    unfold Rect.Contains
    decide
  have hcc : ∀ ch : Int, cumulativeCount exDot ch 0 = 1 := by
    intro ch
    unfold cumulativeCount
    have hco : exDot.coords = [(0, 0)] := by decide
    rw [hco]
    simp [Image.bucketAt, Image.pixelAt, exDot, Pixel.channel, bucketOf_zero]
  rw [hr]
  simp only [List.map_cons, List.map_nil]
  rw [if_pos hc]
  have h0 : exDot._data.getD 0 default = ⟨0, 0, 0⟩ := rfl
  rw [h0]
  unfold equalizedPixel equalizedValue
  simp only [bucketOf_zero, hcc]
  have hw : exDot._width = 1 := rfl
  have hh : exDot._height = 1 := rfl
  simp only [hw, hh]
  norm_num

theorem ok_bind {α β : Type} (a : α) (f : α → Except Fault β) : (Except.ok a >>= f) = f a :=
  rfl

theorem exDot_fetch (ch : Int) (cfh : Histogram) (hget : cfh.get 0 = 1) (image : Image)
    (p q : Pixel) (hg : image.getPixel (toSizeT 0) (toSizeT 0) = .ok p)
    (hv : p.channel ch = 0) (hq : p.setChannel ch 1 = q) :
    fetchPixel ch cfh (some (1 / ((1 : Nat) : ℚ))) 0 0 image = .ok q := by
  have hi : toIndex (p.channel ch * scale) = .ok 0 := by
    rw [hv, toIndex_ok (le_refl 0) (by norm_num), bucketOf_zero]
  rw [fetchPixel_ok hg hi (by unfold MAX_VALUE; norm_num), hget, ← hq]
  norm_num

theorem exDot_lost_update :
    Concurrent.run exDotRoi 1 [0, 1, 2, 0, 1, 0, 1, 2, 2, 0, 1, 2] (Concurrent.init exDot)
      = .ok ⟨⟨1, 1, [⟨0, 1, 1⟩]⟩, .finished, .finished, .finished⟩ := by
  obtain ⟨hR, hRok, hRget⟩ := exDot_table 0
  obtain ⟨hG, hGok, hGget⟩ := exDot_table 1
  obtain ⟨hB, hBok, hBget⟩ := exDot_table 2
  have horder : remapOrder exDotRoi 1 = [(0, 0)] := by decide
  have h0 : (remapOrder exDotRoi 1)[0]? = some (0, 0) := by rw [horder]; rfl
  have h1 : (remapOrder exDotRoi 1)[1]? = none := by rw [horder]; rfl
  have hone : (1 : Nat) ≠ 0 := by decide
  have harea : (if exDot.area = 0 then none else some (1 / (exDot.area : ℚ)))
      = some (1 / ((1 : Nat) : ℚ)) := by
    have ha : exDot.area = 1 := by decide
    rw [ha, if_neg (by decide)]
  generalize hcR : (calculateCFH hR Histogram.zero).2 = cR at hRget
  generalize hcG : (calculateCFH hG Histogram.zero).2 = cG at hGget
  generalize hcB : (calculateCFH hB Histogram.zero).2 = cB at hBget
  generalize hinv : some (1 / ((1 : Nat) : ℚ)) = inv at harea
  -- the three workers compute their tables
  have e1 : Concurrent.step exDotRoi 1 ⟨exDot, .start, .start, .start⟩ 0
      = .ok ⟨exDot, .reading cR inv 0, .start, .start⟩ :=
    Concurrent.step_zero (r := (exDot, .reading cR inv 0))
      (by rw [Stage.step_start hone, hRok, harea, ← hcR]; rfl)
  have e2 : Concurrent.step exDotRoi 1 ⟨exDot, .reading cR inv 0, .start, .start⟩ 1
      = .ok ⟨exDot, .reading cR inv 0, .reading cG inv 0, .start⟩ :=
    Concurrent.step_one (r := (exDot, .reading cG inv 0))
      (by rw [Stage.step_start hone, hGok, harea, ← hcG]; rfl)
  have e3 : Concurrent.step exDotRoi 1
      ⟨exDot, .reading cR inv 0, .reading cG inv 0, .start⟩ 2
      = .ok ⟨exDot, .reading cR inv 0, .reading cG inv 0, .reading cB inv 0⟩ :=
    Concurrent.step_two (r := (exDot, .reading cB inv 0))
      (by rw [Stage.step_start hone, hBok, harea, ← hcB]; rfl)
  -- the workers of the channels 0 and 1 read the pixel
  have e4 : Concurrent.step exDotRoi 1
      ⟨exDot, .reading cR inv 0, .reading cG inv 0, .reading cB inv 0⟩ 0
      = .ok ⟨exDot, .writing cR inv 0 ⟨1, 0, 0⟩, .reading cG inv 0, .reading cB inv 0⟩ :=
    Concurrent.step_zero (r := (exDot, .writing cR inv 0 ⟨1, 0, 0⟩))
      (by rw [Stage.step_reading_some h0, ← hinv,
        exDot_fetch 0 cR hRget exDot ⟨0, 0, 0⟩ ⟨1, 0, 0⟩ rfl rfl rfl]; rfl)
  have e5 : Concurrent.step exDotRoi 1
      ⟨exDot, .writing cR inv 0 ⟨1, 0, 0⟩, .reading cG inv 0, .reading cB inv 0⟩ 1
      = .ok ⟨exDot, .writing cR inv 0 ⟨1, 0, 0⟩, .writing cG inv 0 ⟨0, 1, 0⟩,
          .reading cB inv 0⟩ :=
    Concurrent.step_one (r := (exDot, .writing cG inv 0 ⟨0, 1, 0⟩))
      (by rw [Stage.step_reading_some h0, ← hinv,
        exDot_fetch 1 cG hGget exDot ⟨0, 0, 0⟩ ⟨0, 1, 0⟩ rfl rfl rfl]; rfl)
  -- both write their copy of the whole pixel
  have e6 : Concurrent.step exDotRoi 1
      ⟨exDot, .writing cR inv 0 ⟨1, 0, 0⟩, .writing cG inv 0 ⟨0, 1, 0⟩, .reading cB inv 0⟩ 0
      = .ok ⟨⟨1, 1, [⟨1, 0, 0⟩]⟩, .reading cR inv 1, .writing cG inv 0 ⟨0, 1, 0⟩,
          .reading cB inv 0⟩ :=
    Concurrent.step_zero (r := (⟨1, 1, [⟨1, 0, 0⟩]⟩, .reading cR inv 1))
      (by rw [Stage.step_writing_some h0]; rfl)
  have e7 : Concurrent.step exDotRoi 1
      ⟨⟨1, 1, [⟨1, 0, 0⟩]⟩, .reading cR inv 1, .writing cG inv 0 ⟨0, 1, 0⟩,
        .reading cB inv 0⟩ 1
      = .ok ⟨⟨1, 1, [⟨0, 1, 0⟩]⟩, .reading cR inv 1, .reading cG inv 1, .reading cB inv 0⟩ :=
    Concurrent.step_one (r := (⟨1, 1, [⟨0, 1, 0⟩]⟩, .reading cG inv 1))
      (by rw [Stage.step_writing_some h0]; rfl)
  -- the worker of the channel 2 reads and writes
  have e8 : Concurrent.step exDotRoi 1
      ⟨⟨1, 1, [⟨0, 1, 0⟩]⟩, .reading cR inv 1, .reading cG inv 1, .reading cB inv 0⟩ 2
      = .ok ⟨⟨1, 1, [⟨0, 1, 0⟩]⟩, .reading cR inv 1, .reading cG inv 1,
          .writing cB inv 0 ⟨0, 1, 1⟩⟩ :=
    Concurrent.step_two (r := (⟨1, 1, [⟨0, 1, 0⟩]⟩, .writing cB inv 0 ⟨0, 1, 1⟩))
      (by rw [Stage.step_reading_some h0, ← hinv,
        exDot_fetch 2 cB hBget ⟨1, 1, [⟨0, 1, 0⟩]⟩ ⟨0, 1, 0⟩ ⟨0, 1, 1⟩ rfl rfl rfl]; rfl)
  have e9 : Concurrent.step exDotRoi 1
      ⟨⟨1, 1, [⟨0, 1, 0⟩]⟩, .reading cR inv 1, .reading cG inv 1,
        .writing cB inv 0 ⟨0, 1, 1⟩⟩ 2
      = .ok ⟨⟨1, 1, [⟨0, 1, 1⟩]⟩, .reading cR inv 1, .reading cG inv 1, .reading cB inv 1⟩ :=
    Concurrent.step_two (r := (⟨1, 1, [⟨0, 1, 1⟩]⟩, .reading cB inv 1))
      (by rw [Stage.step_writing_some h0]; rfl)
  -- the three workers return
  have e10 : Concurrent.step exDotRoi 1
      ⟨⟨1, 1, [⟨0, 1, 1⟩]⟩, .reading cR inv 1, .reading cG inv 1, .reading cB inv 1⟩ 0
      = .ok ⟨⟨1, 1, [⟨0, 1, 1⟩]⟩, .finished, .reading cG inv 1, .reading cB inv 1⟩ :=
    Concurrent.step_zero (r := (⟨1, 1, [⟨0, 1, 1⟩]⟩, .finished))
      (Stage.step_reading_none h1 0 cR inv _)
  have e11 : Concurrent.step exDotRoi 1
      ⟨⟨1, 1, [⟨0, 1, 1⟩]⟩, .finished, .reading cG inv 1, .reading cB inv 1⟩ 1
      = .ok ⟨⟨1, 1, [⟨0, 1, 1⟩]⟩, .finished, .finished, .reading cB inv 1⟩ :=
    Concurrent.step_one (r := (⟨1, 1, [⟨0, 1, 1⟩]⟩, .finished))
      (Stage.step_reading_none h1 1 cG inv _)
  have e12 : Concurrent.step exDotRoi 1
      ⟨⟨1, 1, [⟨0, 1, 1⟩]⟩, .finished, .finished, .reading cB inv 1⟩ 2
      = .ok ⟨⟨1, 1, [⟨0, 1, 1⟩]⟩, .finished, .finished, .finished⟩ :=
    Concurrent.step_two (r := (⟨1, 1, [⟨0, 1, 1⟩]⟩, .finished))
      (Stage.step_reading_none h1 2 cB inv _)
  unfold Concurrent.run Concurrent.init
  rw [List.foldlM_cons, e1, ok_bind, List.foldlM_cons, e2, ok_bind, List.foldlM_cons, e3,
    ok_bind, List.foldlM_cons, e4, ok_bind, List.foldlM_cons, e5, ok_bind, List.foldlM_cons,
    e6, ok_bind, List.foldlM_cons, e7, ok_bind, List.foldlM_cons, e8, ok_bind,
    List.foldlM_cons, e9, ok_bind, List.foldlM_cons, e10, ok_bind, List.foldlM_cons, e11,
    ok_bind, List.foldlM_cons, e12, ok_bind, List.foldlM_nil]
  rfl

theorem workers_of_done {image result : Image} {roi : Rect} {threads : Nat}
    (h : doHistogramEqualization image roi threads = .done result) :
    worker roi threads 0 image >>= worker roi threads 1 >>= worker roi threads 2
      = .ok result := by
  unfold doHistogramEqualization at h
  split_ifs at h
  cases hw : worker roi threads 0 image >>= worker roi threads 1 >>= worker roi threads 2 with
  | error f =>
    rw [hw] at h
    cases h
  | ok im =>
    rw [hw] at h
    cases h
    rfl

/-- When `doHistogramEqualization` returns in the sequential embedding, the schedule of the
model in which the three workers take their steps one worker after another ends with all
workers finished and with the same buffer. -/
theorem Concurrent.run_sequential_done {image result : Image} {roi : Rect} {threads : Nat}
    (hT : threads ≠ 0) (h : doHistogramEqualization image roi threads = .done result) :
    Concurrent.run roi threads
        (List.replicate (2 * (remapOrder roi threads).length + 1 + 1) 0
          ++ List.replicate (2 * (remapOrder roi threads).length + 1 + 1) 1
          ++ List.replicate (2 * (remapOrder roi threads).length + 1 + 1) 2)
        (Concurrent.init image)
      = .ok ⟨result, .finished, .finished, .finished⟩ := by
  rw [Concurrent.run_sequential hT, workers_of_done h]
  rfl

/-- C14 fails on the code: a worker copies the whole pixel (`auto pixel = getPixel(x, y)`),
changes its own channel in the copy and writes the whole copy back (`setPixel(x, y, pixel)`).
On the buffer of one black pixel, in the run in which the workers of the channels 0 and 1
both read the pixel before either of them writes it, the write of the worker of the channel 1
puts the old red value back: the run ends, all workers finished, with the pixel `(0, 1, 1)`.
The workers run one after another end with the pixel `(1, 1, 1)`, as does
`doHistogramEqualization` in the sequential embedding. -/
theorem concurrent_workers_lose_update :
    Concurrent.run exDotRoi 1 [0, 1, 2, 0, 1, 0, 1, 2, 2, 0, 1, 2] (Concurrent.init exDot)
      = .ok ⟨⟨1, 1, [⟨0, 1, 1⟩]⟩, .finished, .finished, .finished⟩ ∧
    Concurrent.run exDotRoi 1 [0, 0, 0, 0, 1, 1, 1, 1, 2, 2, 2, 2] (Concurrent.init exDot)
      = .ok ⟨⟨1, 1, [⟨1, 1, 1⟩]⟩, .finished, .finished, .finished⟩ ∧
    doHistogramEqualization exDot exDotRoi 1 = .done ⟨1, 1, [⟨1, 1, 1⟩]⟩ := by
  refine ⟨exDot_lost_update, ?_, exDot_equalized⟩
  have hseq := Concurrent.run_sequential_done (show (1 : Nat) ≠ 0 by decide) exDot_equalized
  have horder : remapOrder exDotRoi 1 = [(0, 0)] := by decide
  rw [horder] at hseq
  exact hseq

/-! ## The row bands -/

theorem band_exists_unique {h threads : Nat} (hT : 1 ≤ threads) (y0 : Nat) {y : Nat}
    (hy0 : y0 ≤ y) (hy : y < y0 + h) :
    ∃! t, t < threads ∧ y0 + t * ((h + threads - 1) / threads) ≤ y ∧
      y < min (y0 + h) (y0 + t * ((h + threads - 1) / threads) + (h + threads - 1) / threads) := by
  have hcover := le_mul_block h hT
  generalize (h + threads - 1) / threads = blk at hcover ⊢
  have hblk : 0 < blk := by
    rcases Nat.eq_zero_or_pos blk with h0 | h0
    · subst h0
      omega
    · exact h0
  have hmod := Nat.mod_lt (y - y0) hblk
  have hdiv := Nat.div_add_mod (y - y0) blk
  have hcomm : blk * ((y - y0) / blk) = (y - y0) / blk * blk := Nat.mul_comm _ _
  refine ⟨(y - y0) / blk, ⟨?_, ?_, ?_⟩, ?_⟩
  · apply (Nat.div_lt_iff_lt_mul hblk).mpr
    omega
  · omega
  · rw [lt_min_iff]
    omega
  · rintro t ⟨_, h1, h2⟩
    rw [lt_min_iff] at h2
    symm
    apply Nat.div_eq_of_lt_le
    · omega
    · rw [Nat.succ_mul]
      omega

theorem band_subset {h blk y0 t y : Nat}
    (hy : y < min (y0 + h) (y0 + t * blk + blk)) : y < y0 + h :=
  lt_of_lt_of_le hy (min_le_left _ _)

/-- C15: for a band count `T ≥ 1`, the bands of `calculateHistogram` over the rows
`0, ..., height - 1` and the bands of `equalizeChannel` over the rows
`roi.y, ..., roi.y + roi.height - 1` (a range of `roi.height ≥ 0` rows), as the code computes
them from `block = (rows + T - 1) / T`, lie inside the row range, every row of the range lies
in exactly one band, and two different bands share no row. -/
theorem bands_partition_rows {height threads : Nat} {roi : Rect} (hT : 1 ≤ threads)
    (hlt : height + threads < 2 ^ 31) (hy0 : 0 ≤ roi.y) (hh : 0 ≤ roi.height)
    (hroi : roi.y + roi.height + threads < 2 ^ 31) :
    ((∀ t, t < threads → ∀ y, histY0 (histBlock height threads) t ≤ y →
        y < histY1 height (histBlock height threads) t → y < height) ∧
      (∀ y, y < height → ∃! t, t < threads ∧ histY0 (histBlock height threads) t ≤ y ∧
        y < histY1 height (histBlock height threads) t) ∧
      (∀ t1 t2, t1 < threads → t2 < threads → t1 ≠ t2 → ∀ y,
        ¬ ((histY0 (histBlock height threads) t1 ≤ y ∧
            y < histY1 height (histBlock height threads) t1) ∧
          (histY0 (histBlock height threads) t2 ≤ y ∧
            y < histY1 height (histBlock height threads) t2)))) ∧
    ((∀ t, t < threads → ∀ y : Int, eqY0 roi (eqBlock roi threads) t ≤ y →
        y < eqY1 roi (eqBlock roi threads) t → roi.y ≤ y ∧ y < roi.y + roi.height) ∧
      (∀ y : Int, roi.y ≤ y → y < roi.y + roi.height →
        ∃! t, t < threads ∧ eqY0 roi (eqBlock roi threads) t ≤ y ∧
          y < eqY1 roi (eqBlock roi threads) t) ∧
      (∀ t1 t2, t1 < threads → t2 < threads → t1 ≠ t2 → ∀ y : Int,
        ¬ ((eqY0 roi (eqBlock roi threads) t1 ≤ y ∧ y < eqY1 roi (eqBlock roi threads) t1) ∧
          (eqY0 roi (eqBlock roi threads) t2 ≤ y ∧
            y < eqY1 roi (eqBlock roi threads) t2)))) := by
  -- the bands of `calculateHistogram`
  have hH0 : ∀ t, t < threads → histY0 (histBlock height threads) t
      = 0 + t * ((height + threads - 1) / threads) := by
    intro t ht
    rw [histBlock_eq hT hlt, histY0_eq hT ht hlt, Nat.zero_add]
  have hH1 : ∀ t, t < threads → histY1 height (histBlock height threads) t
      = min (0 + height) (0 + t * ((height + threads - 1) / threads)
          + (height + threads - 1) / threads) := by
    intro t ht
    rw [histBlock_eq hT hlt, histY1_eq hT ht hlt, Nat.zero_add, Nat.zero_add]
  have hHsub : ∀ t, t < threads → ∀ y, histY0 (histBlock height threads) t ≤ y →
      y < histY1 height (histBlock height threads) t → y < height := by
    intro t ht y _ h1
    rw [hH1 t ht] at h1
    have := band_subset h1
    omega
  have hHex : ∀ y, y < height → ∃! t, t < threads ∧ histY0 (histBlock height threads) t ≤ y ∧
      y < histY1 height (histBlock height threads) t := by
    intro y hy
    obtain ⟨t, ⟨ht, h0, h1⟩, huniq⟩ :=
      band_exists_unique (h := height) hT 0 (Nat.zero_le y) (by omega)
    refine ⟨t, ⟨ht, ?_, ?_⟩, ?_⟩
    · rw [hH0 t ht]
      exact h0
    · rw [hH1 t ht]
      exact h1
    · rintro t2 ⟨ht2, h02, h12⟩
      rw [hH0 t2 ht2] at h02
      rw [hH1 t2 ht2] at h12
      exact huniq t2 ⟨ht2, h02, h12⟩
  -- the bands of `equalizeChannel`
  obtain ⟨ry, hry⟩ := Int.eq_ofNat_of_zero_le hy0
  obtain ⟨rh, hrh⟩ := Int.eq_ofNat_of_zero_le hh
  have hsum : ry + rh + threads < 2 ^ 31 := by
    rw [hry, hrh] at hroi
    exact_mod_cast hroi
  have hbound : ∀ t, t < threads →
      ry + t * ((rh + threads - 1) / threads) + (rh + threads - 1) / threads < 2 ^ 31 := by
    intro t ht
    have := succ_mul_block_le (h := rh) ht
    omega
  have hE0 : ∀ t, t < threads → eqY0 roi (eqBlock roi threads) t
      = ((ry + t * ((rh + threads - 1) / threads) : Nat) : Int) := by
    intro t ht
    rw [eqBlock_eq hrh hT (by omega), eqY0_eq hry (hbound t ht)]
  have hE1 : ∀ t, t < threads → eqY1 roi (eqBlock roi threads) t
      = ((min (ry + rh) (ry + t * ((rh + threads - 1) / threads)
          + (rh + threads - 1) / threads) : Nat) : Int) := by
    intro t ht
    rw [eqBlock_eq hrh hT (by omega), eqY1_eq hry hrh (hbound t ht) (by omega)]
  have hEsub : ∀ t, t < threads → ∀ y : Int, eqY0 roi (eqBlock roi threads) t ≤ y →
      y < eqY1 roi (eqBlock roi threads) t → roi.y ≤ y ∧ y < roi.y + roi.height := by
    intro t ht y h0 h1
    rw [hE0 t ht] at h0
    rw [hE1 t ht] at h1
    have hle : min (ry + rh) (ry + t * ((rh + threads - 1) / threads)
        + (rh + threads - 1) / threads) ≤ ry + rh := min_le_left _ _
    rw [hry, hrh]
    push_cast at h0
    constructor
    · have : (0 : Int) ≤ ((t * ((rh + threads - 1) / threads) : Nat) : Int) :=
        Int.natCast_nonneg _
      push_cast at this
      omega
    · have hle1 : ((min (ry + rh) (ry + t * ((rh + threads - 1) / threads)
          + (rh + threads - 1) / threads) : Nat) : Int) ≤ ((ry + rh : Nat) : Int) :=
        Int.ofNat_le.mpr hle
      push_cast at hle1 h1 ⊢
      omega
  have hEex : ∀ y : Int, roi.y ≤ y → y < roi.y + roi.height →
      ∃! t, t < threads ∧ eqY0 roi (eqBlock roi threads) t ≤ y ∧
        y < eqY1 roi (eqBlock roi threads) t := by
    intro y h0 h1
    obtain ⟨n, hn⟩ := Int.eq_ofNat_of_zero_le (le_trans hy0 h0)
    subst hn
    rw [hry] at h0
    rw [hry, hrh] at h1
    have h0n : ry ≤ n := by exact_mod_cast h0
    have h1n : n < ry + rh := by exact_mod_cast h1
    obtain ⟨t, ⟨ht, hb0, hb1⟩, huniq⟩ := band_exists_unique (h := rh) hT ry h0n h1n
    refine ⟨t, ⟨ht, ?_, ?_⟩, ?_⟩
    · rw [hE0 t ht]
      exact_mod_cast hb0
    · rw [hE1 t ht]
      exact_mod_cast hb1
    · rintro t2 ⟨ht2, h02, h12⟩
      rw [hE0 t2 ht2] at h02
      rw [hE1 t2 ht2] at h12
      exact huniq t2 ⟨ht2, by exact_mod_cast h02, by exact_mod_cast h12⟩
  refine ⟨⟨hHsub, hHex, ?_⟩, ⟨hEsub, hEex, ?_⟩⟩
  · rintro t1 t2 ht1 ht2 hne y ⟨⟨h01, h11⟩, ⟨h02, h12⟩⟩
    obtain ⟨t, _, huniq⟩ := hHex y (hHsub t1 ht1 y h01 h11)
    exact hne ((huniq t1 ⟨ht1, h01, h11⟩).trans (huniq t2 ⟨ht2, h02, h12⟩).symm)
  · rintro t1 t2 ht1 ht2 hne y ⟨⟨h01, h11⟩, ⟨h02, h12⟩⟩
    obtain ⟨hy1, hy2⟩ := hEsub t1 ht1 y h01 h11
    obtain ⟨t, _, huniq⟩ := hEex y hy1 hy2
    exact hne ((huniq t1 ⟨ht1, h01, h11⟩).trans (huniq t2 ⟨ht2, h02, h12⟩).symm)

theorem bands_partition_rows_witness :
    ((∀ t, t < 3 → ∀ y, histY0 (histBlock 4 3) t ≤ y →
        y < histY1 4 (histBlock 4 3) t → y < 4) ∧
      (∀ y, y < 4 → ∃! t, t < 3 ∧ histY0 (histBlock 4 3) t ≤ y ∧
        y < histY1 4 (histBlock 4 3) t) ∧
      (∀ t1 t2, t1 < 3 → t2 < 3 → t1 ≠ t2 → ∀ y,
        ¬ ((histY0 (histBlock 4 3) t1 ≤ y ∧ y < histY1 4 (histBlock 4 3) t1) ∧
          (histY0 (histBlock 4 3) t2 ≤ y ∧ y < histY1 4 (histBlock 4 3) t2)))) ∧
    ((∀ t, t < 3 → ∀ y : Int, eqY0 ⟨0, 1, 1, 2⟩ (eqBlock ⟨0, 1, 1, 2⟩ 3) t ≤ y →
        y < eqY1 ⟨0, 1, 1, 2⟩ (eqBlock ⟨0, 1, 1, 2⟩ 3) t → 1 ≤ y ∧ y < 1 + 2) ∧
      (∀ y : Int, 1 ≤ y → y < 1 + 2 →
        ∃! t, t < 3 ∧ eqY0 ⟨0, 1, 1, 2⟩ (eqBlock ⟨0, 1, 1, 2⟩ 3) t ≤ y ∧
          y < eqY1 ⟨0, 1, 1, 2⟩ (eqBlock ⟨0, 1, 1, 2⟩ 3) t) ∧
      (∀ t1 t2, t1 < 3 → t2 < 3 → t1 ≠ t2 → ∀ y : Int,
        ¬ ((eqY0 ⟨0, 1, 1, 2⟩ (eqBlock ⟨0, 1, 1, 2⟩ 3) t1 ≤ y ∧
            y < eqY1 ⟨0, 1, 1, 2⟩ (eqBlock ⟨0, 1, 1, 2⟩ 3) t1) ∧
          (eqY0 ⟨0, 1, 1, 2⟩ (eqBlock ⟨0, 1, 1, 2⟩ 3) t2 ≤ y ∧
            y < eqY1 ⟨0, 1, 1, 2⟩ (eqBlock ⟨0, 1, 1, 2⟩ 3) t2)))) :=
  @bands_partition_rows 4 3 ⟨0, 1, 1, 2⟩ (by decide) (by decide) (by decide) (by decide)
    (by decide)

/-! ## The number of bands -/

/-- C16 (as stated) fails: with two threads and one row (the buffer of two pixels in one row,
and the region of its left pixel), `calculateHistogram` and `equalizeChannel` each create two
bands, more than the one row, and the second band, `[1, 1)`, is empty. -/
theorem bands_exceed_rows_counterexample :
    (exImage.height = 1 ∧ histBands exImage.height 2 = [(0, 1), (1, 1)] ∧
      ¬ (histBands exImage.height 2).length ≤ exImage.height ∧
      bandHistograms exImage 0 2
        = (histBands exImage.height 2).mapM
            (fun b => scanBand exImage 0 b.1 b.2 Histogram.zero)) ∧
    (exRoi.height = 1 ∧ eqBands exRoi 2 = [(0, 1), (1, 1)] ∧
      ¬ ((eqBands exRoi 2).length : Int) ≤ exRoi.height ∧
      ∀ cfh, equalizeChannel exImage exRoi 0 cfh 2
        = (eqBands exRoi 2).foldlM
            (fun im b => remapBand exRoi 0 cfh
              (if exImage.area = 0 then none else some (1 / (exImage.area : ℚ))) b.1 b.2 im)
            exImage) := by
  refine ⟨⟨rfl, by decide, by decide, bandHistograms_eq_bands exImage 0 (by decide)⟩,
    ⟨rfl, by decide, by decide,
      fun cfh => equalizeChannel_eq_bands exImage exRoi 0 cfh (by decide)⟩⟩

/-- C16 (amended): `calculateHistogram` and `equalizeChannel` create as many bands as there
are threads, whatever the number of rows: the thread count is not clamped. The passes run
over exactly these bands, and a band without rows (`y1 ≤ y0`) does nothing: its task leaves
the histogram, respectively the buffer, as it is. -/
theorem bands_count_is_thread_count (image : Image) (roi : Rect) (ch : Int) (threads : Nat) :
    ((histBands image.height threads).length = threads ∧
      (eqBands roi threads).length = threads) ∧
    (threads ≠ 0 →
      bandHistograms image ch threads
        = (histBands image.height threads).mapM
            (fun b => scanBand image ch b.1 b.2 Histogram.zero) ∧
      ∀ cfh, equalizeChannel image roi ch cfh threads
        = (eqBands roi threads).foldlM
            (fun im b => remapBand roi ch cfh
              (if image.area = 0 then none else some (1 / (image.area : ℚ))) b.1 b.2 im)
            image) ∧
    (∀ (y0 y1 : Nat) (h : Histogram), y1 ≤ y0 → scanBand image ch y0 y1 h = .ok h) ∧
    (∀ (y0 y1 : Int) (cfh : Histogram) (invArea : Option ℚ) (im : Image), y1 ≤ y0 →
      remapBand roi ch cfh invArea y0 y1 im = .ok im) := by
  refine ⟨⟨?_, ?_⟩, ?_, ?_, ?_⟩
  · unfold histBands
    rw [List.length_map, List.length_range]
  · unfold eqBands
    rw [List.length_map, List.length_range]
  · intro hT
    exact ⟨bandHistograms_eq_bands image ch hT,
      fun cfh => equalizeChannel_eq_bands image roi ch cfh hT⟩
  · intro y0 y1 h h01
    exact scanBand_empty image ch h01 h
  · intro y0 y1 cfh invArea im h01
    exact remapBand_empty roi ch cfh invArea h01 im

theorem bands_count_is_thread_count_witness :
    ((histBands exTall.height 7).length = 7 ∧ (eqBands exNegative 7).length = 7) ∧
    scanBand exTall 0 1 1 Histogram.zero = .ok Histogram.zero ∧
    bandHistograms exTall 0 7
      = (histBands exTall.height 7).mapM (fun b => scanBand exTall 0 b.1 b.2 Histogram.zero) :=
  ⟨(bands_count_is_thread_count exTall exNegative 0 7).1,
    (bands_count_is_thread_count exTall exNegative 0 7).2.2.1 1 1 Histogram.zero
      (Nat.le_refl 1),
    ((bands_count_is_thread_count exTall exNegative 0 7).2.1 (by decide)).1⟩

/-! ## Quantization in the two passes -/

end Equalization
